import Mathlib

/-!
# Holiday calendar 2026: the calendar grid, the extraction pass and the load pass

A shallow embedding of `main.go` (`buildPage`, the row loop of
`downloadAndExtract2026`, the row loop of `loadHolidays`, the month selection
of the request handler) together with the parts of Go's `time`, `strings` and
`strconv` packages these functions call.

Conventions of the embedding.

* Go `int` is `Int`; Go `uint64` is `Nat` reduced with `u64` wherever the
  library converts or adds (`uint64(day - 1)` wraps for `day = 0`).  In
  `strconv` the `int` and `int64` results are reduced with `i64` to the signed
  64-bit range.
* A Go `string` is a Lean `String`; the library functions that walk over
  bytes are modelled on the list of code points, which agrees with the byte
  walk on valid UTF-8 because every byte they compare against is ASCII; `len`
  counts the bytes of the encoding.
* A Go `time.Time` is its Unix seconds and its location; the calendar
  arithmetic is that of `daysSinceEpoch`, `absDate` and `Time.abs` of package
  `time`.  A location is the table of its zone transitions, and `time.Date`
  and the accessors look the offset up in it as Go does.  `time.Parse` works
  in UTC; `buildPage` works in `time.Local`, which belongs to the machine the
  program runs on and is an argument of the model.
* A Go `map[string]string` is a function `String → Option String`.
* The two passes are modelled on rows: a row is a record that `csv.Reader`
  returned without error, and the output of the extraction pass is the list of
  the records handed to `csv.Writer`.  Network, files and the CSV encoding are
  not part of the model.
-/

namespace HolidayCalendar

/-! ## Package `time`: the calendar arithmetic -/

/-- Conversion to `uint64`: reduction modulo `2^64`. -/
def u64 (x : Int) : Nat := (x % 18446744073709551616).toNat

/-- Conversion to `int64`, and to `int` of 64 bits: reduction to the signed range. -/
def i64 (x : Int) : Int :=
  (x + 9223372036854775808) % 18446744073709551616 - 9223372036854775808

/-- The constant `secondsPerMinute` of package `time`. -/
def secondsPerMinute : Nat := 60

/-- The constant `secondsPerHour` of package `time`. -/
def secondsPerHour : Nat := 3600

/-- The constant `secondsPerDay` of package `time`. -/
def secondsPerDay : Nat := 86400

/-- The constant `secondsPerWeek` of package `time`. -/
def secondsPerWeek : Nat := 604800

/-- The constant `daysPer400Years` of package `time`. -/
def daysPer400Years : Nat := 146097

/-- The constant `daysPer100Years` of package `time`. -/
def daysPer100Years : Nat := 36524

/-- The constant `daysPer4Years` of package `time`. -/
def daysPer4Years : Nat := 1461

/-- The constant `absoluteZeroYear` of package `time`. -/
def absoluteZeroYear : Int := -292277022399

/-- The constant `unixToInternal` of package `time`. -/
def unixToInternal : Int := 62135596800

/-- The constant `internalToUnix` of package `time`. -/
def internalToUnix : Int := -62135596800

/-- The constant `absoluteToInternal` of package `time`. -/
def absoluteToInternal : Int := -9223371966579724800

/-- The constant `internalToAbsolute` of package `time`. -/
def internalToAbsolute : Int := 9223371966579724800

/-- The constant `alpha` of package `time`: the start of the first zone period. -/
def alpha : Int := -9223372036854775808

/-- The constant `omega` of package `time`: the end of the last zone period. -/
def omega : Int := 9223372036854775807

/-- A `*time.Location`, as the table that `lookup` searches: `offset` is the offset, in
seconds east of UTC, of the zone in force before the first transition, and `tx` lists the
transitions in the order of the table, each with the Unix time from which it holds and
the offset of its zone.  `time.UTC` and the nil location are the table without
transitions and with offset 0.  Zone names play no part, and the transitions that the
rule of the extend string gives count as written out in `tx`.  What `time.Local` holds
is not part of the program: `buildPage` takes it as an argument. -/
structure Location where
  offset : Int
  tx : List (Int × Int)
  deriving DecidableEq, Repr

/-- Go `time.UTC`. -/
def UTC : Location := ⟨0, []⟩

/-- The search of `Location.lookup` for the transition with the largest time not after
`sec`: `offset` and `start` belong to the zone in force before the transitions left.
The result is the offset in force at `sec` and the start and end of its period.  Go
searches the table by bisection, which finds the same entry in a table in ascending
order. -/
def lookupFrom : List (Int × Int) → Int → Int → Int → Int × Int × Int
  | [], offset, start, _ => (offset, start, omega)
  | (w, next) :: rest, offset, start, sec =>
    if sec < w then (offset, start, w) else lookupFrom rest next w sec

/-- Go `Location.lookup(sec)`: offset, start and end of the zone period in force at the
Unix time `sec`. -/
def Location.lookup (l : Location) (sec : Int) : Int × Int × Int :=
  lookupFrom l.tx l.offset alpha sec

/-- A `time.Time`: the Unix seconds `t.unixSec()` and the location `t.loc`.  The
nanoseconds are zero in every time of the program. -/
structure Time where
  unix : Int
  loc : Location
  deriving DecidableEq, Repr

/-- Go `Time.abs`: the seconds since the absolute epoch of the local time, the Unix
seconds moved by the offset in force in the location of `t`. -/
def Time.abs (t : Time) : Nat :=
  let sec := t.unix
  let sec := i64 (sec + (t.loc.lookup sec).1)
  u64 (sec + (unixToInternal + internalToAbsolute))

/-- The table `daysBefore` of package `time`: `daysBefore[m]` counts the days of a
non-leap year before month `m+1`. -/
def daysBefore : List Nat :=
  [0, 31, 59, 90, 120, 151, 181, 212, 243, 273, 304, 334, 365]

/-- Go `isLeap`.  The remainders are only compared with zero, so the rounding
convention of `%` plays no part. -/
def isLeap (year : Int) : Bool :=
  year % 4 == 0 && (year % 100 != 0 || year % 400 == 0)

/-- Go `norm(hi, lo, base)`.  Both divisions have non-negative operands, where
Go's truncated division and `/` on `Int` agree. -/
def norm (hi lo base : Int) : Int × Int :=
  let p : Int × Int :=
    if lo < 0 then
      let n := (-lo - 1) / base + 1
      (hi - n, lo + n * base)
    else (hi, lo)
  if p.2 ≥ base then
    let n := p.2 / base
    (p.1 + n, p.2 - n * base)
  else p

/-- Go `daysSinceEpoch`: days from the absolute epoch to the start of `year`. -/
def daysSinceEpoch (year : Int) : Nat :=
  let y := u64 (year - absoluteZeroYear)
  let n := y / 400
  let y := y - 400 * n
  let d := daysPer400Years * n
  let n := y / 100
  let y := y - 100 * n
  let d := d + daysPer100Years * n
  let n := y / 4
  let y := y - 4 * n
  let d := d + daysPer4Years * n
  let n := y
  d + 365 * n

/-- Go `time.Date(year, month, day, hour, min, sec, 0, loc)`: month and clock fields are
normalised, the day is added as it is (`uint64(day - 1)`), and the seconds counted as if
the fields were UTC are moved by the zone offset that `loc` has there; when the time so
found lies outside the period of that zone, by the offset in force at that time.  The
nanoseconds are 0 in every call, so `norm(sec, nsec, 1e9)` changes nothing. -/
def Date (year month day hour min sec : Int) (loc : Location) : Time :=
  let m := month - 1
  let p := norm year m 12
  let year := p.1
  let month := p.2 + 1
  let p := norm min sec 60
  let min := p.1
  let sec := p.2
  let p := norm hour min 60
  let hour := p.1
  let min := p.2
  let p := norm day hour 24
  let day := p.1
  let hour := p.2
  let d := daysSinceEpoch year
  let d := d + daysBefore.getD (month - 1).toNat 0
  let d := if isLeap year && month ≥ 3 then d + 1 else d
  let d := u64 ((d : Int) + (u64 (day - 1) : Int))
  let abs := u64 ((d : Int) * secondsPerDay)
  let abs := u64 ((abs : Int) + (u64 (hour * secondsPerHour + min * secondsPerMinute + sec) : Int))
  let unix := i64 (i64 (abs : Int) + (absoluteToInternal + internalToUnix))
  let r := loc.lookup unix
  let unix :=
    if r.1 ≠ 0 then
      let utc := i64 (unix - r.1)
      let offset := if utc < r.2.1 ∨ utc ≥ r.2.2 then (loc.lookup utc).1 else r.1
      i64 (unix - offset)
    else unix
  ⟨unix, loc⟩

/-- Go `absDate(abs, true)` without the year day: year, month and day of an
absolute time. -/
def absDate (abs : Nat) : Int × Int × Int :=
  let d := abs / secondsPerDay
  let n := d / daysPer400Years
  let y := 400 * n
  let d := d - daysPer400Years * n
  let n := d / daysPer100Years
  let n := n - n / 4
  let y := y + 100 * n
  let d := d - daysPer100Years * n
  let n := d / daysPer4Years
  let y := y + 4 * n
  let d := d - daysPer4Years * n
  let n := d / 365
  let n := n - n / 4
  let y := y + n
  let d := d - 365 * n
  let year : Int := (y : Int) + absoluteZeroYear
  let day := d
  if isLeap year && day == 31 + 29 - 1 then (year, 2, 29)
  else
    let day := if isLeap year && day > 31 + 29 - 1 then day - 1 else day
    let month := day / 31
    let e := daysBefore.getD (month + 1) 0
    if day ≥ e then (year, ((month + 1 + 1 : Nat) : Int), ((day - e + 1 : Nat) : Int))
    else (year, ((month + 1 : Nat) : Int), ((day - daysBefore.getD month 0 + 1 : Nat) : Int))

/-- Go `Time.Year`. -/
def Time.Year (t : Time) : Int := (absDate t.abs).1

/-- Go `Time.Month`. -/
def Time.Month (t : Time) : Int := (absDate t.abs).2.1

/-- Go `Time.Day`. -/
def Time.Day (t : Time) : Int := (absDate t.abs).2.2

/-- Go `Time.Weekday` (`absWeekday`): 0 is Sunday. -/
def Time.Weekday (t : Time) : Int :=
  (((t.abs + 1 * secondsPerDay) % secondsPerWeek) / secondsPerDay : Nat)

/-- Go `absClock(abs)`: hour, minute and second within the day. -/
def absClock (abs : Nat) : Int × Int × Int :=
  let sec := abs % secondsPerDay
  let hour := sec / secondsPerHour
  let sec := sec - hour * secondsPerHour
  let min := sec / secondsPerMinute
  let sec := sec - min * secondsPerMinute
  ((hour : Int), (min : Int), (sec : Int))

/-- Go `Time.Clock`. -/
def Time.Clock (t : Time) : Int × Int × Int := absClock t.abs

/-- Go `Time.AddDate(years, months, days)`: `Date` of the shifted date, the clock and
the location of `t`. -/
def Time.AddDate (t : Time) (years months days : Int) : Time :=
  let c := t.Clock
  Date (t.Year + years) (t.Month + months) (t.Day + days) c.1 c.2.1 c.2.2 t.loc

/-- Go `daysIn(m, year)` of package `time`. -/
def daysIn (m : Int) (year : Int) : Int :=
  if m == 2 && isLeap year then 29
  else ((daysBefore.getD m.toNat 0 : Nat) : Int) - ((daysBefore.getD (m - 1).toNat 0 : Nat) : Int)

/-- The zero `time.Time`: January 1 of year 1, UTC (`wall` and `ext` zero, `loc` nil). -/
def zeroTime : Time := ⟨internalToUnix, UTC⟩

/-! ## Package `time`: formatting and parsing -/

/-- The decimal digits of `u`, most significant first; `fuel` bounds the number of
digits after the first (the loop `for u >= 10` of `appendInt`). -/
def decimalDigits : Nat → Nat → List Char
  | 0, u => [Char.ofNat (48 + u % 10)]
  | fuel + 1, u =>
    if u ≥ 10 then decimalDigits fuel (u / 10) ++ [Char.ofNat (48 + u % 10)]
    else [Char.ofNat (48 + u)]

/-- Go `appendInt(b, x, width)` of package `time`, as the bytes appended: a minus sign
for a negative `x`, zero padding up to `width`, the decimal digits. -/
def appendInt (x : Int) (width : Nat) : List Char :=
  let sign : List Char := if x < 0 then ['-'] else []
  let u : Nat := x.natAbs
  let digits := decimalDigits 20 u
  sign ++ List.replicate (width - digits.length) '0' ++ digits

/-- The layout elements (`std...` constants of package `time`) that a layout made of
the bytes `0`, `1`, `2`, `6`, `-`, `/`, `:` and space can contain.  `stdNumTZ` stands
for the whole family of numeric zone offsets, which all begin with `-07`. -/
inductive Std
  | none
  | stdLongYear
  | stdYear
  | stdNumMonth
  | stdZeroMonth
  | stdDay
  | stdZeroDay
  | stdHour
  | stdZeroHour12
  | stdZeroMinute
  | stdZeroSecond
  | stdZeroYearDay
  | stdNumTZ
  deriving DecidableEq, Repr

/-- Go `nextStdChunk(layout)`: the literal text in front of the first layout element,
the element, and the rest of the layout.  `pre` accumulates the literal text in
reverse.  The cases of the switch on the bytes `0`, `1`, `2` and `-` are modelled;
the other cases (month and weekday names, `_2`, `3`, `4`, `5`, `PM`, `Z07`, fractional
seconds) start with bytes that no layout of this program contains. -/
def nextStdChunkFrom (pre : List Char) : List Char → List Char × Std × List Char
  | [] => (pre.reverse, Std.none, [])
  | c :: rest =>
    if c = '0' then
      match rest with
      | '1' :: s => (pre.reverse, Std.stdZeroMonth, s)
      | '2' :: s => (pre.reverse, Std.stdZeroDay, s)
      | '3' :: s => (pre.reverse, Std.stdZeroHour12, s)
      | '4' :: s => (pre.reverse, Std.stdZeroMinute, s)
      | '5' :: s => (pre.reverse, Std.stdZeroSecond, s)
      | '6' :: s => (pre.reverse, Std.stdYear, s)
      | '0' :: '2' :: s => (pre.reverse, Std.stdZeroYearDay, s)
      | _ => nextStdChunkFrom (c :: pre) rest
    else if c = '1' then
      match rest with
      | '5' :: s => (pre.reverse, Std.stdHour, s)
      | _ => (pre.reverse, Std.stdNumMonth, rest)
    else if c = '2' then
      match rest with
      | '0' :: '0' :: '6' :: s => (pre.reverse, Std.stdLongYear, s)
      | _ => (pre.reverse, Std.stdDay, rest)
    else if c = '-' then
      match rest with
      | '0' :: '7' :: s => (pre.reverse, Std.stdNumTZ, s)
      | _ => nextStdChunkFrom (c :: pre) rest
    else nextStdChunkFrom (c :: pre) rest

/-- Go `nextStdChunk`. -/
def nextStdChunk (layout : List Char) : List Char × Std × List Char :=
  nextStdChunkFrom [] layout

/-- Go `Time.AppendFormat`, the loop over the layout; the elements other than year,
month and day are outside the model and end the output. -/
def appendFormat (year month day : Int) : Nat → List Char → List Char
  | 0, _ => []
  | fuel + 1, layout =>
    match nextStdChunk layout with
    | (pre, Std.none, _) => pre
    | (pre, Std.stdLongYear, suffix) =>
      pre ++ appendInt year 4 ++ appendFormat year month day fuel suffix
    | (pre, Std.stdNumMonth, suffix) =>
      pre ++ appendInt month 0 ++ appendFormat year month day fuel suffix
    | (pre, Std.stdZeroMonth, suffix) =>
      pre ++ appendInt month 2 ++ appendFormat year month day fuel suffix
    | (pre, Std.stdDay, suffix) =>
      pre ++ appendInt day 0 ++ appendFormat year month day fuel suffix
    | (pre, Std.stdZeroDay, suffix) =>
      pre ++ appendInt day 2 ++ appendFormat year month day fuel suffix
    | (pre, _, _) => pre

/-- Go `Time.Format(layout)`. -/
def Time.Format (t : Time) (layout : String) : String :=
  ⟨appendFormat t.Year t.Month t.Day (layout.data.length + 1) layout.data⟩

/-- Why `time.Parse` failed. -/
inductive ParseError
  | bad
  | monthRange
  | extraText
  | dayRange
  | notModelled
  deriving DecidableEq, Repr

deriving instance DecidableEq for Except

/-- Go `isDigit(s, i)`. -/
def isDigit (s : List Char) (i : Nat) : Bool :=
  match s.get? i with
  | some c => decide ('0' ≤ c ∧ c ≤ '9')
  | Option.none => false

/-- Go `cutspace`. -/
def cutspace (s : List Char) : List Char := s.dropWhile (fun c => c = ' ')

/-- Go `skip(value, prefix)`: removes the literal text `pfx` from the front of `value`,
a run of spaces in `pfx` matching any run of spaces.  Every round shortens `pfx`,
so `fuel = pfx.length` rounds suffice. -/
def skipFuel : Nat → List Char → List Char → Option (List Char)
  | _, value, [] => some value
  | 0, _, _ :: _ => Option.none
  | fuel + 1, value, p :: pfx =>
    if p = ' ' then
      if value.length > 0 ∧ value.head? ≠ some ' ' then Option.none
      else skipFuel fuel (cutspace value) (cutspace (p :: pfx))
    else
      match value with
      | [] => Option.none
      | v :: vs => if v ≠ p then Option.none else skipFuel fuel vs pfx

/-- Go `skip`. -/
def skip (value pfx : List Char) : Option (List Char) :=
  skipFuel pfx.length value pfx

/-- Go `getnum(s, fixed)`: one or two digits, two when `fixed`. -/
def getnum (s : List Char) (fixed : Bool) : Option (Int × List Char) :=
  if !isDigit s 0 then Option.none
  else if !isDigit s 1 then
    if fixed then Option.none
    else some (((s.getD 0 '0').toNat - 48 : Nat), s.drop 1)
  else some (((s.getD 0 '0').toNat - 48 : Nat) * 10 + ((s.getD 1 '0').toNat - 48 : Nat), s.drop 2)

/-- Go `leadingInt(s)`: the leading digits as a number and the rest, `none` on
overflow of the 63-bit range. -/
def leadingInt : Nat → List Char → Option (Nat × List Char)
  | x, [] => some (x, [])
  | x, c :: rest =>
    if c < '0' ∨ c > '9' then some (x, c :: rest)
    else if x > 9223372036854775808 / 10 then Option.none
    else
      let x := x * 10 + (c.toNat - 48)
      if x > 9223372036854775808 then Option.none else leadingInt x rest

/-- Go `atoi(s)` of package `time`. -/
def atoi (s : List Char) : Option Int :=
  let neg := decide (s.head? = some '-')
  let s := if s.head? = some '-' ∨ s.head? = some '+' then s.drop 1 else s
  match leadingInt 0 s with
  | some (q, []) => some (if neg then -(q : Int) else (q : Int))
  | _ => Option.none

/-- Go `parse`, the loop that processes one layout element per round, then the
validation of the day and the call of `Date` (in UTC).  `month` and `day` start at
`-1` and default to January and 1. -/
def parseFuel : Nat → List Char → List Char → Int → Int → Int → Except ParseError Time
  | 0, _, _, _, _, _ => Except.error ParseError.notModelled
  | fuel + 1, layout, value, year, month, day =>
    match nextStdChunk layout with
    | (pre, std, suffix) =>
      match skip value pre with
      | Option.none => Except.error ParseError.bad
      | some value =>
        match std with
        | Std.none =>
          if value.length ≠ 0 then Except.error ParseError.extraText
          else
            let month := if month < 0 then 1 else month
            let day := if day < 0 then 1 else day
            if day < 1 ∨ day > daysIn month year then Except.error ParseError.dayRange
            else Except.ok (Date year month day 0 0 0 UTC)
        | Std.stdLongYear =>
          if value.length < 4 ∨ !isDigit value 0 then Except.error ParseError.bad
          else
            match atoi (value.take 4) with
            | Option.none => Except.error ParseError.bad
            | some y => parseFuel fuel suffix (value.drop 4) y month day
        | Std.stdNumMonth =>
          match getnum value false with
          | Option.none => Except.error ParseError.bad
          | some (m, value) =>
            if m ≤ 0 ∨ 12 < m then Except.error ParseError.monthRange
            else parseFuel fuel suffix value year m day
        | Std.stdZeroMonth =>
          match getnum value true with
          | Option.none => Except.error ParseError.bad
          | some (m, value) =>
            if m ≤ 0 ∨ 12 < m then Except.error ParseError.monthRange
            else parseFuel fuel suffix value year m day
        | Std.stdDay =>
          match getnum value false with
          | Option.none => Except.error ParseError.bad
          | some (d, value) => parseFuel fuel suffix value year month d
        | Std.stdZeroDay =>
          match getnum value true with
          | Option.none => Except.error ParseError.bad
          | some (d, value) => parseFuel fuel suffix value year month d
        | _ => Except.error ParseError.notModelled

/-- Go `time.Parse(layout, value)`.  Every round but the last consumes at least one
byte of the layout, so `layout.length + 1` rounds suffice. -/
def Parse (layout value : String) : Except ParseError Time :=
  parseFuel (layout.data.length + 1) layout.data value.data 0 (-1) (-1)

/-! ## Package `strings` -/

/-- Go `unicode.IsSpace`: the Latin-1 spaces and the `White_Space` table. -/
def isSpace (c : Char) : Bool :=
  let n := c.toNat
  (9 ≤ n && n ≤ 13) || n == 32 || n == 133 || n == 160 || n == 5760 ||
    (8192 ≤ n && n ≤ 8202) || n == 8232 || n == 8233 || n == 8239 || n == 8287 ||
    n == 12288

/-- Go `strings.TrimSpace` on the code points: leading and trailing white space
removed. -/
def trimSpaceChars (s : List Char) : List Char :=
  ((s.dropWhile isSpace).reverse.dropWhile isSpace).reverse

/-- Go `strings.TrimSpace`. -/
def TrimSpace (s : String) : String := ⟨trimSpaceChars s.data⟩

/-- Go `strings.TrimPrefix(s, pfx)`: `s` without the leading `pfx` when it has it,
`s` otherwise. -/
def TrimPrefix (s pfx : String) : String :=
  if pfx.data.isPrefixOf s.data then ⟨s.data.drop pfx.data.length⟩ else s

/-! ## Packages `strconv` and `net/url` -/

/-- The errors `ErrSyntax` and `ErrRange` of package `strconv`. -/
inductive NumError where
  | ErrSyntax
  | ErrRange
  deriving DecidableEq, Repr

/-- Go `len(s)`: the number of bytes of the UTF-8 encoding. -/
def len (s : List Char) : Nat := (s.map Char.utf8Size).sum

/-- The constant `maxUint64` of package `strconv`. -/
def maxUint64 : Nat := 18446744073709551615

/-- Go `lower(c)` of package `strconv`: `c | ('x' - 'X')`. -/
def lower (c : Nat) : Nat := c ||| 32

/-- The byte loop of `ParseUint(s, 10, 0)`: `n` is the value read so far, the result is
the value and the error returned.  With base 10 the underscore case is never taken, and
the cutoff is `maxUint64/10 + 1`; `maxVal` is `1<<64 - 1`. -/
def parseUintLoop : List Char → Nat → Nat × Option NumError
  | [], n => (n, Option.none)
  | c :: rest, n =>
    let digit : Option Nat :=
      if '0' ≤ c ∧ c ≤ '9' then some (c.toNat - 48)
      else if 97 ≤ lower c.toNat ∧ lower c.toNat ≤ 122 then some (lower c.toNat - 97 + 10)
      else Option.none
    match digit with
    | Option.none => (0, some NumError.ErrSyntax)
    | some d =>
      if d ≥ 10 then (0, some NumError.ErrSyntax)
      else if n ≥ maxUint64 / 10 + 1 then (maxUint64, some NumError.ErrRange)
      else
        let n := u64 ((n : Int) * 10)
        let n1 := u64 ((n : Int) + (d : Int))
        if n1 < n ∨ n1 > maxUint64 then (maxUint64, some NumError.ErrRange)
        else parseUintLoop rest n1

/-- Go `strconv.ParseUint(s, 10, 0)` with 64-bit `int`. -/
def ParseUint (s : List Char) : Nat × Option NumError :=
  if s = [] then (0, some NumError.ErrSyntax) else parseUintLoop s 0

/-- Go `strconv.ParseInt(s, 10, 0)` with 64-bit `int`: after the sign the digits go
through `ParseUint`; a syntax error is returned as it is, a range error leaves
`un = maxVal` to the cutoff test. -/
def ParseInt (s : List Char) : Int × Option NumError :=
  match s with
  | [] => (0, some NumError.ErrSyntax)
  | c :: rest =>
    let neg : Bool := if c = '+' then false else if c = '-' then true else false
    let s1 := if c = '+' then rest else if c = '-' then rest else c :: rest
    match ParseUint s1 with
    | (_, some NumError.ErrSyntax) => (0, some NumError.ErrSyntax)
    | (un, _) =>
      let cutoff : Nat := 9223372036854775808
      if !neg ∧ un ≥ cutoff then (((cutoff - 1 : Nat) : Int), some NumError.ErrRange)
      else if neg ∧ un > cutoff then (-(cutoff : Int), some NumError.ErrRange)
      else
        let n := i64 (un : Int)
        let n := if neg then i64 (-n) else n
        (n, Option.none)

/-- The digit loop of the fast path of `strconv.Atoi`: `ch -= '0'` leaves a byte above 9
exactly when the byte is not a digit. -/
def atoiLoop : List Char → Int → Option Int
  | [], n => some n
  | ch :: rest, n =>
    if ch < '0' ∨ ch > '9' then Option.none
    else atoiLoop rest (i64 (n * 10 + ((ch.toNat - 48 : Nat) : Int)))

/-- Go `strconv.Atoi(s)` with 64-bit `int`: the value and the error. -/
def Atoi (s : String) : Int × Option NumError :=
  let sLen := len s.data
  if 0 < sLen ∧ sLen < 19 then
    match s.data with
    | [] => (0, some NumError.ErrSyntax)
    | c :: rest =>
      let signed : Bool := decide (c = '-' ∨ c = '+')
      let s1 := if signed then rest else c :: rest
      if signed ∧ len s1 < 1 then (0, some NumError.ErrSyntax)
      else
        match atoiLoop s1 0 with
        | Option.none => (0, some NumError.ErrSyntax)
        | some n => (if c = '-' then i64 (-n) else n, Option.none)
  else ParseInt s.data

/-- Go `url.Values.Get` for one key: `vs` are the values of the key in the query, the
result is the first of them, or the empty string when there is none. -/
def Get (vs : List String) : String :=
  match vs with
  | [] => ""
  | v :: _ => v

/-! ## `main.go` -/

/-- The type `Cell`. -/
structure Cell where
  Zero : Bool
  T : Time
  Day : Int
  Holiday : String
  deriving DecidableEq, Repr

/-- The type `Page`. -/
structure Page where
  Year : Int
  Month : Int
  Weeks : List (List Cell)
  CSVPath : String
  PrevMonthURL : String
  NextMonthURL : String
  deriving DecidableEq, Repr

/-- A Go `map[string]string`. -/
abbrev HolMap := String → Option String

/-- Indexing a Go map: the zero value, the empty string, for a missing key. -/
def HolMap.index (hol : HolMap) (key : String) : String := (hol key).getD ""

/-- Assignment `hol[key] = name`. -/
def HolMap.set (hol : HolMap) (key name : String) : HolMap :=
  fun k => if k = key then some name else hol k

/-- The empty map, `make(map[string]string)`. -/
def HolMap.empty : HolMap := fun _ => Option.none

/-- The composite literal `Cell{Zero: true}`: the other fields have their zero values. -/
def zeroCell : Cell := { Zero := true, T := zeroTime, Day := 0, Holiday := "" }

/-- The loop `for i := 0; i < startW; i++ { week = append(week, Cell{Zero: true}) }`,
with `n` the number of rounds left. -/
def padLoop : Nat → List Cell → List Cell
  | 0, week => week
  | n + 1, week => padLoop n (week ++ [zeroCell])

/-- The loop `for d := 1; d <= days; d++` of `buildPage`, with `n = days - d + 1` the
number of rounds left and the state `(weeks, week)`. -/
def dayLoop (loc : Location) (year month : Int) (hol : HolMap) :
    Nat → Int → List (List Cell) × List Cell → List (List Cell) × List Cell
  | 0, _, st => st
  | n + 1, d, (weeks, week) =>
    let t := Date year month d 0 0 0 loc
    let key := t.Format "2006-01-02"
    let cell : Cell := { Zero := false, T := t, Day := d, Holiday := hol.index key }
    let week := week ++ [cell]
    if week.length = 7 then dayLoop loc year month hol n (d + 1) (weeks ++ [week], [])
    else dayLoop loc year month hol n (d + 1) (weeks, week)

/-- The loop `for len(week) < 7 { week = append(week, Cell{Zero: true}) }`; it is
entered with a non-empty week, so 7 rounds of fuel are not used up. -/
def fillLoop : Nat → List Cell → List Cell
  | 0, week => week
  | n + 1, week => if week.length < 7 then fillLoop n (week ++ [zeroCell]) else week

/-- The verb `%d` of `fmt.Sprintf`. -/
def formatInt (x : Int) : String := ⟨appendInt x 0⟩

/-- The function `buildPage`; `Local` is the value of `time.Local`. -/
def buildPage (Local : Location) (year month : Int) (hol : HolMap) (csvPath : String) :
    Page :=
  let loc := Local
  let first := Date year month 1 0 0 0 loc
  let startW := first.Weekday
  let nextMonth :=
    if month = 12 then Date (year + 1) 1 1 0 0 0 loc else Date year (month + 1) 1 0 0 0 loc
  let days := (nextMonth.AddDate 0 0 (-1)).Day
  let week := padLoop startW.toNat []
  let st := dayLoop loc year month hol days.toNat 1 ([], week)
  let weeks := if st.2.length > 0 then st.1 ++ [fillLoop 7 st.2] else st.1
  let prevURL := if month > 1 then "/?m=" ++ formatInt (month - 1) else ""
  let nextURL := if month < 12 then "/?m=" ++ formatInt (month + 1) else ""
  { Year := year, Month := month, Weeks := weeks, CSVPath := csvPath,
    PrevMonthURL := prevURL, NextMonthURL := nextURL }

/-- The loop `for i := range rec` of both passes, from index `i` on: every field is
trimmed, and the field with index 0 loses a leading byte order mark. -/
def normalizeFrom : Nat → List String → List String
  | _, [] => []
  | i, f :: fs =>
    let f := TrimSpace f
    let f := if i = 0 then TrimPrefix f "\uFEFF" else f
    f :: normalizeFrom (i + 1) fs

/-- The loop `for _, fm := range formats` of both passes: `dt, perr` after the loop,
from their values before it.  A successful parse breaks out of the loop. -/
def parseLoop (dateStr : String) :
    List String → Time × Option ParseError → Time × Option ParseError
  | [], st => st
  | fm :: rest, _ =>
    match Parse fm dateStr with
    | Except.ok t => (t, Option.none)
    | Except.error e => parseLoop dateStr rest (zeroTime, some e)

/-- The layouts of `downloadAndExtract2026`. -/
def extractFormats : List String := ["2006/1/2", "2006/01/02", "2006-01-02", "2006/1/2 0:00:00"]

/-- The layouts of `loadHolidays`. -/
def loadFormats : List String := ["2006-01-02", "2006/01/02", "2006/1/2"]

/-- One round of the row loop of `downloadAndExtract2026` for a record `rec` read
without error: `out` is what has been written so far. -/
def extractStep (out : List (List String)) (record : List String) : List (List String) :=
  if record.length = 0 then out
  else
    let record := normalizeFrom 0 record
    let dateStr := record.getD 0 ""
    match parseLoop dateStr extractFormats (zeroTime, Option.none) with
    | (_, some _) => out
    | (dt, Option.none) =>
      if dt.Year ≠ 2026 then out
      else
        let name := if record.length ≥ 2 then record.getD 1 "" else ""
        out ++ [[dt.Format "2006-01-02", name]]

/-- The row loop of `downloadAndExtract2026` over the records of the source: the
records written, in order. -/
def extractRows (rows : List (List String)) : List (List String) :=
  rows.foldl extractStep []

/-- One round of the row loop of `loadHolidays`. -/
def loadStep (hol : HolMap) (record : List String) : HolMap :=
  if record.length < 1 then hol
  else
    let record := normalizeFrom 0 record
    let dateStr := record.getD 0 ""
    let name := if record.length ≥ 2 then record.getD 1 "" else ""
    match parseLoop dateStr loadFormats (zeroTime, Option.none) with
    | (_, some _) => hol
    | (dt, Option.none) =>
      let name := if name = "" then "祝日" else name
      hol.set (dt.Format "2006-01-02") name

/-- The row loop of `loadHolidays` over the records of the file: the map returned. -/
def loadRows (rows : List (List String)) : HolMap :=
  rows.foldl loadStep HolMap.empty

/-- The month that the request handler of `main` passes to `buildPage`: `now` is the
value of `time.Now()`, `vs` the values of the query parameter `m`. -/
def handlerMonth (now : Time) (vs : List String) : Int :=
  let month : Int := 1
  let month := if now.Year = 2026 then now.Month else month
  let ms := Get vs
  if ms ≠ "" then
    match Atoi ms with
    | (mi, Option.none) => if mi ≥ 1 ∧ mi ≤ 12 then mi else month
    | (_, some _) => month
  else month

/-! ## The calendar and the two passes, stated on their own

The definitions of this section do not come from the code: they say what a weekday, a
month length, a date key, the written forms of a date, the entry of a row, the last row
with a key, a decimal integer and the default month are, and the theorems compare the
code with them. -/

/-- A year is a leap year when it is divisible by 4 and not by 100, or divisible by 400. -/
def gregorianLeap (year : Int) : Prop :=
  (4 ∣ year ∧ ¬ 100 ∣ year) ∨ 400 ∣ year

instance (year : Int) : Decidable (gregorianLeap year) := by
  unfold gregorianLeap
  exact inferInstance

/-- The number of days the Gregorian calendar gives a month. -/
def gregorianDays (year month : Int) : Nat :=
  if month = 1 ∨ month = 3 ∨ month = 5 ∨ month = 7 ∨ month = 8 ∨ month = 10 ∨ month = 12 then 31
  else if month = 4 ∨ month = 6 ∨ month = 9 ∨ month = 11 then 30
  else if month = 2 then (if gregorianLeap year then 29 else 28)
  else 0

/-- The character of the last decimal digit of `n`. -/
def digitChar (n : Nat) : Char := Char.ofNat (48 + n % 10)

/-- A number below 100 written with two digits. -/
def pad2 (n : Nat) : List Char := [digitChar (n / 10), digitChar n]

/-- A number below 10000 written with four digits. -/
def pad4 (n : Nat) : List Char :=
  [digitChar (n / 1000), digitChar (n / 100), digitChar (n / 10), digitChar n]

/-- The zero-padded `YYYY-MM-DD` form of a date with a year in 0..9999. -/
def isoDate (year month day : Int) : String :=
  ⟨pad4 year.toNat ++ '-' :: pad2 month.toNat ++ '-' :: pad2 day.toNat⟩

/-- A number below 100 written without padding. -/
def plain2 (n : Nat) : List Char := if n < 10 then [digitChar n] else pad2 n

/-- The zero-padded `YYYY/MM/DD` form of a date. -/
def slashDate (y m d : Nat) : String := ⟨pad4 y ++ '/' :: (pad2 m ++ '/' :: pad2 d)⟩

/-- The form `YYYY/M/D` of a date: a year of four digits, month and day without padding. -/
def slashPlainDate (y m d : Nat) : String := ⟨pad4 y ++ '/' :: (plain2 m ++ '/' :: plain2 d)⟩

/-- The date a text parses to under an ordered list of layouts: the date of the first
layout, in list order, that parses the text. -/
def firstParse (layouts : List String) (s : String) : Option Time :=
  layouts.findSome? (fun fm =>
    match Parse fm s with
    | Except.ok t => some t
    | Except.error _ => Option.none)

/-- The normalized first field of a row: trimmed, then without a leading byte order
mark. -/
def dateField (row : List String) : String :=
  TrimPrefix (TrimSpace (row.getD 0 "")) "\uFEFF"

/-- The normalized second field of a row, the empty string when the row has none. -/
def labelField (row : List String) : String :=
  match row with
  | _ :: l :: _ => TrimSpace l
  | _ => ""

/-- The entry a source row contributes to the extraction output, if any: the row has a
field, its normalized first field parses under the extraction layouts, and the year of
the date is 2026. -/
def entryOf (row : List String) : Option (List String) :=
  match row with
  | [] => Option.none
  | _ :: _ =>
    match firstParse extractFormats (dateField row) with
    | some dt =>
      if dt.Year = 2026 then some [isoDate dt.Year dt.Month dt.Day, labelField row]
      else Option.none
    | Option.none => Option.none

/-- The key under which the load pass stores a row: the zero-padded form of the date its
normalized first field parses to under the loader layouts, if it has a field and parses. -/
def rowKey (row : List String) : Option String :=
  match row with
  | [] => Option.none
  | _ :: _ =>
    (firstParse loadFormats (dateField row)).map (fun dt => isoDate dt.Year dt.Month dt.Day)

/-- The label of a row after defaulting: the normalized label, or the placeholder of
`loadHolidays` when that is empty. -/
def defaultedLabel (row : List String) : String :=
  if labelField row = "" then "祝日" else labelField row

/-- What the load pass stores for a label. -/
def withDefault (l : String) : String := if l = "" then "祝日" else l

/-- The last row of the sequence whose date parses to the key `k`. -/
def lastRowWithKey (rows : List (List String)) (k : String) : Option (List String) :=
  rows.reverse.find? (fun r => decide (rowKey r = some k))

/-- The label of the last source row whose date parses under the extraction layouts to
the date of 2026 with key `k`. -/
def lastSourceLabel (rows : List (List String)) (k : String) : Option String :=
  rows.reverse.findSome? (fun r =>
    match entryOf r with
    | some [k2, l] => if k2 = k then some l else Option.none
    | _ => Option.none)

/-- The label of the last source row whose date parses under the extraction layouts to
the date of 2026 with key `k` and whose normalized label is not empty. -/
def lastLabelledSourceLabel (rows : List (List String)) (k : String) : Option String :=
  rows.reverse.findSome? (fun r =>
    match entryOf r with
    | some [k2, l] => if k2 = k ∧ l ≠ "" then some l else Option.none
    | _ => Option.none)

/-- The number read when the ASCII digits `s` are written after the number `n`. -/
def digitsValue (n : Nat) (s : List Char) : Nat :=
  s.foldl (fun a c => 10 * a + (c.toNat - 48)) n

/-- Every character is an ASCII digit. -/
def allDigits (s : List Char) : Bool := s.all (fun c => decide ('0' ≤ c ∧ c ≤ '9'))

/-- The value of a non-empty run of ASCII digits read as a decimal number. -/
def decimalNat (s : List Char) : Option Nat :=
  if s ≠ [] ∧ allDigits s = true then some (digitsValue 0 s) else Option.none

/-- The value of a decimal integer: an optional sign, then one or more ASCII digits. -/
def decimalInt (s : List Char) : Option Int :=
  match s with
  | [] => Option.none
  | c :: r =>
    if c = '+' then (decimalNat r).map (fun (n : Nat) => (n : Int))
    else if c = '-' then (decimalNat r).map (fun (n : Nat) => -(n : Int))
    else (decimalNat (c :: r)).map (fun (n : Nat) => (n : Int))

/-- The value of a text that is a decimal integer. -/
def decimalInteger (s : String) : Option Int := decimalInt s.data

/-- The default month of the handler: the current month when the current year is 2026,
January otherwise. -/
def defaultMonth (now : Time) : Int := if now.Year = 2026 then now.Month else 1

/-- Days of the Gregorian calendar from January 1 of year 1 up to the given day, that day
not counted.  A day number beyond the length of the month counts on into the following
month. -/
def civilDay (year month day : Int) : Int :=
  365 * (year - 1) + ((year - 1) / 4 - (year - 1) / 100 + (year - 1) / 400)
    + (((List.range (month.toNat - 1)).map
        (fun (k : Nat) => gregorianDays year ((k : Int) + 1))).sum : Nat)
    + (day - 1)

/-- The reading 00:00:00 of the clock on the given day, as seconds counted from the same
reading on January 1 of 1970: the Unix time of the midnight in a zone without offset. -/
def midnight (year month day : Int) : Int := (civilDay year month day - 719162) * 86400

/-- The transitions left are in ascending order of time, none before `lo`, and every
offset fits 32 bits, as in the zone files. -/
def ascendingFrom : Int → List (Int × Int) → Prop
  | _, [] => True
  | lo, (w, o) :: rest =>
    lo ≤ w ∧ -2147483648 ≤ o ∧ o ≤ 2147483647 ∧ ascendingFrom w rest

instance (lo : Int) (tx : List (Int × Int)) : Decidable (ascendingFrom lo tx) := by
  induction tx generalizing lo with
  | nil => exact isTrue trivial
  | cons t rest ih =>
    unfold ascendingFrom
    exact inferInstance

/-- A zone table as the zone files give it: transitions in ascending order of time and
offsets of 32 bits. -/
def Location.wellFormed (loc : Location) : Prop :=
  -2147483648 ≤ loc.offset ∧ loc.offset ≤ 2147483647 ∧ ascendingFrom alpha loc.tx

instance (loc : Location) : Decidable loc.wellFormed := by
  unfold Location.wellFormed
  exact inferInstance

/-- The offset in force in the location at the Unix time `sec`. -/
def Location.offsetAt (loc : Location) (sec : Int) : Int := (loc.lookup sec).1

/-- The clock reading `u`, in seconds counted as if the clock showed UTC, is kept by the
location: with `o` the offset in force one offset before `u`, the time `u - o` has the
offset `o`, so its local clock reads `u`.  A transition that moves the clock forward over
`u` (the start of a daylight saving time at that reading) is what makes this fail. -/
def Location.keeps (loc : Location) (u : Int) : Prop :=
  loc.offsetAt (u - loc.offsetAt (u - loc.offsetAt u)) = loc.offsetAt (u - loc.offsetAt u)

instance (loc : Location) (u : Int) : Decidable (loc.keeps u) := by
  unfold Location.keeps
  exact inferInstance

/-- The zone table of America/Havana in 2026 (tzdata): UTC-5 until March 8, 05:00 UTC,
when the local clock goes from 00:00 to 01:00, then UTC-4 until November 1, 05:00 UTC,
then UTC-5. -/
def havana : Location := ⟨-18000, [(1772946000, -14400), (1793509200, -18000)]⟩

/-- The zone table of Asia/Tokyo since 1951: UTC+9 without transitions. -/
def tokyo : Location := ⟨32400, []⟩

/-! ## Auxiliary definitions of the proofs -/

/-- The zone adjustment at the end of `time.Date`: the Unix time that `Date` returns for
the seconds `unix` counted as if the fields were UTC. -/
def resolve (loc : Location) (unix : Int) : Int :=
  let r := loc.lookup unix
  if r.1 ≠ 0 then
    let utc := i64 (unix - r.1)
    let offset := if utc < r.2.1 ∨ utc ≥ r.2.2 then (loc.lookup utc).1 else r.1
    i64 (unix - offset)
  else unix

/-- The value of `startW` in `buildPage`. -/
def startWOf (loc : Location) (year month : Int) : Int :=
  (Date year month 1 0 0 0 loc).Weekday

/-- The value of `days` in `buildPage`. -/
def daysOf (loc : Location) (year month : Int) : Int :=
  ((if month = 12 then Date (year + 1) 1 1 0 0 0 loc
    else Date year (month + 1) 1 0 0 0 loc).AddDate 0 0 (-1)).Day


/-- Days of the year before month `m` (1-based), leap day included. -/
def beforeMonth (leap : Bool) (m : Nat) : Nat :=
  daysBefore.getD (m - 1) 0 + (if leap && decide (3 ≤ m) then 1 else 0)

/-- Length of month `m` (1-based) from the table. -/
def monthLen (leap : Bool) (m : Nat) : Nat :=
  if m = 2 ∧ leap = true then 29 else daysBefore.getD m 0 - daysBefore.getD (m - 1) 0

/-- The month and day part of `absDate`, from the leap flag and the year day. -/
def ydayMonthDay (leap : Bool) (day : Nat) : Int × Int :=
  if leap && day == 31 + 29 - 1 then (2, 29)
  else
    let day := if leap && day > 31 + 29 - 1 then day - 1 else day
    let month := day / 31
    let e := daysBefore.getD (month + 1) 0
    if day ≥ e then (((month + 1 + 1 : Nat) : Int), ((day - e + 1 : Nat) : Int))
    else (((month + 1 : Nat) : Int), ((day - daysBefore.getD month 0 + 1 : Nat) : Int))

/-- The year part of `absDate`: year and year day. -/
def absYearDay (abs : Nat) : Int × Nat :=
  let d := abs / secondsPerDay
  let n := d / daysPer400Years
  let y := 400 * n
  let d := d - daysPer400Years * n
  let n := d / daysPer100Years
  let n := n - n / 4
  let y := y + 100 * n
  let d := d - daysPer100Years * n
  let n := d / daysPer4Years
  let y := y + 4 * n
  let d := d - daysPer4Years * n
  let n := d / 365
  let n := n - n / 4
  let y := y + n
  let d := d - 365 * n
  ((y : Int) + absoluteZeroYear, d)

/-- Day number of a date: days since the absolute epoch. -/
def dayNumber (year : Int) (m d : Nat) : Nat :=
  daysSinceEpoch year + beforeMonth (isLeap year) m + d - 1

/-- The date cell that `buildPage` makes for day `d`. -/
def cellOf (loc : Location) (year month : Int) (hol : HolMap) (d : Int) : Cell :=
  { Zero := false, T := Date year month d 0 0 0 loc, Day := d,
    Holiday := hol.index ((Date year month d 0 0 0 loc).Format "2006-01-02") }

/-- The cells of the days `d, d+1, ..., d+n-1`. -/
def dayCells (loc : Location) (year month : Int) (hol : HolMap) (d : Int) (n : Nat) :
    List Cell :=
  (List.range n).map (fun (i : Nat) => cellOf loc year month hol (d + (i : Int)))

/-- Removal of one leading byte order mark, on the code points. -/
def dropBOM : List Char → List Char
  | [] => []
  | c :: u => if c = '\uFEFF' then u else c :: u

/-- The part of `ParseInt` after the sign has been taken off. -/
def signedValue (neg : Bool) (s1 : List Char) : Int × Option NumError :=
  match ParseUint s1 with
  | (_, some NumError.ErrSyntax) => (0, some NumError.ErrSyntax)
  | (un, _) =>
    let cutoff : Nat := 9223372036854775808
    if !neg ∧ un ≥ cutoff then (((cutoff - 1 : Nat) : Int), some NumError.ErrRange)
    else if neg ∧ un > cutoff then (-(cutoff : Int), some NumError.ErrRange)
    else
      let n := i64 (un : Int)
      let n := if neg then i64 (-n) else n
      (n, Option.none)

/-- The fast path of `Atoi` on a text with first byte `c`. -/
def fastValue (c : Char) (rest : List Char) : Int × Option NumError :=
  let signed : Bool := decide (c = '-' ∨ c = '+')
  let s1 := if signed then rest else c :: rest
  if signed ∧ len s1 < 1 then (0, some NumError.ErrSyntax)
  else
    match atoiLoop s1 0 with
    | Option.none => (0, some NumError.ErrSyntax)
    | some n => (if c = '-' then i64 (-n) else n, Option.none)

/-! ## Calendar lemmas: `absDate` inverts `Date` -/

theorem isLeap_iff (year : Int) :
    isLeap year = true ↔ year % 4 = 0 ∧ (year % 100 ≠ 0 ∨ year % 400 = 0) := by
  simp [isLeap]

theorem daysSinceEpoch_small (year : Int) (h0 : 0 ≤ year) (h1 : year ≤ 10001) :
    (daysSinceEpoch year : Int) =
      365 * (year - 1) + ((year - 1) / 4 - (year - 1) / 100 + (year - 1) / 400)
        + 106751990353932 := by
  unfold daysSinceEpoch u64 absoluteZeroYear daysPer400Years daysPer100Years daysPer4Years
  simp only []
  omega

theorem absDate_split (abs : Nat) :
    absDate abs = ((absYearDay abs).1,
      ydayMonthDay (isLeap (absYearDay abs).1) (absYearDay abs).2) := by
  unfold absDate absYearDay ydayMonthDay
  simp only []
  split_ifs <;> rfl

set_option maxRecDepth 100000 in
theorem ydayMonthDay_table :
    ∀ leap : Bool, ∀ m : Fin 13, ∀ d : Fin 32,
      1 ≤ m.val → 1 ≤ d.val → d.val ≤ monthLen leap m.val →
        ydayMonthDay leap (beforeMonth leap m.val + d.val - 1) = ((m.val : Int), (d.val : Int)) := by
  decide

theorem absYearDay_eq (year : Int) (yd : Nat) (h0 : 0 ≤ year) (h1 : year ≤ 10000)
    (hyd : yd < 365 + (if isLeap year then 1 else 0)) :
    absYearDay ((daysSinceEpoch year + yd) * secondsPerDay) = (year, yd) := by
  have hl := isLeap_iff year
  obtain ⟨Y, hY⟩ : ∃ Y : Nat, (Y : Int) = year + 292277022399 := ⟨(year + 292277022399).toNat, by omega⟩
  have hD : daysSinceEpoch year
      = 146097 * (Y / 400) + 36524 * (Y % 400 / 100) + 1461 * (Y % 100 / 4) + 365 * (Y % 4) := by
    unfold daysSinceEpoch u64 absoluteZeroYear daysPer400Years daysPer100Years daysPer4Years
    simp only []
    omega
  have hyA : yd ≤ 365 := by split_ifs at hyd <;> omega
  have hyB : yd = 365 → Y % 4 = 3 ∧ (Y % 100 / 4 ≠ 24 ∨ Y % 400 / 100 = 3) := by
    intro h
    have hleap : isLeap year = true := by
      by_contra hn
      simp only [hn] at hyd
      simp at hyd
      omega
    have := hl.mp hleap
    omega
  have hyr : year = ((400 * (Y / 400) + 100 * (Y % 400 / 100) + 4 * (Y % 100 / 4) + Y % 4 : Nat) : Int)
      + absoluteZeroYear := by
    unfold absoluteZeroYear; omega
  rw [hD]
  generalize Y / 400 = a at *
  have hb : Y % 400 / 100 ≤ 3 := by omega
  have hc : Y % 100 / 4 ≤ 24 := by omega
  have he : Y % 4 ≤ 3 := by omega
  generalize Y % 400 / 100 = b at *
  generalize Y % 100 / 4 = c at *
  generalize Y % 4 = e at *
  clear hyd hl hY
  unfold absYearDay secondsPerDay daysPer400Years daysPer100Years daysPer4Years
  simp only [Nat.mul_div_cancel _ (show 0 < 86400 by norm_num)]
  generalize hN : 146097 * a + 36524 * b + 1461 * c + 365 * e + yd = N
  generalize hq1 : N / 146097 = q1
  have : q1 = a := by omega
  subst this
  generalize hd1 : N - 146097 * q1 = d1
  have hd1v : d1 = 36524 * b + 1461 * c + 365 * e + yd := by omega
  generalize hq2 : d1 / 36524 = q2
  generalize hn2 : q2 - q2 / 4 = n2
  have : n2 = b := by omega
  subst this
  generalize hd2 : d1 - 36524 * n2 = d2
  have hd2v : d2 = 1461 * c + 365 * e + yd := by omega
  generalize hq3 : d2 / 1461 = q3
  have : q3 = c := by omega
  subst this
  generalize hd3 : d2 - 1461 * q3 = d3
  have hd3v : d3 = 365 * e + yd := by omega
  generalize hq4 : d3 / 365 = q4
  generalize hn4 : q4 - q4 / 4 = n4
  have : n4 = e := by omega
  subst this
  refine Prod.ext ?_ ?_
  · simp only []; rw [hyr]
  · simp only []; omega

theorem norm_month (year m : Int) (h1 : 1 ≤ m) (h2 : m ≤ 12) :
    norm year (m - 1) 12 = (year, m - 1) := by
  unfold norm
  have ha : ¬ (m - 1 < 0) := by omega
  have hb : ¬ (m - 1 ≥ 12) := by omega
  simp only [ha, hb, if_false]

theorem beforeMonth_le (leap : Bool) (m : Nat) : beforeMonth leap m ≤ 366 := by
  unfold beforeMonth daysBefore
  have h : ∀ k : Nat, [0, 31, 59, 90, 120, 151, 181, 212, 243, 273, 304, 334, 365].getD k 0 ≤ 365 := by
    intro k
    rcases Nat.lt_or_ge k 13 with hk | hk
    · interval_cases k <;> simp
    · rw [List.getD_eq_default _ _ (by simpa using hk)]; omega
  have := h (m - 1)
  split_ifs <;> omega

theorem daysSinceEpoch_pos (year : Int) (h0 : 0 ≤ year) (h1 : year ≤ 10001) :
    1 ≤ daysSinceEpoch year ∧ daysSinceEpoch year ≤ 106751991167302 + 3700000 := by
  have := daysSinceEpoch_small year h0 h1
  omega

theorem u64_mul_secondsPerDay (N : Nat) (hN : N ≤ 106751994868302) :
    u64 ((N : Int) * ((secondsPerDay : Nat) : Int)) = N * secondsPerDay := by
  unfold u64 secondsPerDay
  have h : (N : Int) * ((86400 : Nat) : Int) % 18446744073709551616
      = ((N * 86400 : Nat) : Int) := by
    push_cast
    omega
  rw [h]
  exact Int.toNat_ofNat _

theorem u64_add_day (D d : Nat) (hD1 : 1 ≤ D) (hD2 : D ≤ 106751994868000) (hd : d ≤ 31) :
    u64 ((D : Int) + ((u64 ((d : Int) - 1) : Nat) : Int)) = D + d - 1 := by
  unfold u64
  omega

theorem monthLen_eq_gregorianDays (year : Int) (m : Nat) (hm1 : 1 ≤ m) (hm2 : m ≤ 12) :
    monthLen (isLeap year) m = gregorianDays year m := by
  have hl := isLeap_iff year
  have hg : gregorianLeap year ↔ isLeap year = true := by
    rw [hl]
    unfold gregorianLeap
    constructor
    · rintro (⟨h4, h100⟩ | h400) <;> omega
    · rintro ⟨h4, h100 | h400⟩
      · left; constructor <;> omega
      · right; omega
  unfold gregorianDays
  interval_cases m
  all_goals (cases h : isLeap year <;> simp [monthLen, daysBefore, hg, h])

/-! ## The zone lookup of `time.Date` -/

theorem lookupFrom_bounds (tx : List (Int × Int)) :
    ∀ (offset start sec : Int), ascendingFrom start tx →
      -2147483648 ≤ offset → offset ≤ 2147483647 →
      -2147483648 ≤ (lookupFrom tx offset start sec).1 ∧
      (lookupFrom tx offset start sec).1 ≤ 2147483647 ∧
      start ≤ (lookupFrom tx offset start sec).2.1 := by
  induction tx with
  | nil =>
    intro offset start sec _ h1 h2
    exact ⟨h1, h2, le_refl _⟩
  | cons t rest ih =>
    obtain ⟨w, o⟩ := t
    intro offset start sec ha h1 h2
    obtain ⟨a1, a2, a3, a4⟩ := ha
    unfold lookupFrom
    by_cases h : sec < w
    · rw [if_pos h]
      exact ⟨h1, h2, le_refl _⟩
    · rw [if_neg h]
      obtain ⟨b1, b2, b3⟩ := ih o w sec a4 a2 a3
      exact ⟨b1, b2, le_trans a1 b3⟩

/-- Every time within the period that `lookup` reports has the same lookup. -/
theorem lookupFrom_period (tx : List (Int × Int)) :
    ∀ (offset start sec x : Int), ascendingFrom start tx →
      -2147483648 ≤ offset → offset ≤ 2147483647 →
      (lookupFrom tx offset start sec).2.1 ≤ x → x < (lookupFrom tx offset start sec).2.2 →
      lookupFrom tx offset start x = lookupFrom tx offset start sec := by
  induction tx with
  | nil =>
    intro offset start sec x _ _ _ _ _
    rfl
  | cons t rest ih =>
    obtain ⟨w, o⟩ := t
    intro offset start sec x ha h1 h2 hx1 hx2
    obtain ⟨a1, a2, a3, a4⟩ := ha
    unfold lookupFrom at hx1 hx2 ⊢
    by_cases h : sec < w
    · rw [if_pos h] at hx1 hx2 ⊢
      rw [if_pos hx2]
    · rw [if_neg h] at hx1 hx2 ⊢
      have hb := (lookupFrom_bounds rest o w sec a4 a2 a3).2.2
      rw [if_neg (by omega)]
      exact ih o w sec x a4 a2 a3 hx1 hx2

theorem lookup_offset_bounds (loc : Location) (hwf : loc.wellFormed) (sec : Int) :
    -2147483648 ≤ loc.offsetAt sec ∧ loc.offsetAt sec ≤ 2147483647 := by
  obtain ⟨h1, h2, h3⟩ := hwf
  have := lookupFrom_bounds loc.tx loc.offset alpha sec h3 h1 h2
  exact ⟨this.1, this.2.1⟩

theorem lookup_period (loc : Location) (hwf : loc.wellFormed) (sec x : Int)
    (hx1 : (loc.lookup sec).2.1 ≤ x) (hx2 : x < (loc.lookup sec).2.2) :
    loc.lookup x = loc.lookup sec := by
  obtain ⟨h1, h2, h3⟩ := hwf
  exact lookupFrom_period loc.tx loc.offset alpha sec x h3 h1 h2 hx1 hx2

theorem i64_id (x : Int) (h1 : -9223372036854775808 ≤ x) (h2 : x < 9223372036854775808) :
    i64 x = x := by
  unfold i64
  omega

/-- The zone adjustment of `time.Date` finds a time whose local clock reads `u`, when the
location keeps `u`. -/
theorem resolve_keeps (loc : Location) (hwf : loc.wellFormed) (u : Int)
    (hu1 : -4611686018427387904 ≤ u) (hu2 : u ≤ 4611686018427387904) (hk : loc.keeps u) :
    resolve loc u + loc.offsetAt (resolve loc u) = u := by
  have b0 := lookup_offset_bounds loc hwf u
  have b1 := lookup_offset_bounds loc hwf (u - loc.offsetAt u)
  unfold Location.keeps at hk
  unfold resolve
  simp only []
  have e0 : (loc.lookup u).1 = loc.offsetAt u := rfl
  rw [e0]
  by_cases h0 : loc.offsetAt u = 0
  · rw [if_neg (not_not.mpr h0), h0]
    omega
  · rw [if_pos h0, i64_id (u - loc.offsetAt u) (by omega) (by omega)]
    by_cases hp : u - loc.offsetAt u < (loc.lookup u).2.1 ∨ u - loc.offsetAt u ≥ (loc.lookup u).2.2
    · rw [if_pos hp]
      have e1 : (loc.lookup (u - loc.offsetAt u)).1 = loc.offsetAt (u - loc.offsetAt u) := rfl
      rw [e1, i64_id _ (by omega) (by omega), hk]
      omega
    · rw [if_neg hp, i64_id _ (by omega) (by omega)]
      have hper := lookup_period loc hwf u (u - loc.offsetAt u) (by omega) (by omega)
      have e2 : loc.offsetAt (u - loc.offsetAt u) = loc.offsetAt u :=
        congrArg Prod.fst hper
      rw [e2]
      omega

/-- A location kept by no transition at all keeps every reading of the clock. -/
theorem fixed_keeps (o u : Int) : (Location.mk o []).keeps u := by
  unfold Location.keeps Location.offsetAt Location.lookup lookupFrom
  rfl

theorem fixed_wellFormed (o : Int) (h1 : -2147483648 ≤ o) (h2 : o ≤ 2147483647) :
    (Location.mk o []).wellFormed := ⟨h1, h2, trivial⟩

theorem norm_clock (day : Int) :
    norm 0 0 60 = (0, 0) ∧ norm day 0 24 = (day, 0) := by
  constructor
  · decide
  · unfold norm
    simp

set_option maxRecDepth 100000 in
theorem beforeMonth_sum :
    ∀ leap : Bool, ∀ m : Fin 13, 1 ≤ m.val →
      beforeMonth leap m.val
        = ((List.range (m.val - 1)).map (fun (k : Nat) => monthLen leap (k + 1))).sum := by
  decide

/-- The midnight of a day, in seconds, is the day number that `time.Date` computes. -/
theorem midnight_eq (year : Int) (m d : Nat) (h0 : 0 ≤ year) (h1 : year ≤ 10001)
    (hm1 : 1 ≤ m) (hm2 : m ≤ 12) :
    midnight year m d
      = ((dayNumber year m d * secondsPerDay : Nat) : Int) - 9223372028715321600 := by
  have hD := daysSinceEpoch_small year h0 h1
  have hs := beforeMonth_sum (isLeap year) ⟨m, by omega⟩ hm1
  simp only [] at hs
  have hsum : ((List.range (m - 1)).map (fun (k : Nat) => monthLen (isLeap year) (k + 1))).sum
      = ((List.range ((m : Int).toNat - 1)).map
          (fun (k : Nat) => gregorianDays year ((k : Int) + 1))).sum := by
    rw [Int.toNat_ofNat]
    congr 1
    apply List.map_congr_left
    intro k hk
    have hk2 : k < m - 1 := List.mem_range.mp hk
    have := monthLen_eq_gregorianDays year (k + 1) (by omega) (by omega)
    rw [this]
    push_cast
    rfl
  have hp : 1 ≤ daysSinceEpoch year := by omega
  unfold midnight civilDay dayNumber secondsPerDay
  rw [← hsum, ← hs]
  generalize beforeMonth (isLeap year) m = B
  generalize daysSinceEpoch year = D at hD hp
  generalize (year - 1) / 4 - (year - 1) / 100 + (year - 1) / 400 = f at hD
  have e : ((D + B + d - 1 : Nat) : Int) = (D : Int) + B + d - 1 := by omega
  push_cast
  rw [e, hD]
  ring

theorem u64_nat (k : Nat) (h : k < 18446744073709551616) : u64 (k : Int) = k := by
  unfold u64
  have e : (k : Int) % 18446744073709551616 = (k : Int) := by omega
  rw [e]
  exact Int.toNat_ofNat k

theorem i64_add (x y : Int) : i64 (i64 x + y) = i64 (x + y) := by
  unfold i64
  omega

theorem dayNumber_bound (year : Int) (m d : Nat) (h0 : 0 ≤ year) (h1 : year ≤ 10001)
    (hd : d ≤ 31) :
    106751990353000 ≤ dayNumber year m d ∧ dayNumber year m d ≤ 106751994868302 := by
  have hle := beforeMonth_le (isLeap year) m
  have hD := daysSinceEpoch_small year h0 h1
  unfold dayNumber
  omega

/-- What `time.Date` returns for the midnight of a day: the zone adjustment of the
seconds counted as if UTC. -/
theorem Date_midnight (loc : Location) (year : Int) (m d : Nat) (h0 : 0 ≤ year)
    (h1 : year ≤ 10001) (hm1 : 1 ≤ m) (hm2 : m ≤ 12) (hd : d ≤ 31) :
    Date year m d 0 0 0 loc = ⟨resolve loc (midnight year m d), loc⟩ := by
  rw [midnight_eq year m d h0 h1 hm1 hm2]
  have hdn := dayNumber_bound year m d h0 h1 hd
  have hdn2 : dayNumber year m d
      = daysSinceEpoch year + beforeMonth (isLeap year) m + d - 1 := rfl
  unfold Date
  simp only [norm_month year m (by omega) (by omega), (norm_clock 0).1, (norm_clock (d : Int)).2]
  have hb : (if (isLeap year && decide ((m : Int) - 1 + 1 ≥ 3)) = true
        then daysSinceEpoch year + daysBefore.getD ((m : Int) - 1 + 1 - 1).toNat 0 + 1
        else daysSinceEpoch year + daysBefore.getD ((m : Int) - 1 + 1 - 1).toNat 0)
        = daysSinceEpoch year + beforeMonth (isLeap year) m := by
    unfold beforeMonth
    have e1 : ((m : Int) - 1 + 1 - 1).toNat = m - 1 := by omega
    have e2 : decide ((m : Int) - 1 + 1 ≥ 3) = decide (3 ≤ m) := by
      apply decide_eq_decide.mpr; omega
    rw [e1, e2]
    split_ifs <;> omega
  rw [hb]
  have hle := beforeMonth_le (isLeap year) m
  have hp := daysSinceEpoch_pos year h0 h1
  rw [hdn2] at hdn ⊢
  generalize beforeMonth (isLeap year) m = B at hle hdn ⊢
  generalize daysSinceEpoch year = D at hp hdn ⊢
  rw [u64_add_day (D + B) d (by omega) (by omega) hd]
  rw [u64_mul_secondsPerDay _ (by omega)]
  have ez : u64 ((0 : Int) * ((secondsPerHour : Nat) : Int)
      + (0 : Int) * ((secondsPerMinute : Nat) : Int) + 0) = 0 := by decide
  rw [ez]
  have hN : (D + B + d - 1) * secondsPerDay ≤ 9223372028715321600 + 400000000000 ∧
      9223372028715321600 - 100000000000 ≤ (D + B + d - 1) * secondsPerDay := by
    unfold secondsPerDay
    omega
  generalize (D + B + d - 1) * secondsPerDay = N at hN ⊢
  have ea : u64 ((N : Int) + ((0 : Nat) : Int)) = N := by
    have e : (N : Int) + ((0 : Nat) : Int) = (N : Int) := by simp
    rw [e]
    exact u64_nat N (by omega)
  rw [ea, i64_add]
  have ei : i64 ((N : Int) + (absoluteToInternal + internalToUnix))
      = (N : Int) - 9223372028715321600 := by
    unfold i64 absoluteToInternal internalToUnix
    omega
  rw [ei]
  rfl

theorem Date_abs (loc : Location) (year : Int) (m d : Nat) (h0 : 0 ≤ year) (h1 : year ≤ 10001)
    (hm1 : 1 ≤ m) (hm2 : m ≤ 12) (hd : d ≤ 31) (hwf : loc.wellFormed)
    (hk : loc.keeps (midnight year m d)) :
    (Date year m d 0 0 0 loc).abs = dayNumber year m d * secondsPerDay := by
  have hdn := dayNumber_bound year m d h0 h1 hd
  have hmid := midnight_eq year m d h0 h1 hm1 hm2
  have hN : dayNumber year m d * secondsPerDay ≤ 9223372028715321600 + 400000000000 ∧
      9223372028715321600 - 100000000000 ≤ dayNumber year m d * secondsPerDay := by
    unfold secondsPerDay
    omega
  rw [Date_midnight loc year m d h0 h1 hm1 hm2 hd]
  generalize dayNumber year m d * secondsPerDay = N at hmid hN ⊢
  have hr := resolve_keeps loc hwf (midnight year m d) (by omega) (by omega) hk
  unfold Time.abs
  simp only []
  have e1 : (loc.lookup (resolve loc (midnight year m d))).1
      = loc.offsetAt (resolve loc (midnight year m d)) := rfl
  rw [e1, hr, hmid, i64_id _ (by omega) (by omega)]
  have e2 : (N : Int) - 9223372028715321600 + (unixToInternal + internalToAbsolute) = (N : Int) := by
    unfold unixToInternal internalToAbsolute
    omega
  rw [e2]
  exact u64_nat N (by omega)

set_option maxRecDepth 100000 in
theorem beforeMonth_table :
    ∀ leap : Bool, ∀ m : Fin 13, 1 ≤ m.val →
      1 ≤ monthLen leap m.val ∧ monthLen leap m.val ≤ 31 ∧
      beforeMonth leap m.val + monthLen leap m.val ≤ 365 + (if leap then 1 else 0) ∧
      (m.val ≤ 11 → beforeMonth leap (m.val + 1) = beforeMonth leap m.val + monthLen leap m.val) ∧
      (m.val = 12 → beforeMonth leap m.val + monthLen leap m.val = 365 + (if leap then 1 else 0)) ∧
      (m.val = 1 → beforeMonth leap m.val = 0) := by
  decide

theorem absDate_dayNumber (year : Int) (m d : Nat) (h0 : 0 ≤ year) (h1 : year ≤ 10000)
    (hm1 : 1 ≤ m) (hm2 : m ≤ 12) (hd1 : 1 ≤ d) (hd2 : d ≤ monthLen (isLeap year) m) :
    absDate (dayNumber year m d * secondsPerDay) = (year, (m : Int), (d : Int)) := by
  have ht := beforeMonth_table (isLeap year) ⟨m, by omega⟩ hm1
  simp only [] at ht
  have hy : dayNumber year m d
      = daysSinceEpoch year + (beforeMonth (isLeap year) m + d - 1) := by
    unfold dayNumber; omega
  have hyd : beforeMonth (isLeap year) m + d - 1 < 365 + (if isLeap year then 1 else 0) := by
    omega
  rw [absDate_split, hy, absYearDay_eq year _ h0 h1 hyd]
  simp only []
  have := ydayMonthDay_table (isLeap year) ⟨m, by omega⟩ ⟨d, by omega⟩ hm1 hd1 hd2
  simp only [] at this
  rw [this]

theorem absDate_Date (loc : Location) (year : Int) (m d : Nat) (h0 : 0 ≤ year)
    (h1 : year ≤ 10000) (hm1 : 1 ≤ m) (hm2 : m ≤ 12) (hd1 : 1 ≤ d)
    (hd2 : d ≤ monthLen (isLeap year) m) (hwf : loc.wellFormed)
    (hk : loc.keeps (midnight year m d)) :
    absDate (Date year m d 0 0 0 loc).abs = (year, (m : Int), (d : Int)) := by
  have ht := beforeMonth_table (isLeap year) ⟨m, by omega⟩ hm1
  simp only [] at ht
  rw [Date_abs loc year m d h0 (by omega) hm1 hm2 (by omega) hwf hk]
  exact absDate_dayNumber year m d h0 h1 hm1 hm2 hd1 hd2

theorem Year_absDate (t : Time) : t.Year = (absDate t.abs).1 := rfl

theorem Month_absDate (t : Time) : t.Month = (absDate t.abs).2.1 := rfl

theorem Day_absDate (t : Time) : t.Day = (absDate t.abs).2.2 := rfl

theorem Weekday_range (t : Time) : 0 ≤ t.Weekday ∧ t.Weekday ≤ 6 := by
  unfold Time.Weekday secondsPerDay secondsPerWeek
  generalize t.abs = a
  omega

theorem padLoop_eq (n : Nat) (week : List Cell) :
    padLoop n week = week ++ List.replicate n zeroCell := by
  induction n generalizing week with
  | zero => simp [padLoop]
  | succ n ih =>
    rw [padLoop, ih, List.replicate_succ, List.append_assoc]
    rfl

theorem fillLoop_eq (n : Nat) (week : List Cell) (h : 7 - week.length ≤ n) :
    fillLoop n week = week ++ List.replicate (7 - week.length) zeroCell := by
  induction n generalizing week with
  | zero =>
    have h0 : 7 - week.length = 0 := by omega
    simp [fillLoop, h0]
  | succ n ih =>
    unfold fillLoop
    by_cases hl : week.length < 7
    · rw [if_pos hl, ih _ (by simp only [List.length_append, List.length_singleton]; omega)]
      have e : 7 - week.length = (7 - (week ++ [zeroCell]).length) + 1 := by
        simp only [List.length_append, List.length_singleton]; omega
      rw [e, List.replicate_succ, List.append_assoc]
      rfl
    · rw [if_neg hl]
      have h0 : 7 - week.length = 0 := by omega
      simp [h0]

theorem dayCells_succ_left (loc : Location) (year month : Int) (hol : HolMap) (d : Int) (n : Nat) :
    dayCells loc year month hol d (n + 1)
      = cellOf loc year month hol d :: dayCells loc year month hol (d + 1) n := by
  unfold dayCells
  rw [List.range_succ_eq_map, List.map_cons, List.map_map]
  refine congrArg₂ List.cons ?_ ?_
  · simp only [Nat.cast_zero, add_zero]
  · apply List.map_congr_left
    intro i _
    have e : d + ((Nat.succ i : Nat) : Int) = d + 1 + (i : Int) := by
      simp only [Nat.succ_eq_add_one, Nat.cast_add, Nat.cast_one]
      omega
    simp only [Function.comp, e]

theorem dayLoop_succ (loc : Location) (year month : Int) (hol : HolMap) (n : Nat) (d : Int)
    (weeks : List (List Cell)) (week : List Cell) :
    dayLoop loc year month hol (n + 1) d (weeks, week)
      = if (week ++ [cellOf loc year month hol d]).length = 7
        then dayLoop loc year month hol n (d + 1) (weeks ++ [week ++ [cellOf loc year month hol d]], [])
        else dayLoop loc year month hol n (d + 1) (weeks, week ++ [cellOf loc year month hol d]) := by
  rfl

/-- The invariant of the day loop: the rows closed so far have 7 cells, the open row has
fewer than 7, and rows and open row together hold the cells in order. -/
theorem dayLoop_spec (loc : Location) (year month : Int) (hol : HolMap) (n : Nat) :
    ∀ (d : Int) (weeks : List (List Cell)) (week : List Cell),
      week.length < 7 → (∀ r ∈ weeks, r.length = 7) →
      (dayLoop loc year month hol n d (weeks, week)).1.flatten
          ++ (dayLoop loc year month hol n d (weeks, week)).2
        = weeks.flatten ++ week ++ dayCells loc year month hol d n ∧
      (dayLoop loc year month hol n d (weeks, week)).2.length < 7 ∧
      (∀ r ∈ (dayLoop loc year month hol n d (weeks, week)).1, r.length = 7) := by
  induction n with
  | zero =>
    intro d weeks week hw hr
    simp [dayLoop, dayCells, hw]
    exact hr
  | succ n ih =>
    intro d weeks week hw hr
    rw [dayCells_succ_left, dayLoop_succ]
    by_cases h7 : (week ++ [cellOf loc year month hol d]).length = 7
    · rw [if_pos h7]
      have hr2 : ∀ r ∈ weeks ++ [week ++ [cellOf loc year month hol d]], r.length = 7 := by
        intro r hr1
        rcases List.mem_append.mp hr1 with h | h
        · exact hr r h
        · rw [List.mem_singleton.mp h]; exact h7
      obtain ⟨e1, e2, e3⟩ := ih (d + 1) _ [] (by simp) hr2
      refine ⟨?_, e2, e3⟩
      rw [e1]
      simp [List.flatten_append]
    · rw [if_neg h7]
      have hl : (week ++ [cellOf loc year month hol d]).length < 7 := by
        simp only [List.length_append, List.length_singleton] at h7 ⊢
        omega
      obtain ⟨e1, e2, e3⟩ := ih (d + 1) weeks _ hl hr
      refine ⟨?_, e2, e3⟩
      rw [e1]
      simp

/-! ## First weekday and number of days -/

theorem flatten_length_uniform (L : List (List Cell)) (h : ∀ r ∈ L, r.length = 7) :
    L.flatten.length = 7 * L.length := by
  induction L with
  | nil => simp
  | cons r L ih =>
    have hr : r.length = 7 := h r (List.mem_cons_self r L)
    have hL : ∀ r2 ∈ L, r2.length = 7 := fun r2 h2 => h r2 (List.mem_cons_of_mem r h2)
    simp only [List.flatten_cons, List.length_append, List.length_cons, ih hL, hr]
    omega

theorem buildPage_weeks (loc : Location) (year month : Int) (hol : HolMap) (csvPath : String) :
    (buildPage loc year month hol csvPath).Weeks =
      if (dayLoop loc year month hol (daysOf loc year month).toNat 1
            ([], List.replicate (startWOf loc year month).toNat zeroCell)).2.length > 0
      then (dayLoop loc year month hol (daysOf loc year month).toNat 1
            ([], List.replicate (startWOf loc year month).toNat zeroCell)).1
          ++ [(dayLoop loc year month hol (daysOf loc year month).toNat 1
            ([], List.replicate (startWOf loc year month).toNat zeroCell)).2
              ++ List.replicate (7 - (dayLoop loc year month hol (daysOf loc year month).toNat 1
            ([], List.replicate (startWOf loc year month).toNat zeroCell)).2.length) zeroCell]
      else (dayLoop loc year month hol (daysOf loc year month).toNat 1
            ([], List.replicate (startWOf loc year month).toNat zeroCell)).1 := by
  have e : (buildPage loc year month hol csvPath).Weeks
      = if (dayLoop loc year month hol (daysOf loc year month).toNat 1
            ([], padLoop (startWOf loc year month).toNat [])).2.length > 0
        then (dayLoop loc year month hol (daysOf loc year month).toNat 1
            ([], padLoop (startWOf loc year month).toNat [])).1
          ++ [fillLoop 7 (dayLoop loc year month hol (daysOf loc year month).toNat 1
            ([], padLoop (startWOf loc year month).toNat [])).2]
        else (dayLoop loc year month hol (daysOf loc year month).toNat 1
            ([], padLoop (startWOf loc year month).toNat [])).1 := rfl
  rw [e, padLoop_eq, List.nil_append]
  generalize dayLoop loc year month hol (daysOf loc year month).toNat 1
    ([], List.replicate (startWOf loc year month).toNat zeroCell) = st
  by_cases hpos : st.2.length > 0
  · rw [if_pos hpos, if_pos hpos, fillLoop_eq 7 _ (by omega)]
  · rw [if_neg hpos, if_neg hpos]

/-- The shape of the grid in every location: rows of 7 cells that, laid end to end, are
`startW` padding cells, the cells of the days 1..`days` in order, and the trailing
padding. -/
theorem weeks_shape_any (loc : Location) (year month : Int) (hol : HolMap)
    (csvPath : String) :
    (startWOf loc year month).toNat ≤ 6 ∧
    (∀ r ∈ (buildPage loc year month hol csvPath).Weeks, r.length = 7) ∧
    (buildPage loc year month hol csvPath).Weeks.flatten =
      List.replicate (startWOf loc year month).toNat zeroCell
        ++ dayCells loc year month hol 1 (daysOf loc year month).toNat
        ++ List.replicate
            ((7 - ((startWOf loc year month).toNat + (daysOf loc year month).toNat) % 7) % 7)
            zeroCell := by
  have hs := Weekday_range (Date year month 1 0 0 0 loc)
  have hw : (startWOf loc year month).toNat < 7 := by
    unfold startWOf
    omega
  refine ⟨by omega, ?_⟩
  rw [buildPage_weeks loc year month hol csvPath]
  generalize (startWOf loc year month).toNat = w at hw ⊢
  generalize (daysOf loc year month).toNat = N
  obtain ⟨e1, e2, e3⟩ := dayLoop_spec loc year month hol N 1 [] (List.replicate w zeroCell)
    (by simpa using hw) (by simp)
  generalize dayLoop loc year month hol N 1 ([], List.replicate w zeroCell) = st at e1 e2 e3 ⊢
  have hlen := congrArg List.length e1
  simp only [List.length_append, flatten_length_uniform _ e3, List.flatten_nil,
    List.length_nil, List.length_replicate, dayCells, List.length_map, List.length_range,
    Nat.zero_add] at hlen
  simp only [List.flatten_nil, List.nil_append] at e1
  by_cases hpos : st.2.length > 0
  · rw [if_pos hpos]
    have hk : (7 - (w + N) % 7) % 7 = 7 - st.2.length := by omega
    constructor
    · intro r hr
      rcases List.mem_append.mp hr with h | h
      · exact e3 r h
      · rw [List.mem_singleton.mp h]
        simp only [List.length_append, List.length_replicate]
        omega
    · rw [List.flatten_append, List.flatten_singleton, ← List.append_assoc, e1, hk]
  · rw [if_neg hpos]
    have hnil : st.2 = [] := List.length_eq_zero.mp (by omega)
    have hk : (7 - (w + N) % 7) % 7 = 0 := by
      rw [hnil] at hlen
      simp only [List.length_nil] at hlen
      omega
    refine ⟨e3, ?_⟩
    rw [hk, List.replicate_zero, List.append_nil, ← e1, hnil, List.append_nil]

/-- C4: for a year in 1..9999 and a month in 1..12 every week row of the grid has exactly
7 cells, whatever the zone table of `time.Local`. -/
theorem buildPage_rows_have_seven_cells (loc : Location) (year month : Int) (hol : HolMap)
    (csvPath : String)
    (hy1 : 1 ≤ year) (hy2 : year ≤ 9999) (hm1 : 1 ≤ month) (hm2 : month ≤ 12) :
    ∀ row ∈ (buildPage loc year month hol csvPath).Weeks, row.length = 7 :=
  (weeks_shape_any loc year month hol csvPath).2.1

theorem buildPage_rows_have_seven_cells_witness :
    (1 : Int) ≤ 2026 ∧ (2026 : Int) ≤ 9999 ∧ (1 : Int) ≤ 8 ∧ (8 : Int) ≤ 12 ∧
    (∀ row ∈ (buildPage tokyo 2026 8 HolMap.empty "holidays_2026.csv").Weeks,
      row.length = 7) ∧
    (∀ row ∈ (buildPage havana 2026 3 HolMap.empty "holidays_2026.csv").Weeks,
      row.length = 7) :=
  ⟨by decide, by decide, by decide, by decide,
    buildPage_rows_have_seven_cells tokyo 2026 8 HolMap.empty "holidays_2026.csv"
      (by decide) (by decide) (by decide) (by decide),
    buildPage_rows_have_seven_cells havana 2026 3 HolMap.empty "holidays_2026.csv"
      (by decide) (by decide) (by decide) (by decide)⟩

theorem decimalDigits_small (fuel u : Nat) (h : u < 10) :
    decimalDigits fuel u = [digitChar u] := by
  cases fuel with
  | zero => rfl
  | succ f =>
    unfold decimalDigits
    rw [if_neg (by omega)]
    unfold digitChar
    rw [Nat.mod_eq_of_lt h]

theorem decimalDigits_step (fuel u : Nat) (h : 10 ≤ u) :
    decimalDigits (fuel + 1) u = decimalDigits fuel (u / 10) ++ [digitChar u] := by
  rw [decimalDigits, if_pos h]
  rfl

theorem digitChar_zero (n : Nat) (h : n < 10) : digitChar (n / 10) = '0' := by
  rw [Nat.div_eq_of_lt h]
  rfl

theorem appendInt_two (n : Nat) (h : n < 100) : appendInt (n : Int) 2 = pad2 n := by
  unfold appendInt pad2
  simp only [Int.natAbs_ofNat]
  rw [if_neg (by omega)]
  by_cases h10 : n < 10
  · rw [decimalDigits_small _ _ h10, digitChar_zero n h10]
    rfl
  · rw [decimalDigits_step _ _ (by omega), decimalDigits_small _ _ (by omega)]
    rfl

theorem appendInt_four (n : Nat) (h : n < 10000) : appendInt (n : Int) 4 = pad4 n := by
  unfold appendInt pad4
  simp only [Int.natAbs_ofNat]
  rw [if_neg (by omega)]
  by_cases h10 : n < 10
  · rw [decimalDigits_small _ _ h10, digitChar_zero n h10,
      show n / 100 = 0 by omega, show n / 1000 = 0 by omega]
    rfl
  · by_cases h100 : n < 100
    · rw [decimalDigits_step _ _ (by omega), decimalDigits_small _ _ (by omega),
        show n / 100 = 0 by omega, show n / 1000 = 0 by omega]
      rfl
    · by_cases h1000 : n < 1000
      · rw [decimalDigits_step _ _ (by omega), decimalDigits_step _ _ (by omega),
          decimalDigits_small _ _ (by omega), show n / 1000 = 0 by omega,
          show n / 10 / 10 = n / 100 by omega]
        rfl
      · rw [decimalDigits_step _ _ (by omega), decimalDigits_step _ _ (by omega),
          decimalDigits_step _ _ (by omega), decimalDigits_small _ _ (by omega),
          show n / 10 / 10 = n / 100 by omega, show n / 100 / 10 = n / 1000 by omega]
        rfl

theorem appendFormat_iso (year month day : Int) :
    appendFormat year month day ("2006-01-02".data.length + 1) "2006-01-02".data
      = appendInt year 4 ++ '-' :: appendInt month 2 ++ '-' :: appendInt day 2 := by
  simp [appendFormat, nextStdChunk, nextStdChunkFrom]

/-- `Format("2006-01-02")` writes the zero-padded form of the date of `t`. -/
theorem Format_iso (t : Time) (y m d : Nat) (h : absDate t.abs = ((y : Int), (m : Int), (d : Int)))
    (hy : y < 10000) (hm : m < 100) (hd : d < 100) :
    t.Format "2006-01-02" = isoDate y m d := by
  unfold Time.Format Time.Year Time.Month Time.Day isoDate
  rw [appendFormat_iso, h]
  simp only [Int.toNat_ofNat]
  rw [appendInt_four y hy, appendInt_two m hm, appendInt_two d hd]

/-! ## The holiday labels of the grid -/

theorem digit_toNat (c : Char) (h : '0' ≤ c ∧ c ≤ '9') : 48 ≤ c.toNat ∧ c.toNat ≤ 57 := by
  obtain ⟨h1, h2⟩ := h
  rw [Char.le_def] at h1 h2
  have e1 : ('0' : Char).val = 48 := rfl
  have e2 : ('9' : Char).val = 57 := rfl
  rw [e1] at h1
  rw [e2] at h2
  unfold Char.toNat
  rw [UInt32.le_def] at h1 h2
  exact ⟨h1, h2⟩

theorem not_digit_iff (c : Char) : (c < '0' ∨ c > '9') ↔ ¬ ('0' ≤ c ∧ c ≤ '9') := by
  rw [not_and_or, not_le, not_le]

theorem isDigit_eq_true (s : List Char) (i : Nat) (h : isDigit s i = true) :
    ∃ c, s.get? i = some c ∧ '0' ≤ c ∧ c ≤ '9' := by
  unfold isDigit at h
  cases hc : s.get? i with
  | none => rw [hc] at h; exact absurd h (by simp)
  | some c =>
    rw [hc] at h
    exact ⟨c, rfl, of_decide_eq_true h⟩

/-- The number `leadingInt` reads from digits only has as many digits as it read. -/
theorem leadingInt_bound (s : List Char) :
    ∀ (x q : Nat), leadingInt x s = some (q, []) → q + 1 ≤ (x + 1) * 10 ^ s.length := by
  induction s with
  | nil =>
    intro x q h
    simp only [leadingInt, Option.some.injEq, Prod.mk.injEq, and_true] at h
    subst h
    simp
  | cons c rest ih =>
    intro x q h
    unfold leadingInt at h
    by_cases hd : c < '0' ∨ c > '9'
    · rw [if_pos hd] at h
      simp at h
    · rw [if_neg hd] at h
      have hdig := digit_toNat c (by
        have := (not_digit_iff c).not.mp hd
        exact not_not.mp this)
      simp only [] at h
      split_ifs at h with h1 h2
      have := ih _ _ h
      rw [List.length_cons, pow_succ]
      have h10 : (x * 10 + (c.toNat - 48) + 1) * 10 ^ rest.length
          ≤ ((x + 1) * 10) * 10 ^ rest.length := by
        apply Nat.mul_le_mul_right
        omega
      calc q + 1 ≤ (x * 10 + (c.toNat - 48) + 1) * 10 ^ rest.length := this
        _ ≤ ((x + 1) * 10) * 10 ^ rest.length := h10
        _ = (x + 1) * (10 ^ rest.length * 10) := by ring

/-- The year element: four bytes starting with a digit give a year in 0..9999. -/
theorem atoi_year_bound (value : List Char) (y : Int) (hd : isDigit value 0 = true)
    (h : atoi (value.take 4) = some y) : 0 ≤ y ∧ y ≤ 9999 := by
  obtain ⟨c, hc, hc1, hc2⟩ := isDigit_eq_true value 0 hd
  cases value with
  | nil => simp at hc
  | cons a rest =>
    simp only [List.get?_cons_zero, Option.some.injEq] at hc
    subst hc
    have hdig := digit_toNat a ⟨hc1, hc2⟩
    have hm : ¬ ((a :: rest).take 4).head? = some '-' := by
      simp only [List.take_succ_cons, List.head?_cons, Option.some.injEq]
      intro e
      rw [e] at hdig
      exact absurd hdig.1 (by decide)
    have hp : ¬ ((a :: rest).take 4).head? = some '+' := by
      simp only [List.take_succ_cons, List.head?_cons, Option.some.injEq]
      intro e
      rw [e] at hdig
      exact absurd hdig.1 (by decide)
    unfold atoi at h
    simp only [hm, hp, or_self, if_false, decide_False] at h
    cases hl : leadingInt 0 ((a :: rest).take 4) with
    | none => rw [hl] at h; simp at h
    | some r =>
      obtain ⟨q, tail⟩ := r
      rw [hl] at h
      cases tail with
      | cons t ts => simp at h
      | nil =>
        simp only [Bool.false_eq_true, if_false, Option.some.injEq] at h
        have hb := leadingInt_bound _ 0 q hl
        have hlen : ((a :: rest).take 4).length ≤ 4 := by
          rw [List.length_take]; omega
        have hpow : 10 ^ ((a :: rest).take 4).length ≤ 10 ^ 4 :=
          Nat.pow_le_pow_right (by norm_num) hlen
        subst h
        omega

theorem getnum_bound (s : List Char) (fixed : Bool) (n : Int) (rest : List Char)
    (h : getnum s fixed = some (n, rest)) : 0 ≤ n ∧ n ≤ 99 := by
  unfold getnum at h
  by_cases h0 : isDigit s 0 = true
  · obtain ⟨c0, hc0, hd0⟩ := isDigit_eq_true s 0 h0
    have hv0 : s.getD 0 '0' = c0 := by
      rw [List.getD_eq_getElem?_getD, ← List.get?_eq_getElem?, hc0]; rfl
    have b0 := digit_toNat c0 hd0
    simp only [h0, Bool.not_true, Bool.false_eq_true, if_false] at h
    by_cases h1 : isDigit s 1 = true
    · obtain ⟨c1, hc1, hd1⟩ := isDigit_eq_true s 1 h1
      have hv1 : s.getD 1 '0' = c1 := by
        rw [List.getD_eq_getElem?_getD, ← List.get?_eq_getElem?, hc1]; rfl
      have b1 := digit_toNat c1 hd1
      simp only [h1, Bool.not_true, Bool.false_eq_true, if_false, Option.some.injEq,
        Prod.mk.injEq, hv0, hv1] at h
      obtain ⟨hn, _⟩ := h
      subst hn
      omega
    · simp only [h1, Bool.not_false, if_true] at h
      cases fixed with
      | true => simp at h
      | false =>
        simp only [Bool.false_eq_true, if_false, Option.some.injEq, Prod.mk.injEq, hv0] at h
        obtain ⟨hn, _⟩ := h
        subst hn
        omega
  · simp only [h0, Bool.not_false, if_true] at h
    exact absurd h (by simp)

theorem daysIn_eq_monthLen (year : Int) (m : Nat) (hm1 : 1 ≤ m) (hm2 : m ≤ 12) :
    daysIn (m : Int) year = (monthLen (isLeap year) m : Int) := by
  unfold daysIn monthLen
  have e1 : ((m : Int) - 1).toNat = m - 1 := by omega
  rw [Int.toNat_ofNat, e1]
  have hmono : daysBefore.getD (m - 1) 0 ≤ daysBefore.getD m 0 := by
    interval_cases m <;> decide
  by_cases h2 : m = 2
  · subst h2
    cases isLeap year <;> simp [daysBefore]
  · have hi : ¬ ((m : Int) = 2) := by omega
    have hb : ((m : Int) == 2) = false := by simpa using hi
    simp only [hb, h2, false_and, Bool.false_and, Bool.false_eq_true, if_false]
    rw [Nat.cast_sub hmono]

/-- A successful parse yields `Date y m d 0 0 0 UTC` for a valid date with a year in 0..9999,
whatever the layout: the year comes from four digits, the month is range-checked when
read, the day is validated at the end. -/
theorem parseFuel_ok (fuel : Nat) :
    ∀ (layout value : List Char) (year month day : Int) (t : Time),
      0 ≤ year → year ≤ 9999 → (month = -1 ∨ (1 ≤ month ∧ month ≤ 12)) →
      parseFuel fuel layout value year month day = Except.ok t →
      ∃ (y m d : Nat), y ≤ 9999 ∧ 1 ≤ m ∧ m ≤ 12 ∧ 1 ≤ d ∧
        d ≤ monthLen (isLeap y) m ∧ t = Date y m d 0 0 0 UTC := by
  induction fuel with
  | zero =>
    intro layout value year month day t _ _ _ h
    simp [parseFuel] at h
  | succ fuel ih =>
    intro layout value year month day t hy0 hy1 hm h
    unfold parseFuel at h
    split at h
    rename_i pre std suffix hchunk
    split at h
    · simp at h
    · rename_i value2 hskip
      split at h
      · -- end of layout
        simp only [] at h
        generalize hmo : (if month < 0 then 1 else month) = mo at h
        generalize hda : (if day < 0 then 1 else day) = da at h
        split_ifs at h with he hr
        simp only [Except.ok.injEq] at h
        obtain ⟨y, rfl⟩ : ∃ y : Nat, year = (y : Int) := ⟨year.toNat, by omega⟩
        obtain ⟨m, hmeq, hm1, hm2⟩ : ∃ m : Nat, mo = (m : Int) ∧ 1 ≤ m ∧ m ≤ 12 := by
          rcases hm with rfl | ⟨h1, h2⟩
          · exact ⟨1, by rw [← hmo]; rfl, by decide, by decide⟩
          · exact ⟨month.toNat, by rw [← hmo, if_neg (by omega)]; omega, by omega, by omega⟩
        subst hmeq
        rw [daysIn_eq_monthLen _ m hm1 hm2] at hr
        obtain ⟨d, rfl⟩ : ∃ d : Nat, da = (d : Int) := ⟨da.toNat, by omega⟩
        exact ⟨y, m, d, by omega, hm1, hm2, by omega, by omega, h.symm⟩
      · -- year
        split_ifs at h with hc
        split at h
        · simp at h
        · rename_i y hy
          have hdg : isDigit value2 0 = true := by
            by_contra hn
            exact hc (Or.inr (by simp [hn]))
          obtain ⟨b0, b1⟩ := atoi_year_bound value2 y hdg hy
          exact ih _ _ _ _ _ t b0 b1 hm h
      · -- month, one or two digits
        split at h
        · simp at h
        · rename_i mo value3 hg
          split_ifs at h with hr
          exact ih _ _ _ _ _ t hy0 hy1 (Or.inr (by omega)) h
      · -- month, two digits
        split at h
        · simp at h
        · rename_i mo value3 hg
          split_ifs at h with hr
          exact ih _ _ _ _ _ t hy0 hy1 (Or.inr (by omega)) h
      · -- day, one or two digits
        split at h
        · simp at h
        · exact ih _ _ _ _ _ t hy0 hy1 hm h
      · -- day, two digits
        split at h
        · simp at h
        · exact ih _ _ _ _ _ t hy0 hy1 hm h
      · simp at h

/-! ## The extraction pass -/

theorem parseLoop_of_firstParse (s : String) (layouts : List String) (t : Time)
    (st : Time × Option ParseError) (h : firstParse layouts s = some t) :
    parseLoop s layouts st = (t, Option.none) := by
  induction layouts generalizing st with
  | nil => simp [firstParse] at h
  | cons fm rest ih =>
    unfold firstParse at h
    rw [List.findSome?_cons] at h
    unfold parseLoop
    cases hp : Parse fm s with
    | ok t2 =>
      rw [hp] at h
      simp only [Option.some.injEq] at h
      rw [h]
    | error e =>
      rw [hp] at h
      simp only []
      exact ih _ h

theorem parseLoop_of_firstParse_none (s : String) (layouts : List String)
    (st : Time × Option ParseError) (h : firstParse layouts s = Option.none)
    (hne : layouts ≠ []) :
    ∃ e, parseLoop s layouts st = (zeroTime, some e) := by
  induction layouts generalizing st with
  | nil => exact absurd rfl hne
  | cons fm rest ih =>
    unfold firstParse at h
    rw [List.findSome?_cons] at h
    unfold parseLoop
    cases hp : Parse fm s with
    | ok t2 =>
      rw [hp] at h
      simp at h
    | error e =>
      rw [hp] at h
      simp only []
      cases rest with
      | nil => exact ⟨e, rfl⟩
      | cons fm2 rest2 => exact ih _ h (by simp)

/-- A time that `time.Parse` returns is `Date y m d 0 0 0 UTC` for a valid date with a year in
0..9999. -/
theorem Parse_ok (fm s : String) (t : Time) (h : Parse fm s = Except.ok t) :
    ∃ (y m d : Nat), y ≤ 9999 ∧ 1 ≤ m ∧ m ≤ 12 ∧ 1 ≤ d ∧
      d ≤ monthLen (isLeap y) m ∧ t = Date y m d 0 0 0 UTC := by
  unfold Parse at h
  exact parseFuel_ok _ _ _ _ _ _ t (le_refl 0) (by norm_num) (Or.inl rfl) h

theorem firstParse_ok (layouts : List String) (s : String) (t : Time)
    (h : firstParse layouts s = some t) :
    ∃ (y m d : Nat), y ≤ 9999 ∧ 1 ≤ m ∧ m ≤ 12 ∧ 1 ≤ d ∧
      d ≤ monthLen (isLeap y) m ∧ t = Date y m d 0 0 0 UTC := by
  unfold firstParse at h
  obtain ⟨fm, _, hfm⟩ := List.exists_of_findSome?_eq_some h
  cases hp : Parse fm s with
  | ok t2 =>
    rw [hp] at hfm
    simp only [Option.some.injEq] at hfm
    subst hfm
    exact Parse_ok fm s t2 hp
  | error e =>
    rw [hp] at hfm
    simp at hfm

/-- The date and the key of a valid date built by `Date`. -/
theorem Date_fields (y m d : Nat) (hy : y ≤ 9999) (hm1 : 1 ≤ m) (hm2 : m ≤ 12) (hd1 : 1 ≤ d)
    (hd2 : d ≤ monthLen (isLeap y) m) :
    (Date y m d 0 0 0 UTC).Year = y ∧ (Date y m d 0 0 0 UTC).Month = m ∧
    (Date y m d 0 0 0 UTC).Day = d ∧
    (Date y m d 0 0 0 UTC).Format "2006-01-02" = isoDate y m d := by
  have e := absDate_Date UTC y m d (by omega) (by omega) hm1 hm2 hd1 hd2 (by decide)
    (fixed_keeps 0 _)
  have ht := (beforeMonth_table (isLeap y) ⟨m, by omega⟩ hm1).2.1
  simp only [] at ht
  generalize Date (y : Int) (m : Int) (d : Int) 0 0 0 UTC = t at e ⊢
  refine ⟨?_, ?_, ?_, Format_iso t y m d e (by omega) (by omega) (by omega)⟩
  · rw [Year_absDate, e]
  · rw [Month_absDate, e]
  · rw [Day_absDate, e]

theorem normalizeFrom_length (i : Nat) (row : List String) :
    (normalizeFrom i row).length = row.length := by
  induction row generalizing i with
  | nil => rfl
  | cons f fs ih => simp [normalizeFrom, ih]

theorem normalizeFrom_date (f : String) (fs : List String) :
    (normalizeFrom 0 (f :: fs)).getD 0 "" = dateField (f :: fs) := by
  simp [normalizeFrom, dateField]

theorem normalizeFrom_label (row : List String) :
    (if (normalizeFrom 0 row).length ≥ 2 then (normalizeFrom 0 row).getD 1 "" else "")
      = labelField row := by
  rw [normalizeFrom_length]
  match row with
  | [] => rfl
  | [_] => rfl
  | _ :: l :: _ => simp [normalizeFrom, labelField]

theorem extractStep_eq (out : List (List String)) (row : List String) :
    extractStep out row = out ++ (entryOf row).toList := by
  match row with
  | [] => simp [extractStep, entryOf]
  | f :: fs =>
    unfold extractStep entryOf
    rw [if_neg (by simp)]
    simp only []
    rw [normalizeFrom_date, normalizeFrom_label]
    cases hfp : firstParse extractFormats (dateField (f :: fs)) with
    | none =>
      obtain ⟨e, he⟩ := parseLoop_of_firstParse_none _ _ (zeroTime, Option.none) hfp
        (by simp [extractFormats])
      rw [he]
      simp
    | some dt =>
      rw [parseLoop_of_firstParse _ _ dt _ hfp]
      simp only []
      obtain ⟨y, m, d, hy, hm1, hm2, hd1, hd2, rfl⟩ := firstParse_ok _ _ _ hfp
      obtain ⟨e1, e2, e3, e4⟩ := Date_fields y m d hy hm1 hm2 hd1 hd2
      by_cases h26 : (Date y m d 0 0 0 UTC).Year = 2026
      · rw [if_neg (by simpa using h26), if_pos h26, e4, e1, e2, e3]
        rfl
      · rw [if_pos h26, if_neg h26]
        simp

theorem foldl_extractStep (rows : List (List String)) (out : List (List String)) :
    rows.foldl extractStep out = out ++ rows.filterMap entryOf := by
  induction rows generalizing out with
  | nil => simp
  | cons r rest ih =>
    rw [List.foldl_cons, ih, extractStep_eq, List.filterMap_cons]
    cases entryOf r <;> simp

/-! ## Parsing what was formatted -/

theorem digitChar_facts (n : Nat) :
    '0' ≤ digitChar n ∧ digitChar n ≤ '9' ∧ (digitChar n).toNat - 48 = n % 10 ∧
    isSpace (digitChar n) = false ∧ digitChar n ≠ '-' ∧ digitChar n ≠ '+' ∧
    digitChar n ≠ ' ' ∧ digitChar n ≠ Char.ofNat 65279 := by
  have h : ∀ k : Fin 10, '0' ≤ Char.ofNat (48 + k.val) ∧ Char.ofNat (48 + k.val) ≤ '9' ∧
      (Char.ofNat (48 + k.val)).toNat - 48 = k.val ∧
      isSpace (Char.ofNat (48 + k.val)) = false ∧ Char.ofNat (48 + k.val) ≠ '-' ∧
      Char.ofNat (48 + k.val) ≠ '+' ∧ Char.ofNat (48 + k.val) ≠ ' ' ∧
      Char.ofNat (48 + k.val) ≠ Char.ofNat 65279 := by
    decide
  exact h ⟨n % 10, Nat.mod_lt _ (by norm_num)⟩

theorem isDigit_digitChar_zero (n : Nat) (s : List Char) : isDigit (digitChar n :: s) 0 = true := by
  have h := digitChar_facts n
  simp only [isDigit, List.get?_cons_zero]
  exact decide_eq_true ⟨h.1, h.2.1⟩

theorem isDigit_digitChar_one (c : Char) (n : Nat) (s : List Char) :
    isDigit (c :: digitChar n :: s) 1 = true := by
  have h := digitChar_facts n
  simp only [isDigit, List.get?_cons_succ, List.get?_cons_zero]
  exact decide_eq_true ⟨h.1, h.2.1⟩

theorem getnum_pad2 (n : Nat) (hn : n < 100) (fixed : Bool) (rest : List Char) :
    getnum (pad2 n ++ rest) fixed = some ((n : Int), rest) := by
  unfold getnum pad2
  simp only [List.cons_append, List.nil_append, isDigit_digitChar_zero, isDigit_digitChar_one,
    Bool.not_true, Bool.false_eq_true, if_false, List.getD_cons_zero, List.getD_cons_succ,
    List.drop_succ_cons, List.drop_zero, (digitChar_facts n).2.2.1,
    (digitChar_facts (n / 10)).2.2.1]
  congr 2
  omega

theorem leadingInt_digit (x n : Nat) (hx : x ≤ 100000) (rest : List Char) :
    leadingInt x (digitChar n :: rest) = leadingInt (x * 10 + n % 10) rest := by
  have h := digitChar_facts n
  rw [leadingInt, if_neg ((not_digit_iff _).not.mpr (not_not.mpr ⟨h.1, h.2.1⟩)),
    if_neg (by omega)]
  simp only [h.2.2.1]
  rw [if_neg (by omega)]

theorem atoi_pad4 (n : Nat) (hn : n < 10000) : atoi (pad4 n) = some (n : Int) := by
  have h := digitChar_facts (n / 1000)
  unfold atoi pad4
  simp only [List.head?_cons, Option.some.injEq, h.2.2.2.2.1, h.2.2.2.2.2.1, or_self, if_false,
    decide_False]
  rw [leadingInt_digit _ _ (by omega), leadingInt_digit _ _ (by omega),
    leadingInt_digit _ _ (by omega), leadingInt_digit _ _ (by omega)]
  simp only [leadingInt, Bool.false_eq_true, if_false]
  congr 2
  omega

theorem skip_nil (value : List Char) : skip value [] = some value := by
  cases value <;> rfl

theorem skip_dash (value : List Char) : skip ('-' :: value) ['-'] = some value := by
  simp [skip, skipFuel]

/-- The layout `2006-01-02` parses the zero-padded form of a valid date back to the
date. -/
theorem Parse_isoDate (y m d : Nat) (hy : y ≤ 9999) (hm1 : 1 ≤ m) (hm2 : m ≤ 12) (hd1 : 1 ≤ d)
    (hd2 : d ≤ monthLen (isLeap y) m) :
    Parse "2006-01-02" (isoDate y m d) = Except.ok (Date y m d 0 0 0 UTC) := by
  have ht := (beforeMonth_table (isLeap y) ⟨m, by omega⟩ hm1).2.1
  simp only [] at ht
  have c1 : nextStdChunk "2006-01-02".data = ([], Std.stdLongYear, "-01-02".data) := by decide
  have c2 : nextStdChunk "-01-02".data = (['-'], Std.stdZeroMonth, "-02".data) := by decide
  have c3 : nextStdChunk "-02".data = (['-'], Std.stdZeroDay, []) := by decide
  have c4 : nextStdChunk [] = ([], Std.none, []) := by decide
  have hlen : ¬ ((pad4 y ++ '-' :: (pad2 m ++ '-' :: pad2 d)).length < 4 ∨
      (!isDigit (pad4 y ++ '-' :: (pad2 m ++ '-' :: pad2 d)) 0) = true) := by
    simp [pad4, isDigit_digitChar_zero]
  have htake : (pad4 y ++ '-' :: (pad2 m ++ '-' :: pad2 d)).take 4 = pad4 y := by
    simp [pad4]
  have hdrop : (pad4 y ++ '-' :: (pad2 m ++ '-' :: pad2 d)).drop 4
      = '-' :: (pad2 m ++ '-' :: pad2 d) := by
    simp [pad4]
  have hmr : ¬ ((m : Int) ≤ 0 ∨ 12 < (m : Int)) := by omega
  have hdr : ¬ ((d : Int) < 1 ∨ (d : Int) > daysIn (m : Int) (y : Int)) := by
    rw [daysIn_eq_monthLen _ m hm1 hm2]
    omega
  have hmneg : ¬ ((m : Int) < 0) := by omega
  have hdneg : ¬ ((d : Int) < 0) := by omega
  have g2 : getnum (pad2 d) true = some ((d : Int), []) := by
    have := getnum_pad2 d (by omega) true []
    rwa [List.append_nil] at this
  unfold Parse isoDate
  simp only [Int.toNat_ofNat, List.append_assoc, List.cons_append]
  rw [show "2006-01-02".data.length + 1 = 10 + 1 by decide]
  rw [parseFuel, c1]
  simp only [skip_nil, hlen, if_false, htake, hdrop, atoi_pad4 y (by omega)]
  rw [parseFuel, c2]
  simp only [skip_dash, getnum_pad2 m (by omega), hmr, if_false]
  rw [parseFuel, c3]
  simp only [skip_dash, g2]
  rw [parseFuel, c4]
  simp only [skip_nil, List.length_nil, ne_eq, not_true_eq_false, if_false, hmneg, hdneg, hdr]

/-! ## The load pass -/

theorem loadStep_eq (hol : HolMap) (row : List String) :
    loadStep hol row
      = fun k => if rowKey row = some k then some (defaultedLabel row) else hol k := by
  match row with
  | [] =>
    funext k
    simp [loadStep, rowKey]
  | f :: fs =>
    funext k
    unfold loadStep rowKey defaultedLabel
    rw [if_neg (by simp)]
    simp only []
    rw [normalizeFrom_date, normalizeFrom_label]
    cases hfp : firstParse loadFormats (dateField (f :: fs)) with
    | none =>
      obtain ⟨e, he⟩ := parseLoop_of_firstParse_none _ _ (zeroTime, Option.none) hfp
        (by simp [loadFormats])
      rw [he]
      simp
    | some dt =>
      rw [parseLoop_of_firstParse _ _ dt _ hfp]
      simp only [Option.map_some']
      obtain ⟨y, m, d, hy, hm1, hm2, hd1, hd2, rfl⟩ := firstParse_ok _ _ _ hfp
      obtain ⟨e1, e2, e3, e4⟩ := Date_fields y m d hy hm1 hm2 hd1 hd2
      simp only [e1, e2, e3, e4]
      show (if k = isoDate y m d then some _ else hol k) = _
      by_cases hk : k = isoDate y m d
      · rewrite [if_pos hk, if_pos (congrArg some hk.symm)]
        exact rfl
      · have hk2 : ¬ (some (isoDate (y : Int) (m : Int) (d : Int)) = some k) := by
          intro h
          exact hk (Option.some.inj h).symm
        rewrite [if_neg hk, if_neg hk2]
        exact rfl

theorem loadRows_concat (rows : List (List String)) (row : List String) :
    loadRows (rows ++ [row]) = loadStep (loadRows rows) row := by
  unfold loadRows
  rw [List.foldl_append]
  rfl

theorem lastRowWithKey_concat (rows : List (List String)) (row : List String) (k : String) :
    lastRowWithKey (rows ++ [row]) k
      = if rowKey row = some k then some row else lastRowWithKey rows k := by
  unfold lastRowWithKey
  rw [List.reverse_append, List.reverse_singleton, List.singleton_append, List.find?_cons]
  by_cases h : rowKey row = some k
  · simp [h]
  · simp [h]

theorem loadRows_eq_last (rows : List (List String)) (k : String) :
    loadRows rows k = (lastRowWithKey rows k).map defaultedLabel := by
  induction rows using List.reverseRecOn with
  | nil => rfl
  | append_singleton rows row ih =>
    rw [loadRows_concat, loadStep_eq, lastRowWithKey_concat]
    by_cases h : rowKey row = some k
    · simp [h]
    · simp only [h, if_false]
      exact ih

/-- C10: last write wins in the loader.  For every sequence of rows and every key, the
table holds at the key the label after defaulting of the last row whose date parses to the
key, and nothing when no row does; two rows with the date 2026-05-04 and different labels
give the label of the second. -/
theorem loadRows_last_write_wins :
    (∀ (rows : List (List String)) (k v : String), loadRows rows k = some v →
      ∃ row, lastRowWithKey rows k = some row ∧ row ∈ rows ∧ rowKey row = some k ∧
        v = defaultedLabel row) ∧
    (∀ (rows : List (List String)) (k : String),
      loadRows rows k = (lastRowWithKey rows k).map defaultedLabel) ∧
    loadRows [["2026-05-04", "憲法記念日"], ["2026-05-04", "みどりの日"]] "2026-05-04"
      = some "みどりの日" := by
  refine ⟨?_, loadRows_eq_last, by rfl⟩
  intro rows k v h
  rw [loadRows_eq_last] at h
  cases hl : lastRowWithKey rows k with
  | none => rw [hl] at h; simp at h
  | some row =>
    rw [hl] at h
    simp only [Option.map_some', Option.some.injEq] at h
    unfold lastRowWithKey at hl
    have hmem := List.mem_of_find?_eq_some hl
    have hp := List.find?_some hl
    exact ⟨row, rfl, List.mem_reverse.mp hmem, of_decide_eq_true hp, h.symm⟩

theorem loadRows_last_write_wins_witness :
    loadRows [["2026/5/4", "a"], ["bad"], ["2026-05-04", ""]] "2026-05-04" = some "祝日" ∧
    ∃ row, lastRowWithKey [["2026/5/4", "a"], ["bad"], ["2026-05-04", ""]] "2026-05-04"
        = some row ∧ "祝日" = defaultedLabel row := by
  have h : loadRows [["2026/5/4", "a"], ["bad"], ["2026-05-04", ""]] "2026-05-04"
      = some "祝日" := by rfl
  obtain ⟨row, h1, -, -, h2⟩ := loadRows_last_write_wins.1 _ _ _ h
  exact ⟨h, row, h1, h2⟩

theorem extractRows_filterMap (rows : List (List String)) :
    extractRows rows = rows.filterMap entryOf := by
  unfold extractRows
  rw [foldl_extractStep, List.nil_append]

/-- C8: for every sequence of source rows the extraction pass writes, in source order and
with duplicates kept, one entry for each row that has a field and whose normalized first
field parses under the extraction layouts to a date of year 2026, and nothing for any
other row; the entry is the date in `YYYY-MM-DD` form and the normalized second field,
the empty string when there is none.  No placeholder is put in for an empty label. -/
theorem extractRows_eq_entries :
    (∀ rows : List (List String), extractRows rows = rows.filterMap entryOf) ∧
    extractRows [["2026/5/4"], ["2025/5/4", "x"], ["2026/5/4", " "], ["?"], [],
        ["2026/5/4", "x"], ["2026/5/4"]]
      = [["2026-05-04", ""], ["2026-05-04", ""], ["2026-05-04", "x"], ["2026-05-04", ""]] := by
  exact ⟨extractRows_filterMap, by rfl⟩

theorem entryOf_some (row e : List String) (h : entryOf row = some e) :
    ∃ (f : String) (fs : List String) (m d : Nat), row = f :: fs ∧
      firstParse extractFormats (dateField row) = some (Date 2026 m d 0 0 0 UTC) ∧
      1 ≤ m ∧ m ≤ 12 ∧ 1 ≤ d ∧ d ≤ monthLen (isLeap 2026) m ∧
      e = [isoDate 2026 m d, labelField row] := by
  match row with
  | [] => simp [entryOf] at h
  | f :: fs =>
    unfold entryOf at h
    simp only [] at h
    cases hfp : firstParse extractFormats (dateField (f :: fs)) with
    | none => rw [hfp] at h; simp at h
    | some dt =>
      rw [hfp] at h
      simp only [] at h
      obtain ⟨y, m, d, hy, hm1, hm2, hd1, hd2, rfl⟩ := firstParse_ok _ _ _ hfp
      obtain ⟨e1, e2, e3, e4⟩ := Date_fields y m d hy hm1 hm2 hd1 hd2
      simp only [e1, e2, e3] at h
      by_cases h26 : (y : Int) = 2026
      · rw [if_pos h26] at h
        have hy26 : y = 2026 := by omega
        subst hy26
        exact ⟨f, fs, m, d, rfl, rfl, hm1, hm2, hd1, hd2, (Option.some.inj h).symm⟩
      · rw [if_neg h26] at h
        simp at h

/-- C9: every entry the extraction pass writes has as date field a string of 10
characters `2026-MM-DD`, zero padded, for a month in 1..12 and a day of that month in
2026; and a row whose date parses to a date of another year leaves the output as it
was. -/
theorem extractRows_dates_in_2026 :
    (∀ (rows : List (List String)) (e : List String), e ∈ extractRows rows →
      ∃ (m d : Nat) (label : String), 1 ≤ m ∧ m ≤ 12 ∧ 1 ≤ d ∧ d ≤ gregorianDays 2026 m ∧
        e = [⟨'2' :: '0' :: '2' :: '6' :: '-' :: (pad2 m ++ '-' :: pad2 d)⟩, label] ∧
        (e.getD 0 "").length = 10) ∧
    (∀ (row : List String) (dt : Time),
      firstParse extractFormats (dateField row) = some dt → dt.Year ≠ 2026 →
      (∀ out, extractStep out row = out) ∧
      ∀ pre post, extractRows (pre ++ row :: post) = extractRows (pre ++ post)) := by
  constructor
  · intro rows e he
    rw [extractRows_filterMap rows] at he
    obtain ⟨row, _, hrow⟩ := List.mem_filterMap.mp he
    obtain ⟨f, fs, m, d, -, -, hm1, hm2, hd1, hd2, rfl⟩ := entryOf_some row e hrow
    rw [monthLen_eq_gregorianDays 2026 m hm1 hm2] at hd2
    exact ⟨m, d, labelField row, hm1, hm2, hd1, hd2, rfl, rfl⟩
  · intro row dt hfp hyear
    have hnone : entryOf row = Option.none := by
      match row with
      | [] => rfl
      | f :: fs =>
        unfold entryOf
        simp only []
        rw [hfp]
        simp only []
        rw [if_neg hyear]
    constructor
    · intro out
      rw [extractStep_eq, hnone]
      simp
    · intro pre post
      rw [extractRows_filterMap, extractRows_filterMap, List.filterMap_append,
        List.filterMap_append, List.filterMap_cons, hnone]

theorem extractRows_dates_in_2026_witness :
    ["2026-01-01", "元日"] ∈ extractRows [["2025/12/31", "x"], ["2026/1/1", "元日"]] ∧
    (∃ (m d : Nat) (label : String), 1 ≤ m ∧ m ≤ 12 ∧ 1 ≤ d ∧ d ≤ gregorianDays 2026 m ∧
      ["2026-01-01", "元日"]
        = [⟨'2' :: '0' :: '2' :: '6' :: '-' :: (pad2 m ++ '-' :: pad2 d)⟩, label]) ∧
    firstParse extractFormats (dateField ["2025/12/31", "x"]) = some (Date 2025 12 31 0 0 0 UTC) ∧
    (Date 2025 12 31 0 0 0 UTC).Year ≠ 2026 ∧
    extractRows ([] ++ ["2025/12/31", "x"] :: [["2026/1/1", "元日"]])
      = extractRows ([] ++ [["2026/1/1", "元日"]]) := by
  have hmem : ["2026-01-01", "元日"] ∈ extractRows [["2025/12/31", "x"], ["2026/1/1", "元日"]] := by
    have : extractRows [["2025/12/31", "x"], ["2026/1/1", "元日"]] = [["2026-01-01", "元日"]] := by
      rfl
    rw [this]
    exact List.mem_singleton.mpr rfl
  have hfp : firstParse extractFormats (dateField ["2025/12/31", "x"])
      = some (Date 2025 12 31 0 0 0 UTC) := by rfl
  have hy : (Date 2025 12 31 0 0 0 UTC).Year ≠ 2026 := by decide
  obtain ⟨m, d, label, h1, h2, h3, h4, h5, -⟩ :=
    extractRows_dates_in_2026.1 _ _ hmem
  exact ⟨hmem, ⟨m, d, label, h1, h2, h3, h4, h5⟩, hfp, hy,
    (extractRows_dates_in_2026.2 _ _ hfp hy).2 [] [["2026/1/1", "元日"]]⟩

/-! ## Extraction, then load -/

theorem trimSpaceChars_eq_self (l : List Char)
    (h1 : ∀ hl : 0 < l.length, ¬ isSpace (l.get ⟨0, hl⟩) = true)
    (h2 : ∀ hl : l ≠ [], ¬ isSpace (l.getLast hl) = true) :
    trimSpaceChars l = l := by
  have e1 : List.dropWhile isSpace l = l := List.dropWhile_eq_self_iff.mpr h1
  have e2 : List.rdropWhile isSpace l = l := List.rdropWhile_eq_self_iff.mpr h2
  unfold trimSpaceChars
  rw [e1]
  exact e2

/-- Trimming is idempotent. -/
theorem trimSpaceChars_idem (l : List Char) :
    trimSpaceChars (trimSpaceChars l) = trimSpaceChars l := by
  have hdef : ∀ x, trimSpaceChars x = List.rdropWhile isSpace (List.dropWhile isSpace x) :=
    fun _ => rfl
  apply trimSpaceChars_eq_self
  · intro hl
    have hne : trimSpaceChars l ≠ [] := List.length_pos.mp hl
    have hpre : trimSpaceChars l <+: List.dropWhile isSpace l := by
      rw [hdef]
      exact List.rdropWhile_prefix _ _
    have hne2 : List.dropWhile isSpace l ≠ [] := by
      intro h
      rw [h] at hpre
      exact hne (List.prefix_nil.mp hpre)
    have hh := hpre.head hne
    have hns := List.head_dropWhile_not isSpace l hne2
    have e : ∀ (x : List Char) (h1 : 0 < x.length) (h2 : x ≠ []),
        x.get ⟨0, h1⟩ = x.head h2 := by
      intro x h1 h2
      cases x with
      | nil => exact absurd rfl h2
      | cons a b => rfl
    rw [e _ hl hne, hh, hns]
    simp
  · have hid := List.rdropWhile_idempotent isSpace (List.dropWhile isSpace l)
    rw [← hdef] at hid
    exact List.rdropWhile_eq_self_iff.mp hid

theorem TrimSpace_idem (s : String) : TrimSpace (TrimSpace s) = TrimSpace s := by
  unfold TrimSpace
  rw [trimSpaceChars_idem]

theorem TrimSpace_empty : TrimSpace "" = "" := by decide

theorem labelField_idem (row : List String) (k : String) :
    labelField [k, labelField row] = labelField row := by
  match row with
  | [] => exact TrimSpace_empty
  | [_] => exact TrimSpace_empty
  | _ :: l :: _ => exact TrimSpace_idem l

theorem dateField_isoDate (y m d : Nat) (rest : List String) :
    dateField (isoDate y m d :: rest) = isoDate y m d := by
  have hy := digitChar_facts (y / 1000)
  have hd := digitChar_facts d
  have ht : TrimSpace (isoDate y m d) = isoDate y m d := by
    unfold TrimSpace isoDate
    rw [trimSpaceChars_eq_self]
    · intro hl
      simp [pad4, hy.2.2.2.1]
    · intro hl
      simp [pad4, pad2, hd.2.2.2.1]
  unfold dateField
  rw [List.getD_cons_zero, ht]
  unfold TrimPrefix isoDate
  have hb : ((Char.ofNat 65279) == digitChar ((y : Int).toNat / 1000)) = false := by
    rw [Int.toNat_ofNat]
    exact beq_false_of_ne (Ne.symm hy.2.2.2.2.2.2.2)
  rw [if_neg]
  simp only [pad4, List.cons_append]
  intro h
  simp only [List.isPrefixOf, hb, Bool.false_and] at h
  exact absurd h (by simp)

/-- The load pass stores an entry of the extraction pass under the date field of the
entry. -/
theorem rowKey_entry (y m d : Nat) (l : String) (hy : y ≤ 9999) (hm1 : 1 ≤ m) (hm2 : m ≤ 12)
    (hd1 : 1 ≤ d) (hd2 : d ≤ monthLen (isLeap y) m) :
    rowKey [isoDate y m d, l] = some (isoDate y m d) := by
  obtain ⟨e1, e2, e3, _⟩ := Date_fields y m d hy hm1 hm2 hd1 hd2
  unfold rowKey
  simp only []
  rw [dateField_isoDate]
  unfold firstParse loadFormats
  rw [List.findSome?_cons, Parse_isoDate y m d hy hm1 hm2 hd1 hd2]
  simp only [Option.map_some', e1, e2, e3]

theorem lastSourceLabel_concat (rows : List (List String)) (row : List String) (k : String) :
    lastSourceLabel (rows ++ [row]) k
      = match entryOf row with
        | some [k2, l] => if k2 = k then some l else lastSourceLabel rows k
        | _ => lastSourceLabel rows k := by
  unfold lastSourceLabel
  rw [List.reverse_append, List.reverse_singleton, List.singleton_append, List.findSome?_cons]
  cases he : entryOf row with
  | none => rfl
  | some e =>
    obtain ⟨f, fs, m, d, -, -, -, -, -, -, rfl⟩ := entryOf_some row e he
    simp only []
    split_ifs <;> rfl

/-- Loading what was extracted: the table holds at a key the label of the last source row
with that date, with the placeholder in the place of an empty label. -/
theorem loadRows_extractRows (rows : List (List String)) (k : String) :
    loadRows (extractRows rows) k = (lastSourceLabel rows k).map withDefault := by
  rw [extractRows_filterMap]
  induction rows using List.reverseRecOn with
  | nil => rfl
  | append_singleton rows row ih =>
    rw [List.filterMap_append, lastSourceLabel_concat]
    cases he : entryOf row with
    | none =>
      simp only [List.filterMap_cons, he, List.filterMap_nil, List.append_nil]
      exact ih
    | some e =>
      obtain ⟨f, fs, m, d, -, -, hm1, hm2, hd1, hd2, rfl⟩ := entryOf_some row e he
      simp only [List.filterMap_cons, he, List.filterMap_nil]
      have hrk := rowKey_entry 2026 m d (labelField row) (by norm_num) hm1 hm2 hd1 hd2
      rw [Nat.cast_ofNat] at hrk
      rw [loadRows_concat, loadStep_eq]
      simp only [hrk]
      by_cases hk : isoDate 2026 m d = k
      · rw [if_pos (congrArg some hk), if_pos hk]
        unfold defaultedLabel withDefault
        rw [labelField_idem]
        rfl
      · have hk2 : ¬ some (isoDate 2026 (m : Int) (d : Int)) = some k :=
          fun h => hk (Option.some.inj h)
        rw [if_neg hk2, if_neg hk]
        exact ih

/-- C7, as stated, fails on the rows `("2026/1/1", "元日")`, `("2026/1/1", "")`: the first
row has a date of 2026 and a non-empty label, the loaded table holds the placeholder at
`2026-01-01`, which is neither the label of the last row with that date and a non-empty
label nor the label of the last row with that date. -/
theorem roundTrip_stated_counterexample :
    ¬ (∀ row ∈ [["2026/1/1", "元日"], ["2026/1/1", ""]], ∀ (k l : String),
        entryOf row = some [k, l] → l ≠ "" →
        loadRows (extractRows [["2026/1/1", "元日"], ["2026/1/1", ""]]) k
          = lastLabelledSourceLabel [["2026/1/1", "元日"], ["2026/1/1", ""]] k) ∧
    ¬ (∀ row ∈ [["2026/1/1", "元日"], ["2026/1/1", ""]], ∀ (k l : String),
        entryOf row = some [k, l] → l ≠ "" →
        loadRows (extractRows [["2026/1/1", "元日"], ["2026/1/1", ""]]) k
          = lastSourceLabel [["2026/1/1", "元日"], ["2026/1/1", ""]] k) ∧
    loadRows (extractRows [["2026/1/1", "元日"], ["2026/1/1", ""]]) "2026-01-01"
      = some "祝日" := by
  have hmem : ["2026/1/1", "元日"] ∈ [["2026/1/1", "元日"], ["2026/1/1", ""]] :=
    List.mem_cons_self _ _
  have he : entryOf ["2026/1/1", "元日"] = some ["2026-01-01", "元日"] := by rfl
  have hl : ("元日" : String) ≠ "" := by decide
  have hv : loadRows (extractRows [["2026/1/1", "元日"], ["2026/1/1", ""]]) "2026-01-01"
      = some "祝日" := by rfl
  have ha : lastLabelledSourceLabel [["2026/1/1", "元日"], ["2026/1/1", ""]] "2026-01-01"
      = some "元日" := by rfl
  have hb : lastSourceLabel [["2026/1/1", "元日"], ["2026/1/1", ""]] "2026-01-01"
      = some "" := by rfl
  refine ⟨?_, ?_, hv⟩
  · intro h
    have := h _ hmem _ _ he hl
    rw [hv, ha] at this
    exact absurd this (by decide)
  · intro h
    have := h _ hmem _ _ he hl
    rw [hv, hb] at this
    exact absurd this (by decide)

/-- C7, amended: for every source row whose normalized date field parses under the
extraction layouts to a date of 2026, the table loaded from the extracted entries has the
key of that date, and its value is the label of the last source row with that date, or
the placeholder of the load pass when that label is empty. -/
theorem roundTrip_last_label (rows : List (List String)) (row : List String) (k l : String)
    (hrow : row ∈ rows) (he : entryOf row = some [k, l]) :
    ∃ l2, lastSourceLabel rows k = some l2 ∧
      loadRows (extractRows rows) k = some (if l2 = "" then "祝日" else l2) := by
  have hsome : (lastSourceLabel rows k).isSome = true := by
    unfold lastSourceLabel
    rw [List.findSome?_isSome_iff]
    refine ⟨row, List.mem_reverse.mpr hrow, ?_⟩
    rw [he]
    simp
  obtain ⟨l2, hl2⟩ := Option.isSome_iff_exists.mp hsome
  refine ⟨l2, hl2, ?_⟩
  rw [loadRows_extractRows, hl2]
  rfl

theorem roundTrip_last_label_witness :
    ["2026/1/1", "元日"] ∈ [["2026/1/1", "元日"]] ∧
    entryOf ["2026/1/1", "元日"] = some ["2026-01-01", "元日"] ∧
    extractRows [["2026/1/1", "元日"]] = [["2026-01-01", "元日"]] ∧
    loadRows (extractRows [["2026/1/1", "元日"]]) "2026-01-01" = some "元日" := by
  have hmem : ["2026/1/1", "元日"] ∈ [["2026/1/1", "元日"]] := List.mem_singleton.mpr rfl
  have he : entryOf ["2026/1/1", "元日"] = some ["2026-01-01", "元日"] := by rfl
  obtain ⟨l2, h1, h2⟩ := roundTrip_last_label [["2026/1/1", "元日"]] _ _ _ hmem he
  have h3 : lastSourceLabel [["2026/1/1", "元日"]] "2026-01-01" = some "元日" := by rfl
  rw [h3] at h1
  have h4 : l2 = "元日" := (Option.some.inj h1).symm
  subst h4
  exact ⟨hmem, he, by rfl, h2⟩

/-! ## The navigation links -/

theorem slash_m_ne_empty (s : String) : "/?m=" ++ s ≠ "" := by
  intro h
  have h2 := congrArg String.length h
  rw [String.length_append] at h2
  have h3 : ("/?m=" : String).length = 4 := by decide
  have h4 : ("" : String).length = 0 := by decide
  omega

/-- C16: for every year, holiday table and month, `buildPage` returns a non-empty
`PrevMonthURL` exactly when `month > 1` and a non-empty `NextMonthURL` exactly when
`month < 12`; so among the months 1..12 only month 1 has no previous-month link, only
month 12 has no next-month link, and the months 2..11 have both. -/
theorem buildPage_navigation (loc : Location) (year month : Int) (hol : HolMap)
    (csvPath : String) :
    ((buildPage loc year month hol csvPath).PrevMonthURL ≠ "" ↔ month > 1) ∧
    ((buildPage loc year month hol csvPath).NextMonthURL ≠ "" ↔ month < 12) ∧
    (1 ≤ month → month ≤ 12 →
      ((buildPage loc year month hol csvPath).PrevMonthURL = "" ↔ month = 1) ∧
      ((buildPage loc year month hol csvPath).NextMonthURL = "" ↔ month = 12) ∧
      (2 ≤ month → month ≤ 11 →
        (buildPage loc year month hol csvPath).PrevMonthURL ≠ "" ∧
        (buildPage loc year month hol csvPath).NextMonthURL ≠ "")) := by
  have hp : (buildPage loc year month hol csvPath).PrevMonthURL
      = if month > 1 then "/?m=" ++ formatInt (month - 1) else "" := rfl
  have hn : (buildPage loc year month hol csvPath).NextMonthURL
      = if month < 12 then "/?m=" ++ formatInt (month + 1) else "" := rfl
  have h1 : (buildPage loc year month hol csvPath).PrevMonthURL ≠ "" ↔ month > 1 := by
    rw [hp]
    by_cases h : month > 1
    · rw [if_pos h]
      exact ⟨fun _ => h, fun _ => slash_m_ne_empty _⟩
    · rw [if_neg h]
      exact ⟨fun hh => absurd rfl hh, fun hh => absurd hh h⟩
  have h2 : (buildPage loc year month hol csvPath).NextMonthURL ≠ "" ↔ month < 12 := by
    rw [hn]
    by_cases h : month < 12
    · rw [if_pos h]
      exact ⟨fun _ => h, fun _ => slash_m_ne_empty _⟩
    · rw [if_neg h]
      exact ⟨fun hh => absurd rfl hh, fun hh => absurd hh h⟩
  refine ⟨h1, h2, ?_⟩
  intro hm1 hm2
  refine ⟨?_, ?_, ?_⟩
  · constructor
    · intro h
      by_contra hne
      exact (h1.mpr (by omega)) h
    · intro h
      by_contra hne
      have := h1.mp hne
      omega
  · constructor
    · intro h
      by_contra hne
      exact (h2.mpr (by omega)) h
    · intro h
      by_contra hne
      have := h2.mp hne
      omega
  · intro ha hb
    exact ⟨h1.mpr (by omega), h2.mpr (by omega)⟩

theorem buildPage_navigation_witness :
    (1 : Int) ≤ 1 ∧ (1 : Int) ≤ 12 ∧
    (buildPage tokyo 2026 1 HolMap.empty "holidays_2026.csv").PrevMonthURL = "" ∧
    (buildPage tokyo 2026 1 HolMap.empty "holidays_2026.csv").NextMonthURL ≠ "" :=
  ⟨by decide, by decide,
    ((buildPage_navigation tokyo 2026 1 HolMap.empty "holidays_2026.csv").2.2
      (by decide) (by decide)).1.mpr rfl,
    (buildPage_navigation tokyo 2026 1 HolMap.empty "holidays_2026.csv").2.1.mpr (by decide)⟩

/-! ## The grid and the keys of the month -/

theorem rowKey_some (row : List String) (k : String) (h : rowKey row = some k) :
    ∃ (y m d : Nat), y ≤ 9999 ∧ 1 ≤ m ∧ m ≤ 12 ∧ 1 ≤ d ∧ d ≤ monthLen (isLeap y) m ∧
      firstParse loadFormats (dateField row) = some (Date y m d 0 0 0 UTC) ∧ k = isoDate y m d := by
  match row with
  | [] => simp [rowKey] at h
  | f :: fs =>
    unfold rowKey at h
    simp only [] at h
    cases hfp : firstParse loadFormats (dateField (f :: fs)) with
    | none => rw [hfp] at h; simp at h
    | some dt =>
      rw [hfp] at h
      simp only [Option.map_some', Option.some.injEq] at h
      obtain ⟨y, m, d, hy, hm1, hm2, hd1, hd2, rfl⟩ := firstParse_ok _ _ _ hfp
      obtain ⟨e1, e2, e3, _⟩ := Date_fields y m d hy hm1 hm2 hd1 hd2
      simp only [e1, e2, e3] at h
      exact ⟨y, m, d, hy, hm1, hm2, hd1, hd2, rfl, h.symm⟩

theorem defaultedLabel_ne_empty (row : List String) : defaultedLabel row ≠ "" := by
  unfold defaultedLabel
  by_cases h : labelField row = ""
  · rw [if_pos h]
    decide
  · rw [if_neg h]
    exact h

theorem isoDate_length (y m d : Int) : (isoDate y m d).length = 10 := by
  rfl

/-- C18: every key of the table that the load pass returns is a string of 10 characters,
the zero-padded `YYYY-MM-DD` form of a valid calendar date with a year in 0..9999, and
every label stored is a non-empty string. -/
theorem loadRows_table_invariant (rows : List (List String)) (k v : String)
    (h : loadRows rows k = some v) :
    (∃ (y m d : Nat), y ≤ 9999 ∧ 1 ≤ m ∧ m ≤ 12 ∧ 1 ≤ d ∧ d ≤ gregorianDays y m ∧
      k = ⟨pad4 y ++ '-' :: (pad2 m ++ '-' :: pad2 d)⟩) ∧
    k.length = 10 ∧ v ≠ "" := by
  rw [loadRows_eq_last] at h
  cases hl : lastRowWithKey rows k with
  | none => rw [hl] at h; simp at h
  | some row =>
    rw [hl] at h
    simp only [Option.map_some', Option.some.injEq] at h
    unfold lastRowWithKey at hl
    have hp := List.find?_some hl
    obtain ⟨y, m, d, hy, hm1, hm2, hd1, hd2, -, hk⟩ :=
      rowKey_some row k (of_decide_eq_true hp)
    rw [monthLen_eq_gregorianDays y m hm1 hm2] at hd2
    refine ⟨⟨y, m, d, hy, hm1, hm2, hd1, hd2, ?_⟩, ?_, ?_⟩
    · rw [hk]
      rfl
    · rw [hk]
      exact isoDate_length _ _ _
    · rw [← h]
      exact defaultedLabel_ne_empty row

theorem loadRows_table_invariant_witness :
    loadRows [[" 2024/2/29 ", ""], ["x", "y"]] "2024-02-29" = some "祝日" ∧
    ("2024-02-29" : String).length = 10 ∧ ("祝日" : String) ≠ "" := by
  have h : loadRows [[" 2024/2/29 ", ""], ["x", "y"]] "2024-02-29" = some "祝日" := by rfl
  obtain ⟨-, h2, h3⟩ := loadRows_table_invariant _ _ _ h
  exact ⟨h, h2, h3⟩

/-! ## Rows whose date does not parse -/

/-- C13: a row whose normalized date field parses under none of the extraction layouts
is dropped without any effect on the rest: put anywhere into a sequence of source rows it
leaves the output of the extraction pass as it was, so the entry of every row of 2026
after it is still written. -/
theorem extractRows_drops_unparseable (pre post : List (List String)) (r : List String)
    (h : ∀ fm ∈ extractFormats, ∀ t, Parse fm (dateField r) ≠ Except.ok t) :
    extractRows (pre ++ r :: post) = extractRows (pre ++ post) ∧
    (∀ (row e : List String), row ∈ post → entryOf row = some e →
      e ∈ extractRows (pre ++ r :: post)) := by
  have hfp : firstParse extractFormats (dateField r) = Option.none := by
    unfold firstParse
    rw [List.findSome?_eq_none_iff]
    intro fm hfm
    cases hp : Parse fm (dateField r) with
    | ok t => exact absurd hp (h fm hfm t)
    | error e => rfl
  have hnone : entryOf r = Option.none := by
    match r with
    | [] => rfl
    | f :: fs =>
      unfold entryOf
      simp only []
      rw [hfp]
  have heq : extractRows (pre ++ r :: post) = extractRows (pre ++ post) := by
    rw [extractRows_filterMap, extractRows_filterMap, List.filterMap_append,
      List.filterMap_append, List.filterMap_cons, hnone]
  refine ⟨heq, ?_⟩
  intro row e hrow he
  rw [heq, extractRows_filterMap]
  exact List.mem_filterMap.mpr ⟨row, List.mem_append_right pre hrow, he⟩

theorem extractRows_drops_unparseable_witness :
    (∀ fm ∈ extractFormats, ∀ t, Parse fm (dateField ["国民の祝日", "名称"]) ≠ Except.ok t) ∧
    extractRows ([["2026/1/1", "元日"]] ++ ["国民の祝日", "名称"] :: [["2026/5/4", "みどりの日"]])
      = [["2026-01-01", "元日"], ["2026-05-04", "みどりの日"]] := by
  have hbad : ∀ fm ∈ extractFormats, ∀ t,
      Parse fm (dateField ["国民の祝日", "名称"]) ≠ Except.ok t := by
    intro fm hfm t
    unfold extractFormats at hfm
    simp only [List.mem_cons, List.mem_singleton, List.not_mem_nil, or_false] at hfm
    rcases hfm with rfl | rfl | rfl | rfl <;> exact fun hh => absurd hh (by
      have e : ∀ fm, Parse fm (dateField ["国民の祝日", "名称"]) = Except.error ParseError.bad →
          Parse fm (dateField ["国民の祝日", "名称"]) ≠ Except.ok t := by
        intro fm he hk
        rw [he] at hk
        exact absurd hk (by simp)
      exact e _ (by rfl))
  have h := (extractRows_drops_unparseable [["2026/1/1", "元日"]]
    [["2026/5/4", "みどりの日"]] ["国民の祝日", "名称"] hbad).1
  refine ⟨hbad, ?_⟩
  rw [h]
  rfl

/-! ## The placeholder label -/

/-- C11, as stated, fails: the row `("2026-01-01", "")` has a date that parses and an
empty label, and the load pass stores `祝日` for it, not `Holiday`. -/
theorem missing_label_stated_counterexample :
    ¬ (∀ (row : List String) (k : String), rowKey row = some k → labelField row = "" →
        loadRows [row] k = some "Holiday") := by
  intro h
  have hk : rowKey ["2026-01-01", ""] = some "2026-01-01" := by rfl
  have hl : labelField ["2026-01-01", ""] = "" := by rfl
  have hv : loadRows [["2026-01-01", ""]] "2026-01-01" = some "祝日" := by rfl
  have := h _ _ hk hl
  rw [hv] at this
  exact absurd this (by decide)

/-- C11, amended: for every row whose date field parses under the loader layouts and
whose label field is absent or empty after normalization, the load pass stores for that
date the fixed placeholder `祝日`, and not the empty string. -/
theorem loadStep_missing_label (hol : HolMap) (row : List String) (k : String)
    (hk : rowKey row = some k) (hl : labelField row = "") :
    loadStep hol row k = some "祝日" ∧ loadStep hol row k ≠ some "" ∧
    (∀ pre : List (List String), loadRows (pre ++ [row]) k = some "祝日") := by
  have h1 : loadStep hol row k = some "祝日" := by
    rw [loadStep_eq]
    simp only [hk, if_true]
    unfold defaultedLabel
    rw [if_pos hl]
  refine ⟨h1, ?_, ?_⟩
  · rw [h1]
    decide
  · intro pre
    rw [loadRows_concat, loadStep_eq]
    simp only [hk, if_true]
    unfold defaultedLabel
    rw [if_pos hl]

theorem loadStep_missing_label_witness :
    rowKey ["2026/5/4"] = some "2026-05-04" ∧ labelField ["2026/5/4"] = "" ∧
    rowKey ["2026-05-04", "  "] = some "2026-05-04" ∧ labelField ["2026-05-04", "  "] = "" ∧
    loadRows ([["2026-05-04", "みどりの日"]] ++ [["2026/5/4"]]) "2026-05-04" = some "祝日" ∧
    loadStep HolMap.empty ["2026-05-04", "  "] "2026-05-04" = some "祝日" := by
  have hk1 : rowKey ["2026/5/4"] = some "2026-05-04" := by rfl
  have hl1 : labelField ["2026/5/4"] = "" := by rfl
  have hk2 : rowKey ["2026-05-04", "  "] = some "2026-05-04" := by rfl
  have hl2 : labelField ["2026-05-04", "  "] = "" := by rfl
  exact ⟨hk1, hl1, hk2, hl2,
    (loadStep_missing_label HolMap.empty _ _ hk1 hl1).2.2 [["2026-05-04", "みどりの日"]],
    (loadStep_missing_label HolMap.empty _ _ hk2 hl2).1⟩

/-! ## The layout loop -/

/-- C14: for every text and every ordered list of layouts that holds a layout, as the
lists of both passes do (`extractFormats` has four layouts, `loadFormats` three, both written
out in the function that loops over them), the parse loop yields the date of the first
layout, in list order, that parses the text, and signals failure exactly when no layout of
the list parses the text. -/
theorem parseLoop_first_layout (text : String) (layouts : List String)
    (hne : layouts ≠ []) :
    (∀ (before : List String) (fm : String) (after : List String) (t : Time),
      layouts = before ++ fm :: after →
      (∀ f ∈ before, ∀ t2, Parse f text ≠ Except.ok t2) → Parse fm text = Except.ok t →
      parseLoop text layouts (zeroTime, Option.none) = (t, Option.none)) ∧
    ((parseLoop text layouts (zeroTime, Option.none)).2 ≠ Option.none ↔
      ∀ fm ∈ layouts, ∀ t, Parse fm text ≠ Except.ok t) := by
  have hnone : (∀ fm ∈ layouts, ∀ t, Parse fm text ≠ Except.ok t) →
      firstParse layouts text = Option.none := by
    intro h
    unfold firstParse
    rw [List.findSome?_eq_none_iff]
    intro fm hfm
    cases hp : Parse fm text with
    | ok t => exact absurd hp (h fm hfm t)
    | error e => rfl
  constructor
  · intro before fm after t hsplit hbefore hfm
    apply parseLoop_of_firstParse
    rw [hsplit]
    unfold firstParse
    rw [List.findSome?_append]
    have hb : List.findSome? (fun fm =>
        match Parse fm text with
        | Except.ok t => some t
        | Except.error _ => Option.none) before = Option.none := by
      rw [List.findSome?_eq_none_iff]
      intro f hf
      cases hp : Parse f text with
      | ok t2 => exact absurd hp (hbefore f hf t2)
      | error e => rfl
    rw [hb, List.findSome?_cons, hfm]
    rfl
  · constructor
    · intro hperr fm hfm t hp
      have hsome : ∃ t2, firstParse layouts text = some t2 := by
        cases hfp : firstParse layouts text with
        | some t2 => exact ⟨t2, rfl⟩
        | none =>
          unfold firstParse at hfp
          have := (List.findSome?_eq_none_iff.mp hfp) fm hfm
          rw [hp] at this
          simp at this
      obtain ⟨t2, ht2⟩ := hsome
      rw [parseLoop_of_firstParse text layouts t2 _ ht2] at hperr
      exact hperr rfl
    · intro h
      obtain ⟨e, he⟩ := parseLoop_of_firstParse_none text layouts (zeroTime, Option.none)
        (hnone h) hne
      rw [he]
      simp

theorem parseLoop_first_layout_witness :
    extractFormats ≠ [] ∧ loadFormats ≠ [] ∧
    parseLoop "2026/01/01" extractFormats (zeroTime, Option.none)
      = (Date 2026 1 1 0 0 0 UTC, Option.none) ∧
    (parseLoop "元日" extractFormats (zeroTime, Option.none)).2 ≠ Option.none := by
  have hne : extractFormats ≠ [] := by decide
  have h := parseLoop_first_layout "2026/01/01" extractFormats hne
  have h2 := parseLoop_first_layout "元日" extractFormats hne
  refine ⟨hne, by decide, ?_, ?_⟩
  · exact h.1 [] "2006/1/2" ["2006/01/02", "2006-01-02", "2006/1/2 0:00:00"]
      (Date 2026 1 1 0 0 0 UTC) rfl (fun f hf => absurd hf (List.not_mem_nil f)) (by decide)
  · apply h2.2.mpr
    intro fm hfm t
    unfold extractFormats at hfm
    simp only [List.mem_cons, List.mem_singleton, List.not_mem_nil, or_false] at hfm
    have e : ∀ r : Except ParseError Time, r = Except.error ParseError.bad →
        r ≠ Except.ok t := by
      intro r hr hk
      rw [hr] at hk
      exact absurd hk (by simp)
    rcases hfm with rfl | rfl | rfl | rfl <;> exact e _ (by decide)

/-! ## Normalizing a field twice -/

theorem dropBOM_cons (c : Char) (u : List Char) :
    dropBOM (c :: u) = if c = '\uFEFF' then u else c :: u := rfl

theorem String_mk_inj (a b : List Char) : (String.mk a = String.mk b) ↔ a = b := by
  constructor
  · intro h
    exact congrArg String.data h
  · intro h
    rw [h]

theorem TrimPrefix_BOM (s : String) : TrimPrefix s "\uFEFF" = ⟨dropBOM s.data⟩ := by
  obtain ⟨l⟩ := s
  unfold TrimPrefix
  cases l with
  | nil => rfl
  | cons c u =>
    by_cases hc : c = '\uFEFF'
    · subst hc
      have hp : ("\uFEFF".data).isPrefixOf ('\uFEFF' :: u) = true := by
        show ['\uFEFF'].isPrefixOf ('\uFEFF' :: u) = true
        simp [List.isPrefixOf]
      have hl : "\uFEFF".data.length = 1 := by decide
      simp only [hp, if_true, hl, List.drop_succ_cons, List.drop_zero, dropBOM_cons]
    · have hb : (('\uFEFF' : Char) == c) = false := beq_false_of_ne (Ne.symm hc)
      have hp : ("\uFEFF".data).isPrefixOf (c :: u) = false := by
        show ['\uFEFF'].isPrefixOf (c :: u) = false
        simp only [List.isPrefixOf, hb, Bool.false_and]
      simp only [hp, Bool.false_eq_true, if_false, dropBOM_cons, hc]

theorem dropBOM_length_le (x : List Char) : (dropBOM x).length ≤ x.length := by
  cases x with
  | nil => exact Nat.le_refl _
  | cons c u =>
    rw [dropBOM_cons]
    split_ifs
    · exact Nat.le_succ _
    · exact Nat.le_refl _

theorem dropBOM_suffix (x : List Char) : dropBOM x <:+ x := by
  cases x with
  | nil => exact List.suffix_refl _
  | cons c u =>
    rw [dropBOM_cons]
    split_ifs
    · exact List.suffix_cons c u
    · exact List.suffix_refl _

/-- A list whose last element is not white space is trimmed from the left only. -/
theorem trimSpaceChars_of_last (x : List Char)
    (h : ∀ hx : x ≠ [], isSpace (x.getLast hx) = false) :
    trimSpaceChars x = List.dropWhile isSpace x := by
  have hdef : trimSpaceChars x = List.rdropWhile isSpace (List.dropWhile isSpace x) := rfl
  rw [hdef, List.rdropWhile_eq_self_iff]
  intro hne
  have hsuf : List.dropWhile isSpace x <:+ x := List.dropWhile_suffix isSpace
  have hx : x ≠ [] := by
    intro hx
    rw [hx] at hne
    exact hne rfl
  rw [hsuf.getLast hne, h hx]
  simp

theorem trimSpaceChars_last (l : List Char) :
    ∀ hx : trimSpaceChars l ≠ [], isSpace ((trimSpaceChars l).getLast hx) = false := by
  intro hx
  have hdef : trimSpaceChars l = List.rdropWhile isSpace (List.dropWhile isSpace l) := rfl
  have hid := List.rdropWhile_idempotent isSpace (List.dropWhile isSpace l)
  rw [← hdef] at hid
  have := List.rdropWhile_eq_self_iff.mp hid hx
  simpa using this

/-- The first-field normalization on the code points: trim, then drop one leading byte
order mark.  A second pass changes nothing exactly when the result of the first begins
with neither white space nor a byte order mark. -/
theorem strip_twice_iff (l : List Char) :
    dropBOM (trimSpaceChars (dropBOM (trimSpaceChars l))) = dropBOM (trimSpaceChars l) ↔
      ∀ c, (dropBOM (trimSpaceChars l)).head? = some c →
        isSpace c = false ∧ c ≠ '\uFEFF' := by
  have hlast : ∀ hx : dropBOM (trimSpaceChars l) ≠ [],
      isSpace ((dropBOM (trimSpaceChars l)).getLast hx) = false := by
    intro hx
    have hsuf := dropBOM_suffix (trimSpaceChars l)
    have ht : trimSpaceChars l ≠ [] := by
      intro h
      rw [h] at hx
      exact hx rfl
    rw [hsuf.getLast hx]
    exact trimSpaceChars_last l ht
  rw [trimSpaceChars_of_last _ hlast]
  generalize dropBOM (trimSpaceChars l) = r
  cases r with
  | nil =>
    constructor
    · intro _ c hc
      simp at hc
    · intro _
      rfl
  | cons c u =>
    constructor
    · intro h c2 hc2
      simp only [List.head?_cons, Option.some.injEq] at hc2
      subst hc2
      have hlen := congrArg List.length h
      by_cases hsp : isSpace c = true
      · rw [List.dropWhile_cons_of_pos hsp] at hlen
        have h1 := dropBOM_length_le (List.dropWhile isSpace u)
        have h2 := (List.dropWhile_suffix isSpace : List.dropWhile isSpace u <:+ u).length_le
        rw [List.length_cons] at hlen
        omega
      · have hsp2 : isSpace c = false := by simpa using hsp
        refine ⟨hsp2, ?_⟩
        intro hb
        rw [List.dropWhile_cons_of_neg hsp, dropBOM_cons, if_pos hb,
          List.length_cons] at hlen
        omega
    · intro h
      obtain ⟨h1, h2⟩ := h c rfl
      rw [List.dropWhile_cons_of_neg (by simp [h1]), dropBOM_cons, if_neg h2]

theorem normalizeFrom_succ_idem (i : Nat) (row : List String) :
    normalizeFrom (i + 1) (normalizeFrom (i + 1) row) = normalizeFrom (i + 1) row := by
  induction row generalizing i with
  | nil => rfl
  | cons f fs ih =>
    simp only [normalizeFrom, Nat.add_one_ne_zero, if_false, TrimSpace_idem, ih]

theorem normalizeFrom_zero_cons (s : String) (rest : List String) :
    normalizeFrom 0 (s :: rest) = ⟨dropBOM (trimSpaceChars s.data)⟩ :: normalizeFrom 1 rest := by
  simp only [normalizeFrom, if_true, TrimPrefix_BOM, TrimSpace]

/-- C15, as stated, fails for the first field: a byte order mark followed by a space is
left with the space after one pass, and a second pass removes it. -/
theorem normalize_stated_counterexample :
    normalizeFrom 0 ["\uFEFF 2026/1/1"] = [" 2026/1/1"] ∧
    normalizeFrom 0 (normalizeFrom 0 ["\uFEFF 2026/1/1"]) = ["2026/1/1"] ∧
    normalizeFrom 0 (normalizeFrom 0 ["\uFEFF 2026/1/1"]) ≠ normalizeFrom 0 ["\uFEFF 2026/1/1"] := by
  decide

/-- C15, amended: the normalization of the fields after the first, trimming, is idempotent
for every string.  The normalization of the first field, trimming and then removing one
leading byte order mark, applied to its own result gives the same result exactly when that
result begins with neither white space nor a byte order mark; so it does for every string
whose trimmed form has no leading byte order mark. -/
theorem normalize_idempotent :
    (∀ s : String, TrimSpace (TrimSpace s) = TrimSpace s) ∧
    (∀ (i : Nat) (row : List String),
      normalizeFrom (i + 1) (normalizeFrom (i + 1) row) = normalizeFrom (i + 1) row) ∧
    (∀ (s : String) (rest : List String),
      normalizeFrom 0 (normalizeFrom 0 (s :: rest)) = normalizeFrom 0 (s :: rest) ↔
        ∀ c, (TrimPrefix (TrimSpace s) "\uFEFF").data.head? = some c →
          isSpace c = false ∧ c ≠ '\uFEFF') ∧
    (∀ (s : String) (rest : List String),
      (TrimSpace s).data.head? ≠ some '\uFEFF' →
      normalizeFrom 0 (normalizeFrom 0 (s :: rest)) = normalizeFrom 0 (s :: rest)) := by
  have h3 : ∀ (s : String) (rest : List String),
      normalizeFrom 0 (normalizeFrom 0 (s :: rest)) = normalizeFrom 0 (s :: rest) ↔
        ∀ c, (TrimPrefix (TrimSpace s) "\uFEFF").data.head? = some c →
          isSpace c = false ∧ c ≠ '\uFEFF' := by
    intro s rest
    rw [normalizeFrom_zero_cons, normalizeFrom_zero_cons, normalizeFrom_succ_idem 0,
      TrimPrefix_BOM]
    simp only [List.cons.injEq, and_true, TrimSpace, String_mk_inj]
    exact strip_twice_iff s.data
  refine ⟨TrimSpace_idem, normalizeFrom_succ_idem, h3, ?_⟩
  intro s rest hb
  rw [h3, TrimPrefix_BOM]
  intro c hc
  have hne : trimSpaceChars s.data ≠ [] := by
    intro he
    simp only [TrimSpace, he, dropBOM] at hc
    simp at hc
  cases ht : trimSpaceChars s.data with
  | nil => exact absurd ht hne
  | cons a u =>
    have ha : a ≠ '\uFEFF' := by
      intro hab
      apply hb
      simp only [TrimSpace, ht, List.head?_cons, hab]
    simp only [TrimSpace, ht, dropBOM_cons, if_neg ha, List.head?_cons, Option.some.injEq] at hc
    subst hc
    refine ⟨?_, ha⟩
    have hidem := trimSpaceChars_idem s.data
    rw [ht] at hidem
    have hdw : List.dropWhile isSpace (a :: u) = a :: u := by
      have hsuf : List.dropWhile isSpace (a :: u) <:+ a :: u := List.dropWhile_suffix isSpace
      have hlen : (trimSpaceChars (a :: u)).length ≤ (List.dropWhile isSpace (a :: u)).length :=
        (List.rdropWhile_prefix isSpace (List.dropWhile isSpace (a :: u))).length_le
      rw [hidem] at hlen
      exact hsuf.eq_of_length_le hlen
    by_contra hsp
    have hsp2 : isSpace a = true := by simpa using hsp
    rw [List.dropWhile_cons_of_pos hsp2] at hdw
    have := (List.dropWhile_suffix isSpace : List.dropWhile isSpace u <:+ u).length_le
    rw [hdw, List.length_cons] at this
    omega

theorem normalize_idempotent_witness :
    (TrimSpace " 2026/1/1 ").data.head? ≠ some '\uFEFF' ∧
    normalizeFrom 0 (normalizeFrom 0 [" 2026/1/1 ", " 元日 "])
      = normalizeFrom 0 [" 2026/1/1 ", " 元日 "] :=
  ⟨by decide, normalize_idempotent.2.2.2 " 2026/1/1 " [" 元日 "] (by decide)⟩

/-! ## The written forms the loader reads -/

theorem skip_one (c : Char) (value : List Char) (hc : c ≠ ' ') :
    skip (c :: value) [c] = some value := by
  simp [skip, skipFuel, hc]

theorem skip_one_ne (c v : Char) (value : List Char) (hc : c ≠ ' ') (hv : v ≠ c) :
    skip (v :: value) [c] = Option.none := by
  simp [skip, skipFuel, hc, hv]

theorem step_year (fuel : Nat) (layout suffix tail : List Char) (y : Nat) (yr mo da : Int)
    (hc : nextStdChunk layout = ([], Std.stdLongYear, suffix)) (hy : y < 10000) :
    parseFuel (fuel + 1) layout (pad4 y ++ tail) yr mo da
      = parseFuel fuel suffix tail y mo da := by
  have hlen : ¬ ((pad4 y ++ tail).length < 4 ∨ (!isDigit (pad4 y ++ tail) 0) = true) := by
    simp [pad4, isDigit_digitChar_zero]
  have htake : (pad4 y ++ tail).take 4 = pad4 y := by simp [pad4]
  have hdrop : (pad4 y ++ tail).drop 4 = tail := by simp [pad4]
  rw [parseFuel, hc]
  simp only [skip_nil, hlen, if_false, htake, hdrop, atoi_pad4 y hy]

theorem step_num (fuel : Nat) (layout suffix value tail : List Char) (sep : Char) (std : Std)
    (fixed : Bool) (n : Nat) (yr mo da : Int)
    (hc : nextStdChunk layout = ([sep], std, suffix)) (hsep : sep ≠ ' ')
    (hg : getnum value fixed = some ((n : Int), tail)) :
    (std = Std.stdZeroMonth → fixed = true → 1 ≤ n → n ≤ 12 →
      parseFuel (fuel + 1) layout (sep :: value) yr mo da = parseFuel fuel suffix tail yr n da) ∧
    (std = Std.stdNumMonth → fixed = false → 1 ≤ n → n ≤ 12 →
      parseFuel (fuel + 1) layout (sep :: value) yr mo da = parseFuel fuel suffix tail yr n da) ∧
    (std = Std.stdZeroDay → fixed = true →
      parseFuel (fuel + 1) layout (sep :: value) yr mo da = parseFuel fuel suffix tail yr mo n) ∧
    (std = Std.stdDay → fixed = false →
      parseFuel (fuel + 1) layout (sep :: value) yr mo da = parseFuel fuel suffix tail yr mo n) := by
  refine ⟨?_, ?_, ?_, ?_⟩
  · intro hs hf h1 h2
    subst hs
    subst hf
    have hr : ¬ ((n : Int) ≤ 0 ∨ 12 < (n : Int)) := by omega
    rw [parseFuel, hc]
    simp only [skip_one sep value hsep, hg, hr, if_false]
  · intro hs hf h1 h2
    subst hs
    subst hf
    have hr : ¬ ((n : Int) ≤ 0 ∨ 12 < (n : Int)) := by omega
    rw [parseFuel, hc]
    simp only [skip_one sep value hsep, hg, hr, if_false]
  · intro hs hf
    subst hs
    subst hf
    rw [parseFuel, hc]
    simp only [skip_one sep value hsep, hg]
  · intro hs hf
    subst hs
    subst hf
    rw [parseFuel, hc]
    simp only [skip_one sep value hsep, hg]

theorem step_num_none (fuel : Nat) (layout suffix value : List Char) (sep : Char) (std : Std)
    (yr mo da : Int)
    (hc : nextStdChunk layout = ([sep], std, suffix)) (hsep : sep ≠ ' ')
    (hstd : std = Std.stdZeroMonth ∨ std = Std.stdZeroDay)
    (hg : getnum value true = Option.none) :
    parseFuel (fuel + 1) layout (sep :: value) yr mo da = Except.error ParseError.bad := by
  rcases hstd with rfl | rfl
  · rw [parseFuel, hc]
    simp only [skip_one sep value hsep, hg]
  · rw [parseFuel, hc]
    simp only [skip_one sep value hsep, hg]

theorem step_skip_fail (fuel : Nat) (layout suffix value : List Char) (sep v : Char) (std : Std)
    (yr mo da : Int)
    (hc : nextStdChunk layout = ([sep], std, suffix)) (hsep : sep ≠ ' ') (hv : v ≠ sep) :
    parseFuel (fuel + 1) layout (v :: value) yr mo da = Except.error ParseError.bad := by
  rw [parseFuel, hc]
  simp only [skip_one_ne sep v value hsep hv]

theorem step_end (fuel : Nat) (y m d : Nat) (hm1 : 1 ≤ m) (hm2 : m ≤ 12) (hd1 : 1 ≤ d)
    (hd2 : d ≤ monthLen (isLeap y) m) :
    parseFuel (fuel + 1) [] [] y m d = Except.ok (Date y m d 0 0 0 UTC) := by
  have c4 : nextStdChunk [] = ([], Std.none, []) := by decide
  have hdr : ¬ ((d : Int) < 1 ∨ (d : Int) > daysIn (m : Int) (y : Int)) := by
    rw [daysIn_eq_monthLen _ m hm1 hm2]
    omega
  have hmneg : ¬ ((m : Int) < 0) := by omega
  have hdneg : ¬ ((d : Int) < 0) := by omega
  rw [parseFuel, c4]
  simp only [skip_nil, List.length_nil, ne_eq, not_true_eq_false, if_false, hmneg, hdneg, hdr]

theorem getnum_plain2_sep (n : Nat) (hn : n < 100) (rest : List Char) :
    getnum (plain2 n ++ '/' :: rest) false = some ((n : Int), '/' :: rest) := by
  unfold plain2
  by_cases h : n < 10
  · rw [if_pos h]
    have hnd : isDigit (digitChar n :: '/' :: rest) 1 = false := by
      simp only [isDigit, List.get?_cons_succ, List.get?_cons_zero]
      decide
    unfold getnum
    simp only [List.cons_append, List.nil_append, isDigit_digitChar_zero, hnd, Bool.not_true,
      Bool.not_false, Bool.false_eq_true, if_false, if_true, List.getD_cons_zero,
      List.drop_succ_cons, List.drop_zero, (digitChar_facts n).2.2.1, Nat.mod_eq_of_lt h]
  · rw [if_neg h]
    exact getnum_pad2 n hn false _

theorem getnum_plain2_end (n : Nat) (hn : n < 100) :
    getnum (plain2 n) false = some ((n : Int), []) := by
  unfold plain2
  by_cases h : n < 10
  · rw [if_pos h]
    have hnd : isDigit [digitChar n] 1 = false := by rfl
    unfold getnum
    simp only [isDigit_digitChar_zero, hnd, Bool.not_true,
      Bool.not_false, Bool.false_eq_true, if_false, if_true, List.getD_cons_zero,
      List.drop_succ_cons, List.drop_zero, (digitChar_facts n).2.2.1, Nat.mod_eq_of_lt h]
  · rw [if_neg h]
    have := getnum_pad2 n hn false []
    rwa [List.append_nil] at this

theorem getnum_fixed_short_sep (n : Nat) (rest : List Char) :
    getnum (digitChar n :: '/' :: rest) true = Option.none := by
  have hnd : isDigit (digitChar n :: '/' :: rest) 1 = false := by
    simp only [isDigit, List.get?_cons_succ, List.get?_cons_zero]
    decide
  unfold getnum
  simp only [isDigit_digitChar_zero, hnd, Bool.not_true, Bool.not_false, Bool.false_eq_true,
    if_false, if_true]

theorem getnum_fixed_short_end (n : Nat) :
    getnum [digitChar n] true = Option.none := by
  have hnd : isDigit [digitChar n] 1 = false := by rfl
  unfold getnum
  simp only [isDigit_digitChar_zero, hnd, Bool.not_true, Bool.not_false, Bool.false_eq_true,
    if_false, if_true]

theorem Parse_dash_slash (y : Nat) (hy : y ≤ 9999) (tail : List Char) :
    Parse "2006-01-02" ⟨pad4 y ++ '/' :: tail⟩ = Except.error ParseError.bad := by
  have c1 : nextStdChunk "2006-01-02".data = ([], Std.stdLongYear, "-01-02".data) := by decide
  have c2 : nextStdChunk "-01-02".data = (['-'], Std.stdZeroMonth, "-02".data) := by decide
  unfold Parse
  rw [show "2006-01-02".data.length + 1 = 9 + 1 + 1 by decide]
  simp only []
  rw [step_year _ _ _ _ y _ _ _ c1 (by omega)]
  exact step_skip_fail _ _ _ _ '-' '/' _ _ _ _ c2 (by decide) (by decide)

theorem Parse_slashDate (y m d : Nat) (hy : y ≤ 9999) (hm1 : 1 ≤ m) (hm2 : m ≤ 12)
    (hd1 : 1 ≤ d) (hd2 : d ≤ monthLen (isLeap y) m) :
    Parse "2006/01/02" (slashDate y m d) = Except.ok (Date y m d 0 0 0 UTC) := by
  have ht := (beforeMonth_table (isLeap y) ⟨m, by omega⟩ hm1).2.1
  simp only [] at ht
  have c1 : nextStdChunk "2006/01/02".data = ([], Std.stdLongYear, "/01/02".data) := by decide
  have c2 : nextStdChunk "/01/02".data = (['/'], Std.stdZeroMonth, "/02".data) := by decide
  have c3 : nextStdChunk "/02".data = (['/'], Std.stdZeroDay, []) := by decide
  have g2 : getnum (pad2 d) true = some ((d : Int), []) := by
    have := getnum_pad2 d (by omega) true []
    rwa [List.append_nil] at this
  unfold Parse slashDate
  rw [show "2006/01/02".data.length + 1 = 7 + 1 + 1 + 1 + 1 by decide]
  simp only []
  rw [step_year _ _ _ _ y _ _ _ c1 (by omega)]
  rw [(step_num _ _ _ _ _ '/' _ true m _ _ _ c2 (by decide)
    (getnum_pad2 m (by omega) true _)).1 rfl rfl hm1 hm2]
  rw [(step_num _ _ _ _ _ '/' _ true d _ _ _ c3 (by decide) g2).2.2.1 rfl rfl]
  exact step_end _ y m d hm1 hm2 hd1 hd2

theorem Parse_slashPlainDate (y m d : Nat) (hy : y ≤ 9999) (hm1 : 1 ≤ m) (hm2 : m ≤ 12)
    (hd1 : 1 ≤ d) (hd2 : d ≤ monthLen (isLeap y) m) :
    Parse "2006/1/2" (slashPlainDate y m d) = Except.ok (Date y m d 0 0 0 UTC) := by
  have ht := (beforeMonth_table (isLeap y) ⟨m, by omega⟩ hm1).2.1
  simp only [] at ht
  have c1 : nextStdChunk "2006/1/2".data = ([], Std.stdLongYear, "/1/2".data) := by decide
  have c2 : nextStdChunk "/1/2".data = (['/'], Std.stdNumMonth, "/2".data) := by decide
  have c3 : nextStdChunk "/2".data = (['/'], Std.stdDay, []) := by decide
  unfold Parse slashPlainDate
  rw [show "2006/1/2".data.length + 1 = 5 + 1 + 1 + 1 + 1 by decide]
  simp only []
  rw [step_year _ _ _ _ y _ _ _ c1 (by omega)]
  rw [(step_num _ _ _ _ _ '/' _ false m _ _ _ c2 (by decide)
    (getnum_plain2_sep m (by omega) _)).2.1 rfl rfl hm1 hm2]
  rw [(step_num _ _ _ _ _ '/' _ false d _ _ _ c3 (by decide)
    (getnum_plain2_end d (by omega))).2.2.2 rfl rfl]
  exact step_end _ y m d hm1 hm2 hd1 hd2

/-- The zero-padded slash layout reads the form `YYYY/M/D` only when month and day have
two digits, and then as the same date. -/
theorem Parse_padded_plain (y m d : Nat) (hy : y ≤ 9999) (hm1 : 1 ≤ m) (hm2 : m ≤ 12)
    (hd1 : 1 ≤ d) (hd2 : d ≤ monthLen (isLeap y) m) :
    Parse "2006/01/02" (slashPlainDate y m d) = Except.ok (Date y m d 0 0 0 UTC) ∨
    Parse "2006/01/02" (slashPlainDate y m d) = Except.error ParseError.bad := by
  have ht := (beforeMonth_table (isLeap y) ⟨m, by omega⟩ hm1).2.1
  simp only [] at ht
  have c1 : nextStdChunk "2006/01/02".data = ([], Std.stdLongYear, "/01/02".data) := by decide
  have c2 : nextStdChunk "/01/02".data = (['/'], Std.stdZeroMonth, "/02".data) := by decide
  have c3 : nextStdChunk "/02".data = (['/'], Std.stdZeroDay, []) := by decide
  by_cases hm : m < 10
  · right
    unfold Parse slashPlainDate plain2
    rw [show "2006/01/02".data.length + 1 = 7 + 1 + 1 + 1 + 1 by decide, if_pos hm]
    simp only []
    rw [step_year _ _ _ _ y _ _ _ c1 (by omega)]
    exact step_num_none _ _ _ _ '/' _ _ _ _ c2 (by decide) (Or.inl rfl)
      (getnum_fixed_short_sep m _)
  · by_cases hd : d < 10
    · right
      unfold Parse slashPlainDate plain2
      rw [show "2006/01/02".data.length + 1 = 7 + 1 + 1 + 1 + 1 by decide, if_neg hm, if_pos hd]
      simp only []
      rw [step_year _ _ _ _ y _ _ _ c1 (by omega)]
      rw [(step_num _ _ _ _ _ '/' _ true m _ _ _ c2 (by decide)
        (getnum_pad2 m (by omega) true _)).1 rfl rfl hm1 hm2]
      exact step_num_none _ _ _ _ '/' _ _ _ _ c3 (by decide) (Or.inr rfl)
        (getnum_fixed_short_end d)
    · left
      have e : slashPlainDate y m d = slashDate y m d := by
        unfold slashPlainDate slashDate plain2
        rw [if_neg hm, if_neg hd]
      rw [e]
      exact Parse_slashDate y m d hy hm1 hm2 hd1 hd2

theorem firstParse_three_forms (y m d : Nat) (hy : y ≤ 9999) (hm1 : 1 ≤ m) (hm2 : m ≤ 12)
    (hd1 : 1 ≤ d) (hd2 : d ≤ monthLen (isLeap y) m) :
    firstParse loadFormats (isoDate y m d) = some (Date y m d 0 0 0 UTC) ∧
    firstParse loadFormats (slashDate y m d) = some (Date y m d 0 0 0 UTC) ∧
    firstParse loadFormats (slashPlainDate y m d) = some (Date y m d 0 0 0 UTC) := by
  refine ⟨?_, ?_, ?_⟩
  · unfold firstParse loadFormats
    simp only [List.findSome?, Parse_isoDate y m d hy hm1 hm2 hd1 hd2]
  · have h1 : Parse "2006-01-02" (slashDate y m d) = Except.error ParseError.bad :=
      Parse_dash_slash y hy _
    unfold firstParse loadFormats
    simp only [List.findSome?, h1, Parse_slashDate y m d hy hm1 hm2 hd1 hd2]
  · have h1 : Parse "2006-01-02" (slashPlainDate y m d) = Except.error ParseError.bad :=
      Parse_dash_slash y hy _
    unfold firstParse loadFormats
    rcases Parse_padded_plain y m d hy hm1 hm2 hd1 hd2 with h2 | h2
    · simp only [List.findSome?, h1, h2]
    · simp only [List.findSome?, h1, h2, Parse_slashPlainDate y m d hy hm1 hm2 hd1 hd2]

theorem dropWhile_all_append (p : Char → Bool) (ws x : List Char)
    (hws : ∀ c ∈ ws, p c = true) (hx : ∀ c, x.head? = some c → p c = false) :
    (ws ++ x).dropWhile p = x := by
  induction ws with
  | nil =>
    cases x with
    | nil => rfl
    | cons a t =>
      have := hx a rfl
      simp [List.dropWhile, this]
  | cons a t ih =>
    have ha := hws a (List.mem_cons_self _ _)
    rw [List.cons_append, List.dropWhile_cons, if_pos ha]
    exact ih (fun c hc => hws c (List.mem_cons_of_mem _ hc))

/-- Trimming a text surrounded by white space that itself starts and ends with a
character that is not white space gives the text. -/
theorem trimSpaceChars_surrounded (ws1 ws2 mid : List Char) (a b : Char)
    (hws1 : ∀ c ∈ ws1, isSpace c = true) (hws2 : ∀ c ∈ ws2, isSpace c = true)
    (ha : isSpace a = false) (hb : isSpace b = false) :
    trimSpaceChars (ws1 ++ (a :: mid ++ [b]) ++ ws2) = a :: mid ++ [b] := by
  unfold trimSpaceChars
  have e1 : List.dropWhile isSpace (ws1 ++ (a :: mid ++ [b]) ++ ws2) = (a :: mid ++ [b]) ++ ws2 := by
    rw [List.append_assoc]
    apply dropWhile_all_append _ _ _ hws1
    intro c hc
    simp only [List.cons_append, List.head?_cons, Option.some.injEq] at hc
    rw [← hc]
    exact ha
  rw [e1]
  have e2 : ((a :: mid ++ [b]) ++ ws2).reverse = ws2.reverse ++ (b :: (a :: mid).reverse) := by
    simp
  rw [e2, dropWhile_all_append _ _ _ (fun c hc => hws2 c (List.mem_reverse.mp hc))]
  · simp
  · intro c hc
    simp only [List.head?_cons, Option.some.injEq] at hc
    rw [← hc]
    exact hb

theorem dateField_surrounded (ws1 ws2 mid : List Char) (a b : Nat) (rest : List String)
    (hws1 : ∀ c ∈ ws1, isSpace c = true) (hws2 : ∀ c ∈ ws2, isSpace c = true) :
    dateField (⟨ws1 ++ (digitChar a :: mid ++ [digitChar b]) ++ ws2⟩ :: rest)
      = ⟨digitChar a :: mid ++ [digitChar b]⟩ := by
  have fa := digitChar_facts a
  have fb := digitChar_facts b
  unfold dateField
  rw [List.getD_cons_zero]
  unfold TrimSpace
  simp only []
  rw [trimSpaceChars_surrounded ws1 ws2 mid _ _ hws1 hws2 fa.2.2.2.1 fb.2.2.2.1, TrimPrefix_BOM]
  simp only [List.cons_append, dropBOM_cons]
  rw [if_neg fa.2.2.2.2.2.2.2]

theorem three_forms_shape (y m d : Nat) :
    (∃ mid, (isoDate y m d).data = digitChar (y / 1000) :: mid ++ [digitChar d]) ∧
    (∃ mid, (slashDate y m d).data = digitChar (y / 1000) :: mid ++ [digitChar d]) ∧
    (∃ mid, (slashPlainDate y m d).data = digitChar (y / 1000) :: mid ++ [digitChar d]) := by
  refine ⟨⟨[digitChar (y / 100), digitChar (y / 10), digitChar y, '-', digitChar (m / 10),
      digitChar m, '-', digitChar (d / 10)], ?_⟩,
    ⟨[digitChar (y / 100), digitChar (y / 10), digitChar y, '/', digitChar (m / 10),
      digitChar m, '/', digitChar (d / 10)], ?_⟩, ?_⟩
  · unfold isoDate pad4 pad2
    simp only [Int.toNat_ofNat, List.cons_append, List.nil_append, List.append_assoc]
  · unfold slashDate pad4 pad2
    simp only [List.cons_append, List.nil_append, List.append_assoc]
  · unfold slashPlainDate plain2 pad4 pad2
    by_cases hd : d < 10
    · refine ⟨[digitChar (y / 100), digitChar (y / 10), digitChar y, '/'] ++
        (if m < 10 then [digitChar m] else [digitChar (m / 10), digitChar m]) ++ ['/'], ?_⟩
      rw [if_pos hd]
      simp only [List.cons_append, List.nil_append, List.append_assoc]
    · refine ⟨[digitChar (y / 100), digitChar (y / 10), digitChar y, '/'] ++
        (if m < 10 then [digitChar m] else [digitChar (m / 10), digitChar m]) ++
        ['/', digitChar (d / 10)], ?_⟩
      rw [if_neg hd]
      simp only [List.cons_append, List.nil_append, List.append_assoc]

theorem foldl_loadStep_key (post : List (List String)) (hol : HolMap) (k : String)
    (h : hol k ≠ Option.none) : (post.foldl loadStep hol) k ≠ Option.none := by
  induction post generalizing hol with
  | nil => exact h
  | cons r t ih =>
    rw [List.foldl_cons]
    apply ih
    rw [loadStep_eq]
    simp only []
    by_cases hk : rowKey r = some k
    · rw [if_pos hk]
      exact Option.some_ne_none _
    · rw [if_neg hk]
      exact h

/-- C12: for every valid calendar date with a year in 0..9999, a row whose first field is
the date written as zero-padded `YYYY-MM-DD`, as zero-padded `YYYY/MM/DD` or as `YYYY/M/D`
with month and day not padded, with any white space before and after it, is not skipped
by the round of the load loop: the round stores the (defaulted) label of the row under the
zero-padded `YYYY-MM-DD` form of the date, whatever the form, and the table of every row
sequence holding such a row has that key. -/
theorem loadStep_accepts_date_forms (y m d : Nat) (hy : y ≤ 9999) (hm1 : 1 ≤ m) (hm2 : m ≤ 12)
    (hd1 : 1 ≤ d) (hd2 : d ≤ gregorianDays y m) (text : String)
    (hform : text = isoDate y m d ∨ text = slashDate y m d ∨ text = slashPlainDate y m d)
    (ws1 ws2 : List Char) (hws1 : ∀ c ∈ ws1, isSpace c = true)
    (hws2 : ∀ c ∈ ws2, isSpace c = true) (rest : List String) (hol : HolMap) :
    loadStep hol (⟨ws1 ++ text.data ++ ws2⟩ :: rest)
      = hol.set (isoDate y m d) (defaultedLabel (⟨ws1 ++ text.data ++ ws2⟩ :: rest)) ∧
    (∀ pre post : List (List String),
      loadRows (pre ++ (⟨ws1 ++ text.data ++ ws2⟩ :: rest) :: post) (isoDate y m d)
        ≠ Option.none) := by
  have hd2m : d ≤ monthLen (isLeap y) m := by
    rw [monthLen_eq_gregorianDays y m hm1 hm2]
    exact hd2
  have hfp := firstParse_three_forms y m d hy hm1 hm2 hd1 hd2m
  have hsh := three_forms_shape y m d
  have hdf : dateField (⟨ws1 ++ text.data ++ ws2⟩ :: rest) = text := by
    rcases hform with h | h | h
    · obtain ⟨mid, e⟩ := hsh.1
      rw [h, e, dateField_surrounded ws1 ws2 mid _ _ rest hws1 hws2, ← e]
    · obtain ⟨mid, e⟩ := hsh.2.1
      rw [h, e, dateField_surrounded ws1 ws2 mid _ _ rest hws1 hws2, ← e]
    · obtain ⟨mid, e⟩ := hsh.2.2
      rw [h, e, dateField_surrounded ws1 ws2 mid _ _ rest hws1 hws2, ← e]
  have hft : firstParse loadFormats text = some (Date y m d 0 0 0 UTC) := by
    rcases hform with h | h | h
    · rw [h]
      exact hfp.1
    · rw [h]
      exact hfp.2.1
    · rw [h]
      exact hfp.2.2
  have hdate := Date_fields y m d hy hm1 hm2 hd1 hd2m
  have hk : rowKey (⟨ws1 ++ text.data ++ ws2⟩ :: rest) = some (isoDate y m d) := by
    unfold rowKey
    simp only [hdf, hft, Option.map_some', hdate.1, hdate.2.1, hdate.2.2.1]
  have hstep : ∀ h0 : HolMap, loadStep h0 (⟨ws1 ++ text.data ++ ws2⟩ :: rest)
      = h0.set (isoDate y m d) (defaultedLabel (⟨ws1 ++ text.data ++ ws2⟩ :: rest)) := by
    intro h0
    rw [loadStep_eq, hk]
    funext k
    unfold HolMap.set
    by_cases e : k = isoDate y m d
    · rw [if_pos e, if_pos (by rw [e])]
    · rw [if_neg e, if_neg (fun h => e (Option.some.inj h).symm)]
  refine ⟨hstep hol, ?_⟩
  intro pre post
  unfold loadRows
  rw [List.foldl_append, List.foldl_cons]
  apply foldl_loadStep_key
  rw [hstep]
  unfold HolMap.set
  rw [if_pos rfl]
  exact Option.some_ne_none _

theorem loadStep_accepts_date_forms_witness :
    ((2026 : Nat) ≤ 9999 ∧ 1 ≤ 5 ∧ 5 ≤ 12 ∧ 1 ≤ 4 ∧ 4 ≤ gregorianDays (2026 : Nat) (5 : Nat)) ∧
    slashPlainDate 2026 5 4 = "2026/5/4" ∧ slashDate 2026 5 4 = "2026/05/04" ∧
    isoDate (2026 : Nat) (5 : Nat) (4 : Nat) = "2026-05-04" ∧
    loadStep HolMap.empty [" 2026/5/4\t", "みどりの日"]
      = HolMap.set HolMap.empty "2026-05-04" "みどりの日" ∧
    loadRows ([["2026-01-01", "元日"]] ++ ["2026/05/04 "] :: [["2026-11-03", "文化の日"]])
      "2026-05-04" ≠ Option.none := by
  have hv : (2026 : Nat) ≤ 9999 ∧ 1 ≤ 5 ∧ 5 ≤ 12 ∧ 1 ≤ 4 ∧
      4 ≤ gregorianDays (2026 : Nat) (5 : Nat) := by decide
  have e1 : slashPlainDate 2026 5 4 = "2026/5/4" := by decide
  have e2 : slashDate 2026 5 4 = "2026/05/04" := by decide
  have e3 : isoDate (2026 : Nat) (5 : Nat) (4 : Nat) = "2026-05-04" := by decide
  have hs1 : ∀ c ∈ [' '], isSpace c = true := by decide
  have hs2 : ∀ c ∈ ['\t'], isSpace c = true := by decide
  have hs0 : ∀ c ∈ ([] : List Char), isSpace c = true := by decide
  have a := (loadStep_accepts_date_forms 2026 5 4 hv.1 hv.2.1 hv.2.2.1 hv.2.2.2.1 hv.2.2.2.2
    (slashPlainDate 2026 5 4) (Or.inr (Or.inr rfl)) [' '] ['\t'] hs1 hs2 ["みどりの日"]
    HolMap.empty).1
  have b := (loadStep_accepts_date_forms 2026 5 4 hv.1 hv.2.1 hv.2.2.1 hv.2.2.2.1 hv.2.2.2.2
    (slashDate 2026 5 4) (Or.inr (Or.inl rfl)) [] [' '] hs0 hs1 []
    HolMap.empty).2 [["2026-01-01", "元日"]] [["2026-11-03", "文化の日"]]
  have ea : (⟨[' '] ++ (slashPlainDate 2026 5 4).data ++ ['\t']⟩ : String) = " 2026/5/4\t" := by
    decide
  have eb : (⟨[] ++ (slashDate 2026 5 4).data ++ [' ']⟩ : String) = "2026/05/04 " := by
    decide
  have el : defaultedLabel [" 2026/5/4\t", "みどりの日"] = "みどりの日" := by decide
  rw [ea, e3, el] at a
  rw [eb, e3] at b
  exact ⟨hv, e1, e2, e3, a, b⟩

/-- A year written with fewer than four digits is not read by any layout of the loader:
the forms above write the year with four digits. -/
theorem rowKey_short_year : rowKey ["999/1/2", "x"] = Option.none ∧
    rowKey ["0999/1/2", "x"] = some "0999-01-02" := by
  constructor
  · rfl
  · rfl

/-! ## The month of a time -/

theorem absYearDay_range (abs : Nat) :
    (absYearDay abs).2 ≤ 365 ∧
    ((absYearDay abs).2 = 365 → isLeap (absYearDay abs).1 = true) := by
  unfold absYearDay secondsPerDay daysPer400Years daysPer100Years daysPer4Years absoluteZeroYear
  simp only []
  generalize abs / 86400 = D
  generalize hq1 : D / 146097 = q1
  generalize hd1 : D - 146097 * q1 = d1
  have b1 : d1 < 146097 := by omega
  clear hq1 hd1
  generalize hn2 : d1 / 36524 = n2
  have b2 : n2 ≤ 3 ∧ 36524 * n2 ≤ d1 ∧ d1 < 36524 * n2 + 36524 ∨ n2 = 4 ∧ 146096 ≤ d1 := by omega
  generalize hm2 : n2 - n2 / 4 = m2
  have b2m : m2 ≤ 3 ∧ 36524 * m2 ≤ d1 ∧ (d1 < 36524 * m2 + 36524 ∨ m2 = 3 ∧ d1 = 146096) := by
    omega
  clear hn2 b2 hm2
  generalize hd2 : d1 - 36524 * m2 = d2
  have b3 : d2 ≤ 36524 ∧ (d2 = 36524 → m2 = 3) := by omega
  clear hd2 b2m b1
  generalize hn3 : d2 / 1461 = n3
  generalize hd3 : d2 - 1461 * n3 = d3
  have b4 : n3 ≤ 24 ∧ d3 < 1461 ∧ (n3 = 24 → d3 = 1460 → m2 = 3) := by omega
  clear hn3 hd3 b3
  generalize hn4 : d3 / 365 = n4
  generalize hm4 : n4 - n4 / 4 = m4
  have b5 : m4 ≤ 3 ∧ 365 * m4 ≤ d3 ∧ (d3 - 365 * m4 ≤ 365) ∧
      (d3 - 365 * m4 = 365 → m4 = 3 ∧ d3 = 1460) := by omega
  clear hn4 hm4
  refine ⟨b5.2.2.1, ?_⟩
  intro h
  obtain ⟨e4, e3⟩ := b5.2.2.2 h
  rw [isLeap_iff]
  subst e4
  have b6 := b4.2.2
  have b7 := b4.1
  clear b5 b4 h
  omega

set_option maxRecDepth 100000 in
theorem ydayMonthDay_month :
    ∀ leap : Bool, ∀ d : Fin 366, (d.val = 365 → leap = true) →
      1 ≤ (ydayMonthDay leap d.val).1 ∧ (ydayMonthDay leap d.val).1 ≤ 12 := by
  decide

/-- The month of a time is in 1..12. -/
theorem Month_range (t : Time) : 1 ≤ t.Month ∧ t.Month ≤ 12 := by
  unfold Time.Month
  rw [absDate_split]
  have h := absYearDay_range t.abs
  exact ydayMonthDay_month _ ⟨(absYearDay t.abs).2, by omega⟩ h.2

/-! ## `strconv.Atoi` and the decimal integers -/

theorem ParseInt_cons (c : Char) (rest : List Char) :
    ParseInt (c :: rest)
      = signedValue (if c = '+' then false else if c = '-' then true else false)
          (if c = '+' then rest else if c = '-' then rest else c :: rest) := rfl

theorem Atoi_fast (s : String) (c : Char) (rest : List Char) (hs : s.data = c :: rest)
    (h : 0 < len s.data ∧ len s.data < 19) : Atoi s = fastValue c rest := by
  unfold Atoi
  simp only []
  rw [if_pos h, hs]
  rfl

theorem Atoi_slow (s : String) (h : ¬ (0 < len s.data ∧ len s.data < 19)) :
    Atoi s = ParseInt s.data := by
  unfold Atoi
  simp only []
  rw [if_neg h]

theorem length_le_len (s : List Char) : s.length ≤ len s := by
  induction s with
  | nil => exact Nat.le_refl _
  | cons c r ih =>
    have := Char.utf8Size_pos c
    unfold len at ih ⊢
    rw [List.map_cons, List.sum_cons, List.length_cons]
    omega

theorem len_pos (c : Char) (r : List Char) : 0 < len (c :: r) := by
  have := length_le_len (c :: r)
  rw [List.length_cons] at this
  omega

theorem u64_nat_wrap (k : Nat) (h1 : 18446744073709551616 ≤ k)
    (h2 : k < 2 * 18446744073709551616) : u64 (k : Int) = k - 18446744073709551616 := by
  unfold u64
  have e : (k : Int) % 18446744073709551616 = ((k - 18446744073709551616 : Nat) : Int) := by
    omega
  rw [e]
  exact Int.toNat_ofNat _

theorem digitsValue_cons (n : Nat) (c : Char) (r : List Char) :
    digitsValue n (c :: r) = digitsValue (10 * n + (c.toNat - 48)) r := rfl

theorem digitsValue_mono (s : List Char) : ∀ n : Nat, n ≤ digitsValue n s := by
  induction s with
  | nil => intro n; exact Nat.le_refl _
  | cons c r ih =>
    intro n
    rw [digitsValue_cons]
    have := ih (10 * n + (c.toNat - 48))
    omega

theorem allDigits_cons (c : Char) (r : List Char) :
    allDigits (c :: r) = true ↔ ('0' ≤ c ∧ c ≤ '9') ∧ allDigits r = true := by
  unfold allDigits
  rw [List.all_cons, Bool.and_eq_true, decide_eq_true_iff]

theorem digitsValue_lt (s : List Char) :
    ∀ n : Nat, allDigits s = true → digitsValue n s + 1 ≤ (n + 1) * 10 ^ s.length := by
  induction s with
  | nil =>
    intro n _
    simp [digitsValue]
  | cons c r ih =>
    intro n h
    obtain ⟨hc, hr⟩ := (allDigits_cons c r).mp h
    have hd := digit_toNat c hc
    rw [digitsValue_cons, List.length_cons, pow_succ]
    have h1 := ih (10 * n + (c.toNat - 48)) hr
    have h2 : (10 * n + (c.toNat - 48) + 1) * 10 ^ r.length ≤ (10 * (n + 1)) * 10 ^ r.length :=
      Nat.mul_le_mul_right _ (by omega)
    have h3 : (10 * (n + 1)) * 10 ^ r.length = (n + 1) * (10 ^ r.length * 10) := by ring
    omega

theorem atoiLoop_digits (s : List Char) :
    ∀ n : Nat, allDigits s = true → digitsValue n s < 9223372036854775808 →
      atoiLoop s (n : Int) = some ((digitsValue n s : Nat) : Int) := by
  induction s with
  | nil =>
    intro n _ _
    rfl
  | cons c r ih =>
    intro n h hb
    obtain ⟨hc, hr⟩ := (allDigits_cons c r).mp h
    rw [digitsValue_cons] at hb ⊢
    have hm := digitsValue_mono r (10 * n + (c.toNat - 48))
    have e : i64 ((n : Int) * 10 + ((c.toNat - 48 : Nat) : Int))
        = ((10 * n + (c.toNat - 48) : Nat) : Int) := by
      rw [i64_id]
      · push_cast
        ring
      · omega
      · omega
    rw [atoiLoop, if_neg ((not_digit_iff c).not.mpr (not_not.mpr hc)), e]
    exact ih _ hr hb

theorem atoiLoop_not_digits (s : List Char) :
    ∀ n : Int, allDigits s = false → atoiLoop s n = Option.none := by
  induction s with
  | nil =>
    intro n h
    exact absurd h (by decide)
  | cons c r ih =>
    intro n h
    by_cases hc : '0' ≤ c ∧ c ≤ '9'
    · have hr : allDigits r = false := by
        by_contra hn
        rw [Bool.not_eq_false] at hn
        rw [(allDigits_cons c r).mpr ⟨hc, hn⟩] at h
        exact absurd h (by decide)
      rw [atoiLoop, if_neg ((not_digit_iff c).not.mpr (not_not.mpr hc))]
      exact ih _ hr
    · rw [atoiLoop, if_pos ((not_digit_iff c).mpr hc)]

theorem parseUintLoop_digit (c : Char) (r : List Char) (n : Nat) (hc : '0' ≤ c ∧ c ≤ '9') :
    parseUintLoop (c :: r) n
      = if n ≥ maxUint64 / 10 + 1 then (maxUint64, some NumError.ErrRange)
        else if u64 ((u64 ((n : Int) * 10) : Int) + ((c.toNat - 48 : Nat) : Int))
              < u64 ((n : Int) * 10) ∨
            u64 ((u64 ((n : Int) * 10) : Int) + ((c.toNat - 48 : Nat) : Int)) > maxUint64
          then (maxUint64, some NumError.ErrRange)
        else parseUintLoop r (u64 ((u64 ((n : Int) * 10) : Int) + ((c.toNat - 48 : Nat) : Int))) := by
  have hd := digit_toNat c hc
  have h10 : ¬ (c.toNat - 48 ≥ 10) := by omega
  rw [parseUintLoop]
  simp only [hc, and_self, if_true, h10, if_false]

theorem parseUintLoop_not_digit (c : Char) (r : List Char) (n : Nat)
    (hc : ¬ ('0' ≤ c ∧ c ≤ '9')) :
    parseUintLoop (c :: r) n = (0, some NumError.ErrSyntax) := by
  rw [parseUintLoop]
  simp only [hc, if_false]
  by_cases hl : 97 ≤ lower c.toNat ∧ lower c.toNat ≤ 122
  · have h10 : lower c.toNat - 97 + 10 ≥ 10 := by omega
    simp only [hl, and_self, if_true, h10]
  · simp only [hl, if_false]

/-- One round of the loop of `ParseUint` on a digit, by the size of the value. -/
theorem parseUintLoop_step (c : Char) (r : List Char) (n : Nat) (hc : '0' ≤ c ∧ c ≤ '9')
    (hn : n < 18446744073709551616) :
    (10 * n + (c.toNat - 48) < 18446744073709551616 →
      parseUintLoop (c :: r) n = parseUintLoop r (10 * n + (c.toNat - 48))) ∧
    (18446744073709551616 ≤ 10 * n + (c.toNat - 48) →
      parseUintLoop (c :: r) n = (maxUint64, some NumError.ErrRange)) := by
  have hd := digit_toNat c hc
  rw [parseUintLoop_digit c r n hc]
  unfold maxUint64
  constructor
  · intro hb
    have e1 : u64 ((n : Int) * 10) = 10 * n := by
      have : (n : Int) * 10 = ((10 * n : Nat) : Int) := by push_cast; ring
      rw [this]
      exact u64_nat _ (by omega)
    have e2 : u64 (((10 * n : Nat) : Int) + ((c.toNat - 48 : Nat) : Int))
        = 10 * n + (c.toNat - 48) := by
      have : ((10 * n : Nat) : Int) + ((c.toNat - 48 : Nat) : Int)
          = ((10 * n + (c.toNat - 48) : Nat) : Int) := by push_cast; ring
      rw [this]
      exact u64_nat _ hb
    rw [e1, e2, if_neg (by omega), if_neg (by omega)]
  · intro hb
    by_cases hcut : n ≥ 18446744073709551615 / 10 + 1
    · rw [if_pos hcut]
    · rw [if_neg hcut]
      have hcut2 : n < 1844674407370955162 := by omega
      have e1 : u64 ((n : Int) * 10) = 10 * n := by
        have : (n : Int) * 10 = ((10 * n : Nat) : Int) := by push_cast; ring
        rw [this]
        exact u64_nat _ (by omega)
      have e2 : u64 (((10 * n : Nat) : Int) + ((c.toNat - 48 : Nat) : Int))
          = 10 * n + (c.toNat - 48) - 18446744073709551616 := by
        have : ((10 * n : Nat) : Int) + ((c.toNat - 48 : Nat) : Int)
            = ((10 * n + (c.toNat - 48) : Nat) : Int) := by push_cast; ring
        rw [this]
        exact u64_nat_wrap _ hb (by omega)
      rw [e1, e2, if_pos (Or.inl (by omega))]

theorem parseUintLoop_ok (s : List Char) :
    ∀ n : Nat, allDigits s = true → digitsValue n s < 18446744073709551616 →
      parseUintLoop s n = (digitsValue n s, Option.none) := by
  induction s with
  | nil =>
    intro n _ _
    rfl
  | cons c r ih =>
    intro n h hb
    obtain ⟨hc, hr⟩ := (allDigits_cons c r).mp h
    rw [digitsValue_cons] at hb ⊢
    have hm := digitsValue_mono r (10 * n + (c.toNat - 48))
    rw [(parseUintLoop_step c r n hc (by omega)).1 (by omega)]
    exact ih _ hr hb

theorem parseUintLoop_range (s : List Char) :
    ∀ n : Nat, allDigits s = true → n < 18446744073709551616 →
      18446744073709551616 ≤ digitsValue n s →
      parseUintLoop s n = (maxUint64, some NumError.ErrRange) := by
  induction s with
  | nil =>
    intro n _ hn hb
    unfold digitsValue at hb
    rw [List.foldl_nil] at hb
    omega
  | cons c r ih =>
    intro n h hn hb
    obtain ⟨hc, hr⟩ := (allDigits_cons c r).mp h
    rw [digitsValue_cons] at hb
    by_cases hlt : 10 * n + (c.toNat - 48) < 18446744073709551616
    · rw [(parseUintLoop_step c r n hc hn).1 hlt]
      exact ih _ hr hlt hb
    · exact (parseUintLoop_step c r n hc hn).2 (by omega)

theorem parseUintLoop_bad (s : List Char) :
    ∀ n : Nat, allDigits s = false → n < 18446744073709551616 →
      parseUintLoop s n = (0, some NumError.ErrSyntax) ∨
      parseUintLoop s n = (maxUint64, some NumError.ErrRange) := by
  induction s with
  | nil =>
    intro n h
    exact absurd h (by decide)
  | cons c r ih =>
    intro n h hn
    by_cases hc : '0' ≤ c ∧ c ≤ '9'
    · have hr : allDigits r = false := by
        by_contra hne
        rw [Bool.not_eq_false] at hne
        rw [(allDigits_cons c r).mpr ⟨hc, hne⟩] at h
        exact absurd h (by decide)
      by_cases hlt : 10 * n + (c.toNat - 48) < 18446744073709551616
      · rw [(parseUintLoop_step c r n hc hn).1 hlt]
        exact ih _ hr hlt
      · exact Or.inr ((parseUintLoop_step c r n hc hn).2 (by omega))
    · exact Or.inl (parseUintLoop_not_digit c r n hc)

theorem decimalNat_some (s : List Char) (v : Nat) (h : decimalNat s = some v) :
    s ≠ [] ∧ allDigits s = true ∧ v = digitsValue 0 s := by
  unfold decimalNat at h
  by_cases hc : s ≠ [] ∧ allDigits s = true
  · rw [if_pos hc] at h
    exact ⟨hc.1, hc.2, (Option.some.inj h).symm⟩
  · rw [if_neg hc] at h
    exact absurd h (by simp)

theorem decimalNat_none (s : List Char) (h : decimalNat s = Option.none) :
    s = [] ∨ allDigits s = false := by
  unfold decimalNat at h
  by_cases hc : s ≠ [] ∧ allDigits s = true
  · rw [if_pos hc] at h
    exact absurd h (by simp)
  · by_cases hs : s = []
    · exact Or.inl hs
    · right
      by_contra hn
      rw [Bool.not_eq_false] at hn
      exact hc ⟨hs, hn⟩

theorem ParseUint_ok (s : List Char) (v : Nat) (h : decimalNat s = some v)
    (hv : v < 18446744073709551616) : ParseUint s = (v, Option.none) := by
  obtain ⟨h1, h2, h3⟩ := decimalNat_some s v h
  unfold ParseUint
  rw [if_neg h1, h3]
  rw [h3] at hv
  exact parseUintLoop_ok s 0 h2 hv

theorem ParseUint_range (s : List Char) (v : Nat) (h : decimalNat s = some v)
    (hv : 18446744073709551616 ≤ v) : ParseUint s = (maxUint64, some NumError.ErrRange) := by
  obtain ⟨h1, h2, h3⟩ := decimalNat_some s v h
  unfold ParseUint
  rw [if_neg h1]
  rw [h3] at hv
  exact parseUintLoop_range s 0 h2 (by norm_num) hv

theorem ParseUint_bad (s : List Char) (h : decimalNat s = Option.none) :
    ParseUint s = (0, some NumError.ErrSyntax) ∨
    ParseUint s = (maxUint64, some NumError.ErrRange) := by
  unfold ParseUint
  rcases decimalNat_none s h with h1 | h1
  · rw [if_pos h1]
    exact Or.inl rfl
  · have hne : s ≠ [] := by
      intro e
      rw [e] at h1
      exact absurd h1 (by decide)
    rw [if_neg hne]
    exact parseUintLoop_bad s 0 h1 (by norm_num)

theorem signedValue_bad (neg : Bool) (s1 : List Char)
    (h : ParseUint s1 = (0, some NumError.ErrSyntax)) :
    signedValue neg s1 = (0, some NumError.ErrSyntax) := by
  unfold signedValue
  rw [h]

theorem signedValue_range (neg : Bool) (s1 : List Char)
    (h : ParseUint s1 = (maxUint64, some NumError.ErrRange)) :
    (signedValue neg s1).2 = some NumError.ErrRange := by
  unfold signedValue
  rw [h]
  cases neg
  · rfl
  · rfl

theorem signedValue_value (neg : Bool) (s1 : List Char) (v : Nat)
    (h : ParseUint s1 = (v, Option.none)) :
    signedValue neg s1
      = if (!neg) = true ∧ v ≥ 9223372036854775808
          then (((9223372036854775808 - 1 : Nat) : Int), some NumError.ErrRange)
        else if neg = true ∧ v > 9223372036854775808
          then (-((9223372036854775808 : Nat) : Int), some NumError.ErrRange)
        else ((if neg = true then i64 (-(i64 (v : Int))) else i64 (v : Int)), Option.none) := by
  unfold signedValue
  rw [h]

theorem signedValue_ok (neg : Bool) (s1 : List Char) (v : Nat) (h : decimalNat s1 = some v)
    (h1 : neg = false → v < 9223372036854775808)
    (h2 : neg = true → v ≤ 9223372036854775808) :
    signedValue neg s1 = ((if neg = true then -(v : Int) else (v : Int)), Option.none) := by
  have hv : v < 18446744073709551616 := by
    cases neg
    · have := h1 rfl
      omega
    · have := h2 rfl
      omega
  rw [signedValue_value neg s1 v (ParseUint_ok s1 v h hv)]
  cases neg
  · have := h1 rfl
    have e : i64 (v : Int) = (v : Int) := i64_id _ (by omega) (by omega)
    simp only [Bool.not_false, true_and, Bool.false_eq_true, false_and, if_false, e]
    rw [if_neg (by omega)]
  · have := h2 rfl
    have e : i64 (-(i64 (v : Int))) = -(v : Int) := by
      unfold i64
      omega
    simp only [Bool.not_true, Bool.false_eq_true, false_and, if_false, true_and, if_true, e]
    rw [if_neg (by omega)]

theorem signedValue_err (neg : Bool) (s1 : List Char)
    (h : decimalNat s1 = Option.none ∨
      ∃ v, decimalNat s1 = some v ∧
        ((neg = false ∧ 9223372036854775808 ≤ v) ∨ (neg = true ∧ 9223372036854775808 < v))) :
    (signedValue neg s1).2 ≠ Option.none := by
  rcases h with h | ⟨v, hv, hb⟩
  · rcases ParseUint_bad s1 h with e | e
    · rw [signedValue_bad neg s1 e]
      exact Option.some_ne_none _
    · rw [signedValue_range neg s1 e]
      exact Option.some_ne_none _
  · by_cases hbig : 18446744073709551616 ≤ v
    · rw [signedValue_range neg s1 (ParseUint_range s1 v hv hbig)]
      exact Option.some_ne_none _
    · rw [signedValue_value neg s1 v (ParseUint_ok s1 v hv (by omega))]
      rcases hb with ⟨hn, hb⟩ | ⟨hn, hb⟩
      · subst hn
        rw [if_pos ⟨rfl, hb⟩]
        exact Option.some_ne_none _
      · subst hn
        rw [if_neg (by simp), if_pos ⟨rfl, hb⟩]
        exact Option.some_ne_none _

/-- The three ways a text that is not empty can be read as a decimal integer. -/
theorem decimalInt_cons (c : Char) (r : List Char) :
    decimalInt (c :: r)
      = if c = '+' then (decimalNat r).map (fun (n : Nat) => (n : Int))
        else if c = '-' then (decimalNat r).map (fun (n : Nat) => -(n : Int))
        else (decimalNat (c :: r)).map (fun (n : Nat) => (n : Int)) := rfl

/-- The slow path agrees with the decimal reading, within the range of `int`. -/
theorem ParseInt_spec (s : List Char) :
    (∀ n : Int, decimalInt s = some n → -9223372036854775808 ≤ n → n < 9223372036854775808 →
      ParseInt s = (n, Option.none)) ∧
    (decimalInt s = Option.none → (ParseInt s).2 ≠ Option.none) ∧
    (∀ n : Int, decimalInt s = some n → (n < -9223372036854775808 ∨ 9223372036854775808 ≤ n) →
      (ParseInt s).2 ≠ Option.none) := by
  match s with
  | [] =>
    refine ⟨?_, ?_, ?_⟩
    · intro n h
      exact absurd h (by simp [decimalInt])
    · intro _
      exact Option.some_ne_none _
    · intro n h
      exact absurd h (by simp [decimalInt])
  | c :: r =>
    rw [ParseInt_cons, decimalInt_cons]
    by_cases hp : c = '+'
    · simp only [hp, if_true]
      refine ⟨?_, ?_, ?_⟩
      · intro n h h1 h2
        cases hd : decimalNat r with
        | none => rw [hd] at h; exact absurd h (by simp)
        | some v =>
          rw [hd] at h
          simp only [Option.map_some', Option.some.injEq] at h
          rw [signedValue_ok false r v hd (fun _ => by omega) (fun e => absurd e (by decide)), ← h]
          rfl
      · intro h
        apply signedValue_err
        left
        cases hd : decimalNat r with
        | none => rfl
        | some v => rw [hd] at h; exact absurd h (by simp)
      · intro n h hb
        cases hd : decimalNat r with
        | none => rw [hd] at h; exact absurd h (by simp)
        | some v =>
          rw [hd] at h
          simp only [Option.map_some', Option.some.injEq] at h
          apply signedValue_err
          right
          exact ⟨v, hd, Or.inl ⟨rfl, by omega⟩⟩
    · by_cases hm : c = '-'
      · have hmp : ¬ ('-' = '+') := by decide
        simp only [hm, hmp, if_true, if_false]
        refine ⟨?_, ?_, ?_⟩
        · intro n h h1 h2
          cases hd : decimalNat r with
          | none => rw [hd] at h; exact absurd h (by simp)
          | some v =>
            rw [hd] at h
            simp only [Option.map_some', Option.some.injEq] at h
            rw [signedValue_ok true r v hd (fun e => absurd e (by decide)) (fun _ => by omega),
              ← h]
            rfl
        · intro h
          apply signedValue_err
          left
          cases hd : decimalNat r with
          | none => rfl
          | some v => rw [hd] at h; exact absurd h (by simp)
        · intro n h hb
          cases hd : decimalNat r with
          | none => rw [hd] at h; exact absurd h (by simp)
          | some v =>
            rw [hd] at h
            simp only [Option.map_some', Option.some.injEq] at h
            apply signedValue_err
            right
            exact ⟨v, hd, Or.inr ⟨rfl, by omega⟩⟩
      · simp only [hp, hm, if_false]
        refine ⟨?_, ?_, ?_⟩
        · intro n h h1 h2
          cases hd : decimalNat (c :: r) with
          | none => rw [hd] at h; exact absurd h (by simp)
          | some v =>
            rw [hd] at h
            simp only [Option.map_some', Option.some.injEq] at h
            rw [signedValue_ok false (c :: r) v hd (fun _ => by omega)
              (fun e => absurd e (by decide)), ← h]
            rfl
        · intro h
          apply signedValue_err
          left
          cases hd : decimalNat (c :: r) with
          | none => rfl
          | some v => rw [hd] at h; exact absurd h (by simp)
        · intro n h hb
          cases hd : decimalNat (c :: r) with
          | none => rw [hd] at h; exact absurd h (by simp)
          | some v =>
            rw [hd] at h
            simp only [Option.map_some', Option.some.injEq] at h
            apply signedValue_err
            right
            exact ⟨v, hd, Or.inl ⟨rfl, by omega⟩⟩

theorem fastValue_signed (c : Char) (rest : List Char) (hc : c = '-' ∨ c = '+') :
    fastValue c rest
      = if len rest < 1 then (0, some NumError.ErrSyntax)
        else
          match atoiLoop rest 0 with
          | Option.none => (0, some NumError.ErrSyntax)
          | some n => (if c = '-' then i64 (-n) else n, Option.none) := by
  unfold fastValue
  simp only [hc, decide_True, if_true, true_and]

theorem fastValue_unsigned (c : Char) (rest : List Char) (hc : ¬ (c = '-' ∨ c = '+')) :
    fastValue c rest
      = match atoiLoop (c :: rest) 0 with
        | Option.none => (0, some NumError.ErrSyntax)
        | some n => (if c = '-' then i64 (-n) else n, Option.none) := by
  unfold fastValue
  simp only [hc, decide_False, Bool.false_eq_true, if_false, false_and]

/-- The digit loop of the fast path reads a run of at most 18 digits as its decimal value,
and nothing else. -/
theorem atoiLoop_decimalNat (s1 : List Char) (hlen : s1.length ≤ 18) (hne : s1 ≠ []) :
    (∀ v : Nat, decimalNat s1 = some v →
      atoiLoop s1 0 = some (v : Int) ∧ v < 1000000000000000000) ∧
    (decimalNat s1 = Option.none → atoiLoop s1 0 = Option.none) := by
  constructor
  · intro v h
    obtain ⟨-, h2, h3⟩ := decimalNat_some s1 v h
    have hb := digitsValue_lt s1 0 h2
    have hp : 10 ^ s1.length ≤ 10 ^ 18 := Nat.pow_le_pow_right (by norm_num) hlen
    have hp18 : (10 : Nat) ^ 18 = 1000000000000000000 := by norm_num
    have hv : v < 1000000000000000000 := by
      rw [h3]
      omega
    refine ⟨?_, hv⟩
    have := atoiLoop_digits s1 0 h2 (by omega)
    rw [h3]
    exact this
  · intro h
    rcases decimalNat_none s1 h with e | e
    · exact absurd e hne
    · exact atoiLoop_not_digits s1 0 e

theorem len_lt_one (s : List Char) (h : len s < 1) : s = [] := by
  cases s with
  | nil => rfl
  | cons c r =>
    have := len_pos c r
    omega

theorem len_cons (c : Char) (r : List Char) : len (c :: r) = c.utf8Size + len r := by
  unfold len
  rw [List.map_cons, List.sum_cons]

/-- The fast path agrees with the decimal reading; its values are within the range of
`int`. -/
theorem fastValue_spec (c : Char) (rest : List Char) (hl : len (c :: rest) < 19) :
    (∀ n : Int, decimalInt (c :: rest) = some n →
      fastValue c rest = (n, Option.none) ∧
      -9223372036854775808 ≤ n ∧ n < 9223372036854775808) ∧
    (decimalInt (c :: rest) = Option.none → (fastValue c rest).2 ≠ Option.none) := by
  have hlen1 := length_le_len (c :: rest)
  rw [List.length_cons] at hlen1
  have hlen : (c :: rest).length ≤ 18 := by
    rw [List.length_cons]
    omega
  have hlenr : rest.length ≤ 18 := by omega
  rw [decimalInt_cons]
  by_cases hp : c = '+'
  · rw [fastValue_signed c rest (Or.inr hp)]
    have hpm : ¬ (c = '-') := by
      rw [hp]
      decide
    simp only [hp, if_true]
    by_cases he : len rest < 1
    · have e := len_lt_one rest he
      subst e
      constructor
      · intro n h
        exact absurd h (by simp [decimalNat])
      · intro _
        rw [if_pos he]
        exact Option.some_ne_none _
    · have hne : rest ≠ [] := by
        intro e
        rw [e] at he
        exact he (by decide)
      rw [if_neg he]
      have hA := atoiLoop_decimalNat rest hlenr hne
      constructor
      · intro n h
        cases hd : decimalNat rest with
        | none => rw [hd] at h; exact absurd h (by simp)
        | some v =>
          rw [hd] at h
          simp only [Option.map_some', Option.some.injEq] at h
          obtain ⟨e1, e2⟩ := hA.1 v hd
          rw [e1]
          have hpm2 : ¬ ('+' = '-') := by decide
          simp only [hpm2, if_false]
          rw [← h]
          exact ⟨rfl, by omega, by omega⟩
      · intro h
        cases hd : decimalNat rest with
        | none =>
          rw [hA.2 hd]
          exact Option.some_ne_none _
        | some v => rw [hd] at h; exact absurd h (by simp)
  · by_cases hm : c = '-'
    · rw [fastValue_signed c rest (Or.inl hm)]
      have hmp : ¬ ('-' = '+') := by decide
      simp only [hm, hmp, if_true, if_false]
      by_cases he : len rest < 1
      · have e := len_lt_one rest he
        subst e
        constructor
        · intro n h
          exact absurd h (by simp [decimalNat])
        · intro _
          rw [if_pos he]
          exact Option.some_ne_none _
      · have hne : rest ≠ [] := by
          intro e
          rw [e] at he
          exact he (by decide)
        rw [if_neg he]
        have hA := atoiLoop_decimalNat rest hlenr hne
        constructor
        · intro n h
          cases hd : decimalNat rest with
          | none => rw [hd] at h; exact absurd h (by simp)
          | some v =>
            rw [hd] at h
            simp only [Option.map_some', Option.some.injEq] at h
            obtain ⟨e1, e2⟩ := hA.1 v hd
            rw [e1]
            simp only []
            rw [i64_id _ (by omega) (by omega), ← h]
            exact ⟨rfl, by omega, by omega⟩
        · intro h
          cases hd : decimalNat rest with
          | none =>
            rw [hA.2 hd]
            exact Option.some_ne_none _
          | some v => rw [hd] at h; exact absurd h (by simp)
    · rw [fastValue_unsigned c rest (fun h => h.elim hm hp)]
      simp only [hp, hm, if_false]
      have hA := atoiLoop_decimalNat (c :: rest) hlen (List.cons_ne_nil _ _)
      constructor
      · intro n h
        cases hd : decimalNat (c :: rest) with
        | none => rw [hd] at h; exact absurd h (by simp)
        | some v =>
          rw [hd] at h
          simp only [Option.map_some', Option.some.injEq] at h
          obtain ⟨e1, e2⟩ := hA.1 v hd
          rw [e1]
          simp only []
          rw [← h]
          exact ⟨rfl, by omega, by omega⟩
      · intro h
        cases hd : decimalNat (c :: rest) with
        | none =>
          rw [hA.2 hd]
          exact Option.some_ne_none _
        | some v => rw [hd] at h; exact absurd h (by simp)

/-- Go `strconv.Atoi` returns without error exactly on the decimal integers within the
range of `int`, with their value. -/
theorem Atoi_spec (s : String) :
    (∀ n : Int, decimalInteger s = some n → -9223372036854775808 ≤ n →
      n < 9223372036854775808 → Atoi s = (n, Option.none)) ∧
    (decimalInteger s = Option.none → (Atoi s).2 ≠ Option.none) ∧
    (∀ n : Int, decimalInteger s = some n →
      (n < -9223372036854775808 ∨ 9223372036854775808 ≤ n) → (Atoi s).2 ≠ Option.none) := by
  unfold decimalInteger
  by_cases hf : 0 < len s.data ∧ len s.data < 19
  · cases hs : s.data with
    | nil =>
      rw [hs] at hf
      exact absurd hf.1 (by decide)
    | cons c rest =>
      rw [Atoi_fast s c rest hs hf]
      rw [hs] at hf
      have hF := fastValue_spec c rest hf.2
      refine ⟨?_, hF.2, ?_⟩
      · intro n h _ _
        exact (hF.1 n h).1
      · intro n h hb
        have := (hF.1 n h).2
        omega
  · rw [Atoi_slow s hf]
    exact ParseInt_spec s.data

/-! ## The month of the request handler -/

theorem handlerMonth_eq (now : Time) (vs : List String) :
    handlerMonth now vs
      = if Get vs ≠ "" then
          match Atoi (Get vs) with
          | (mi, Option.none) => if mi ≥ 1 ∧ mi ≤ 12 then mi else defaultMonth now
          | (_, some _) => defaultMonth now
        else defaultMonth now := rfl

theorem defaultMonth_range (now : Time) : 1 ≤ defaultMonth now ∧ defaultMonth now ≤ 12 := by
  unfold defaultMonth
  by_cases h : now.Year = 2026
  · rw [if_pos h]
    exact Month_range now
  · rw [if_neg h]
    exact ⟨by norm_num, by norm_num⟩

theorem handlerMonth_of_error (now : Time) (vs : List String)
    (h : (Atoi (Get vs)).2 ≠ Option.none) : handlerMonth now vs = defaultMonth now := by
  rw [handlerMonth_eq]
  by_cases he : Get vs ≠ ""
  · rw [if_pos he]
    cases hA : Atoi (Get vs) with
    | mk a e =>
      rw [hA] at h
      cases e with
      | none => exact absurd rfl h
      | some x => rfl
  · rw [if_neg he]

theorem handlerMonth_of_value (now : Time) (vs : List String) (n : Int)
    (h : Atoi (Get vs) = (n, Option.none)) :
    handlerMonth now vs = if n ≥ 1 ∧ n ≤ 12 then n else defaultMonth now := by
  have he : Get vs ≠ "" := by
    intro e
    rw [e] at h
    have h0 : (Atoi "").2 = some NumError.ErrSyntax := by decide
    rw [h] at h0
    exact absurd h0 (by simp)
  rw [handlerMonth_eq, if_pos he, h]

/-- C17: month selection in the request handler.  For every value of the query parameter
`m` (the list of its values, empty when it is absent) and every current time, the month
passed to `buildPage` is in 1..12; it is the value of `m` when `m` is a decimal integer
in 1..12; in every other case (no parameter, the empty text, a text that is no decimal
integer, a value out of 1..12) it is the default, the current month when the current year
is 2026 and 1 otherwise. -/
theorem handlerMonth_selection (now : Time) (vs : List String) :
    (1 ≤ handlerMonth now vs ∧ handlerMonth now vs ≤ 12) ∧
    (∀ n : Int, decimalInteger (Get vs) = some n → 1 ≤ n → n ≤ 12 →
      handlerMonth now vs = n) ∧
    ((∀ n : Int, decimalInteger (Get vs) = some n → n < 1 ∨ 12 < n) →
      handlerMonth now vs = defaultMonth now) ∧
    (vs = [] ∨ Get vs = "" → handlerMonth now vs = defaultMonth now) ∧
    (defaultMonth now = if now.Year = 2026 then now.Month else 1) := by
  have hS := Atoi_spec (Get vs)
  have hD := defaultMonth_range now
  have hin : ∀ n : Int, decimalInteger (Get vs) = some n → 1 ≤ n → n ≤ 12 →
      handlerMonth now vs = n := by
    intro n h h1 h2
    rw [handlerMonth_of_value now vs n (hS.1 n h (by omega) (by omega)), if_pos ⟨h1, h2⟩]
  have hout : (∀ n : Int, decimalInteger (Get vs) = some n → n < 1 ∨ 12 < n) →
      handlerMonth now vs = defaultMonth now := by
    intro h
    cases hd : decimalInteger (Get vs) with
    | none => exact handlerMonth_of_error now vs (hS.2.1 hd)
    | some n =>
      have hn := h n hd
      by_cases hr : -9223372036854775808 ≤ n ∧ n < 9223372036854775808
      · rw [handlerMonth_of_value now vs n (hS.1 n hd hr.1 hr.2), if_neg (by omega)]
      · exact handlerMonth_of_error now vs (hS.2.2 n hd (by omega))
  refine ⟨?_, hin, hout, ?_, rfl⟩
  · by_cases h : ∃ n : Int, decimalInteger (Get vs) = some n ∧ 1 ≤ n ∧ n ≤ 12
    · obtain ⟨n, hn, h1, h2⟩ := h
      rw [hin n hn h1 h2]
      exact ⟨h1, h2⟩
    · rw [hout (fun n hn => by
        by_contra hc
        exact h ⟨n, hn, by omega, by omega⟩)]
      exact hD
  · intro h
    have he : Get vs = "" := by
      rcases h with h | h
      · rw [h]
        rfl
      · exact h
    apply hout
    intro n hn
    rw [he] at hn
    have h0 : decimalInteger "" = Option.none := by decide
    rw [h0] at hn
    exact absurd hn (by simp)

theorem handlerMonth_selection_witness :
    decimalInteger (Get ["7"]) = some 7 ∧ handlerMonth (Date 2026 11 2 0 0 0 UTC) ["7"] = 7 ∧
    decimalInteger (Get ["13"]) = some 13 ∧ defaultMonth (Date 2026 11 2 0 0 0 UTC) = 11 ∧
    handlerMonth (Date 2026 11 2 0 0 0 UTC) ["13"] = 11 ∧
    decimalInteger (Get ["+07"]) = some 7 ∧ handlerMonth (Date 2025 3 9 0 0 0 UTC) ["+07"] = 7 ∧
    decimalInteger (Get ["Mar"]) = Option.none ∧ defaultMonth (Date 2025 3 9 0 0 0 UTC) = 1 ∧
    handlerMonth (Date 2025 3 9 0 0 0 UTC) ["Mar"] = 1 ∧
    handlerMonth (Date 2026 11 2 0 0 0 UTC) [] = 11 := by
  have e1 : decimalInteger (Get ["7"]) = some 7 := by decide
  have e2 : decimalInteger (Get ["13"]) = some 13 := by decide
  have e3 : decimalInteger (Get ["+07"]) = some 7 := by decide
  have e4 : decimalInteger (Get ["Mar"]) = Option.none := by decide
  have d1 : defaultMonth (Date 2026 11 2 0 0 0 UTC) = 11 := by decide
  have d2 : defaultMonth (Date 2025 3 9 0 0 0 UTC) = 1 := by decide
  refine ⟨e1, (handlerMonth_selection _ _).2.1 7 e1 (by norm_num) (by norm_num), e2, d1, ?_,
    e3, (handlerMonth_selection _ _).2.1 7 e3 (by norm_num) (by norm_num), e4, d2, ?_, ?_⟩
  · rw [← d1]
    apply (handlerMonth_selection _ _).2.2.1
    intro n hn
    rw [e2] at hn
    have := Option.some.inj hn
    omega
  · rw [← d2]
    apply (handlerMonth_selection _ _).2.2.1
    intro n hn
    rw [e4] at hn
    exact absurd hn (by simp)
  · rw [← d1]
    exact (handlerMonth_selection _ _).2.2.2.1 (Or.inl rfl)

/-! ## Loading twice -/

/-- The row loop of `loadHolidays` started from any map: at a key the result holds the
defaulted label of the last row with that key, and what the map held when no row has
the key. -/
theorem foldl_loadStep_eq (rows : List (List String)) (hol : HolMap) (k : String) :
    (rows.foldl loadStep hol) k
      = match lastRowWithKey rows k with
        | some r => some (defaultedLabel r)
        | Option.none => hol k := by
  induction rows using List.reverseRecOn with
  | nil => rfl
  | append_singleton rows row ih =>
    rw [List.foldl_append, List.foldl_cons, List.foldl_nil, loadStep_eq, lastRowWithKey_concat]
    by_cases h : rowKey row = some k
    · simp only [h, if_true]
    · simp only [h, if_false]
      exact ih

/-- C19: load is repeatable.  The load pass is the fold of the round of the row loop over
the rows from the empty map, and a round reads only the map so far and its row: two runs
on the same rows return tables with the same keys and the same label at every key.  The
second run may even write into the table that the first run returned instead of a fresh
map, or read the rows twice in a row: the table is the same. -/
theorem loadRows_repeatable (rows : List (List String)) :
    (∀ first second : HolMap, first = loadRows rows → second = rows.foldl loadStep HolMap.empty →
      (∀ k : String, first k ≠ Option.none ↔ second k ≠ Option.none) ∧
      (∀ k : String, first k = second k) ∧
      (∀ k : String, first.index k = second.index k)) ∧
    rows.foldl loadStep (loadRows rows) = loadRows rows ∧
    loadRows (rows ++ rows) = loadRows rows := by
  have h2 : rows.foldl loadStep (loadRows rows) = loadRows rows := by
    funext k
    rw [foldl_loadStep_eq]
    cases hl : lastRowWithKey rows k with
    | none => rfl
    | some r =>
      rw [loadRows_eq_last, hl]
      rfl
  refine ⟨?_, h2, ?_⟩
  · intro first second h1 h3
    have e : first = second := by
      rw [h1, h3]
      rfl
    subst e
    exact ⟨fun _ => Iff.rfl, fun _ => rfl, fun _ => rfl⟩
  · have e : loadRows (rows ++ rows) = rows.foldl loadStep (loadRows rows) := by
      unfold loadRows
      rw [List.foldl_append]
    rw [e, h2]

theorem loadRows_repeatable_witness :
    loadRows [["2026-05-04", "憲法記念日"], ["2026/5/4", ""], ["x", "y"]] "2026-05-04"
      = some "祝日" ∧
    [["2026-05-04", "憲法記念日"], ["2026/5/4", ""], ["x", "y"]].foldl loadStep
        (loadRows [["2026-05-04", "憲法記念日"], ["2026/5/4", ""], ["x", "y"]])
      = loadRows [["2026-05-04", "憲法記念日"], ["2026/5/4", ""], ["x", "y"]] ∧
    (∀ k : String,
      loadRows [["2026-05-04", "憲法記念日"], ["2026/5/4", ""], ["x", "y"]] k
        = [["2026-05-04", "憲法記念日"], ["2026/5/4", ""], ["x", "y"]].foldl loadStep
            HolMap.empty k) := by
  refine ⟨by rfl, (loadRows_repeatable _).2.1, ?_⟩
  exact ((loadRows_repeatable [["2026-05-04", "憲法記念日"], ["2026/5/4", ""], ["x", "y"]]).1
    _ _ rfl rfl).2.1

end HolidayCalendar
